import Mathlib

/-!
# A verification development for the `urlql` lexer/parser core

This file gives a shallow embedding of the `urlql` query-language core
(`src/tokens.ts`, `src/parser.ts`, `src/urlql.ts`) and proves properties of
the embedded definitions.

Conventions of the embedding:
* JavaScript strings are modelled as `String`/`List Char`.
* Each tokenizer rule (an anchored JavaScript regular expression) is
  modelled as a function `List Char → Option Nat` returning the length of
  the match at the start of the input, mirroring the backtracking
  behaviour of the JS regex engine on that particular pattern.
* JavaScript numbers produced by `Number(...)` on decimal literals are
  modelled as exact rationals (`ℚ`); `NaN` gets its own constructor.
* JavaScript objects are modelled as insertion-ordered association lists;
  assigning to an existing key keeps its position, assigning to a fresh
  key appends.
* Thrown exceptions are modelled with `Except`: `SyntaxError`s carry their
  data explicitly, and a `TypeError` caused by reading a property of
  `undefined` is the positionless `PErr.typeErr`.
-/

namespace Urlql

/-- Convenience: the single-quote character. -/
def quoteC : Char := Char.ofNat 39

/-- Convenience: the backslash character. -/
def bslashC : Char := Char.ofNat 92

/-- Convenience: the left-brace character. -/
def lbraceC : Char := Char.ofNat 123

/-- Convenience: the right-brace character. -/
def rbraceC : Char := Char.ofNat 125

/-- Token kinds, mirroring the `tokenTypes` list in `src/tokens.ts`. -/
inductive TokenType where
  | regex | string | number | boolean | null
  | opNe | opGte | opLte | opRegex | opEq | opGt | opLt
  | or | and | lparen | rparen | lbrace | rbrace | comma | bang
  | keyword | word | ws
deriving DecidableEq

/-- A token: `{ type, value, pos }` as in `src/tokens.ts`. -/
structure Token where
  type : TokenType
  value : String
  pos : Nat
deriving DecidableEq

/-! ## Character classes used by the tokenizer's regular expressions -/

/-- JavaScript's `\s` character class (whitespace). -/
def jsWs (c : Char) : Bool :=
  c = ' ' ∨ c = '\t' ∨ c = '\n' ∨ c = '\r' ∨ c = Char.ofNat 11 ∨ c = Char.ofNat 12 ∨
  c = Char.ofNat 0xa0 ∨ c = Char.ofNat 0x1680 ∨
  (Char.ofNat 0x2000 ≤ c ∧ c ≤ Char.ofNat 0x200a) ∨
  c = Char.ofNat 0x2028 ∨ c = Char.ofNat 0x2029 ∨ c = Char.ofNat 0x202f ∨
  c = Char.ofNat 0x205f ∨ c = Char.ofNat 0x3000 ∨ c = Char.ofNat 0xfeff

/-- JavaScript's `.` without the `s` flag: any char except line terminators. -/
def jsDot (c : Char) : Bool :=
  ¬ (c = '\n' ∨ c = '\r' ∨ c = Char.ofNat 0x2028 ∨ c = Char.ofNat 0x2029)

/-- ASCII decimal digit (`\d`). -/
def digitC (c : Char) : Bool := '0' ≤ c ∧ c ≤ '9'

/-- `[1-9]`. -/
def digit19 (c : Char) : Bool := '1' ≤ c ∧ c ≤ '9'

/-- `[A-Za-z0-9_]`, the keyword-identifier class. -/
def kwChar (c : Char) : Bool :=
  ('A' ≤ c ∧ c ≤ 'Z') ∨ ('a' ≤ c ∧ c ≤ 'z') ∨ digitC c ∨ c = '_'

/-- `[A-Za-z0-9_.]`, the bare word / field-name class. -/
def wordChar (c : Char) : Bool := kwChar c ∨ c = '.'

/-- `[imsux]`, the regex flag letters. -/
def flagChar (c : Char) : Bool := c = 'i' ∨ c = 'm' ∨ c = 's' ∨ c = 'u' ∨ c = 'x'

/-- The characters excluded by `[^&^)=><!]` (and also by `[^&^)\s=><!]`). -/
def excl9 (c : Char) : Bool :=
  c = '&' ∨ c = '^' ∨ c = ')' ∨ c = '=' ∨ c = '>' ∨ c = '<' ∨ c = '!'

/-- `[^&^)\s=><!]`: the leading class of the unquoted-string rule. -/
def class1 (c : Char) : Bool := ¬ excl9 c ∧ ¬ jsWs c

/-- `[^&^)=><!]`: the trailing class of the unquoted-string rule. -/
def class2 (c : Char) : Bool := ¬ excl9 c

/-- `(?:\s|\+)`. -/
def wsOrPlus (c : Char) : Bool := jsWs c ∨ c = '+'

/-- The class matched by the `ws` rule `/^[\\s]+/u`.  In a JavaScript regex
literal `[\\s]` is the class containing a literal backslash and the letter
`s` (not the whitespace class). -/
def wsRuleChar (c : Char) : Bool := c = bslashC ∨ c = 's'

/-! ## Rule matchers

Each matcher mirrors one entry of the `tokens` array in `src/tokens.ts`,
returning the length of the anchored match, or `none`. -/

/-- Length of the maximal prefix run of characters satisfying `p`. -/
def runLen (p : Char → Bool) : List Char → Nat
  | [] => 0
  | c :: cs => if p c then runLen p cs + 1 else 0

/-- Match an exact literal character sequence at the start of the input. -/
def litLen (lit : List Char) (s : List Char) : Option Nat :=
  if lit.isPrefixOf s then some lit.length else none

/-- Scan `(?:\\.|[^\\<delim>])*` followed by the closing delimiter, starting
just after the opening delimiter; returns the number of characters
consumed including the closing delimiter.  The scan is deterministic: a
backslash can only be consumed as an escape pair `\\.`, a character other
than the delimiter and backslash as itself, and the scan must stop at the
delimiter (backtracking in the JS engine cannot produce any other match,
since every earlier stopping point sits before a non-delimiter char). -/
def escTail (delim : Char) : List Char → Option Nat
  | [] => none
  | c :: cs =>
    if c = delim then some 1
    else if c = bslashC then
      match cs with
      | [] => none
      | d :: ds => if jsDot d then (escTail delim ds).map (· + 2) else none
    else (escTail delim cs).map (· + 1)

/-- Rule `/^\/(?:\\.|[^\\/])*\/[imsux]*/u` — regex literal. -/
def matchRegexLit : List Char → Option Nat
  | [] => none
  | c :: cs =>
    if c = '/' then
      (escTail '/' cs).map (fun n => 1 + n + runLen flagChar (cs.drop n))
    else none

/-- Rule for single-quoted string literals, `/^'(?:\\.|[^'\\])*'/u`. -/
def matchStrLit : List Char → Option Nat
  | [] => none
  | c :: cs =>
    if c = quoteC then (escTail quoteC cs).map (· + 1)
    else none

/-- Optional fraction part `(?:\.\d+)?`; returns its length (0 if absent). -/
def fracLen : List Char → Nat
  | '.' :: d :: ds => if digitC d then 2 + runLen digitC ds else 0
  | _ => 0

/-- Unsigned core `(?:0(?!\d)|[1-9]\d*)(?:\.\d+)?(?!\d)` of the number
rule.  The trailing `(?!\d)` is automatically satisfied because the digit
runs are maximal. -/
def numCore : List Char → Option Nat
  | [] => none
  | c :: cs =>
    if c = '0' then
      match cs with
      | d :: _ => if digitC d then none else some (1 + fracLen cs)
      | [] => some 1
    else if digit19 c then
      let n := runLen digitC cs
      some (1 + n + fracLen (cs.drop n))
    else none

/-- Rule `/^-?(?:0(?!\d)|[1-9]\d*)(?:\.\d+)?(?!\d)/u` — number literal.  When the
sign is present but the core fails, backtracking to the empty sign also
fails (the core never matches a leading `-`), so the translation is direct. -/
def matchNumber : List Char → Option Nat
  | '-' :: cs => (numCore cs).map (· + 1)
  | s => numCore s

/-- Rule `/^(?:true|false)/u` — boolean literal. -/
def matchBoolean (s : List Char) : Option Nat :=
  match litLen ['t', 'r', 'u', 'e'] s with
  | some n => some n
  | none => litLen ['f', 'a', 'l', 's', 'e'] s

/-- Rule `/^null/u` — null literal. -/
def matchNull (s : List Char) : Option Nat :=
  litLen ['n', 'u', 'l', 'l'] s

/-- Rule `/^\$!?[A-Za-z0-9_]+/u` — reserved keyword.  If the optional `!` is
taken but no identifier char follows, backtracking to the empty option
cannot succeed either (`!` is not an identifier char), so the translation
is direct. -/
def matchKeyword : List Char → Option Nat
  | '$' :: '!' :: ds =>
    let n := runLen kwChar ds
    if 0 < n then some (2 + n) else none
  | '$' :: cs =>
    let n := runLen kwChar cs
    if 0 < n then some (1 + n) else none
  | _ => none

/-- Backtracking search for the start of the `(?:\s|\+)+` part of the
unquoted-string rule: positions `j, j-1, …, 1` are tried in order (the JS
engine gives back the greedy `[^&^)\s=><!]+` run one character at a time;
that run must keep at least one character). -/
def findSplitDown (s : List Char) : Nat → Option Nat
  | 0 => none
  | j + 1 =>
    match s.get? (j + 1) with
    | some c => if wsOrPlus c then some (j + 1) else findSplitDown s j
    | none => findSplitDown s j

/-- One iteration of the group `[^&^)\s=><!]+(?:\s|\+)+[^&^)=><!]*`:
the leading class run is taken greedily, then given back until `(?:\s|\+)+`
can start; both following runs are greedy (nothing after them can fail). -/
def iterOnce (s : List Char) : Option Nat :=
  let a := runLen class1 s
  if a = 0 then none
  else
    let split? :=
      match s.get? a with
      | some c => if wsOrPlus c then some a else findSplitDown s (a - 1)
      | none => findSplitDown s (a - 1)
    match split? with
    | none => none
    | some k =>
      let b := runLen wsOrPlus (s.drop k)
      let c := runLen class2 (s.drop (k + b))
      some (k + b + c)

/-- Greedy `+` iteration over `iterOnce` (the whole pattern is just this
group, so once an iteration fails the match ends with what was consumed). -/
def rule9Loop : Nat → List Char → Option Nat
  | 0, _ => none
  | fuel + 1, s =>
    match iterOnce s with
    | none => none
    | some n =>
      match rule9Loop fuel (s.drop n) with
      | some m => some (n + m)
      | none => some n

/-- Rule `/^(?:[^&^)\s=><!]+(?:\s|\+)+[^&^)=><!]*)+/u` — unquoted string with
embedded whitespace or plus signs. -/
def matchWsStr (s : List Char) : Option Nat :=
  rule9Loop (s.length + 1) s

/-- Rule `/^[A-Za-z0-9_.]+/u` — bare word / field name. -/
def matchWord (s : List Char) : Option Nat :=
  let n := runLen wordChar s
  if 0 < n then some n else none

/-- Rule `/^[\\s]+/u` — the "whitespace" rule as actually written: one or more
backslashes or letters `s`. -/
def matchWsRule (s : List Char) : Option Nat :=
  let n := runLen wsRuleChar s
  if 0 < n then some n else none

/-- The ordered rule table, mirroring the `tokens` array. -/
def rules : List ((List Char → Option Nat) × TokenType) :=
  [(matchRegexLit, .regex),
   (matchStrLit, .string),
   (matchNumber, .number),
   (matchBoolean, .boolean),
   (matchNull, .null),
   (litLen ['!', '='], .opNe),
   (litLen ['>', '='], .opGte),
   (litLen ['<', '='], .opLte),
   (litLen ['~', '='], .opRegex),
   (litLen ['='], .opEq),
   (litLen ['>'], .opGt),
   (litLen ['<'], .opLt),
   (litLen ['^'], .or),
   (litLen ['&'], .and),
   (litLen ['('], .lparen),
   (litLen [')'], .rparen),
   (litLen [lbraceC], .lbrace),
   (litLen [rbraceC], .rbrace),
   (litLen [','], .comma),
   (litLen ['!'], .bang),
   (matchKeyword, .keyword),
   (matchWsStr, .string),
   (matchWord, .word),
   (matchWsRule, .ws)]

/-- Ordered-first-match over a rule table. -/
def firstMatch (rs : List ((List Char → Option Nat) × TokenType)) (s : List Char) :
    Option (TokenType × Nat) :=
  match rs with
  | [] => none
  | (m, ty) :: rest =>
    match m s with
    | some n => some (ty, n)
    | none => firstMatch rest s

/-! ## Errors -/

/-- Errors thrown by the lexer, the parser, and the surrounding glue.
The parser's own `SyntaxError`s carry their data (offending text/char and
offset) explicitly; `typeErr` models a `TypeError` raised by reading a
property of `undefined` (it carries no offset); `regexErr` models the
positionless `SyntaxError` raised by the `RegExp` constructor itself when
it rejects a lexed pattern/flags pair; `uriErr` models a `URIError` from
`decodeURIComponent`. -/
inductive PErr where
  | lexErr (c : Char) (pos : Nat)
  | expected (ty : TokenType) (got : String) (pos : Nat)
  | eofExpected (pos : Option Nat)
  | invalidBetween (pos : Nat)
  | unsupportedOp (v : String) (pos : Nat)
  | badLiteral (v : String) (pos : Nat)
  | typeErr
  | regexErr
  | uriErr
  | outOfFuel
deriving DecidableEq

/-- The lexer loop of `lex` in `src/tokens.ts`: repeatedly apply the first
matching rule at the current position, skipping `ws` tokens, failing on an
unmatched character.  Fuel is an upper bound on the number of iterations;
every rule consumes at least one character, so `length + 1` is enough. -/
def lexGo : Nat → List Char → Nat → Except PErr (List Token)
  | 0, _, _ => .error .outOfFuel
  | _ + 1, [], _ => .ok []
  | fuel + 1, c :: cs, idx =>
    match firstMatch rules (c :: cs) with
    | none => .error (.lexErr c idx)
    | some (ty, n) =>
      match lexGo fuel ((c :: cs).drop n) (idx + n) with
      | .error e => .error e
      | .ok rest =>
        if ty = .ws then .ok rest
        else .ok (⟨ty, String.mk ((c :: cs).take n), idx⟩ :: rest)

/-- `lex` from `src/tokens.ts`. -/
def lexChars (s : List Char) : Except PErr (List Token) :=
  lexGo (s.length + 1) s 0

/-! ## JavaScript values

`JVal` models the dynamic values the parser builds: primitive literals,
arrays, and insertion-ordered objects. -/

/-- A JavaScript value as produced by the parser. -/
inductive JVal where
  | str (s : String)
  | num (q : ℚ)
  | nan
  | bool (b : Bool)
  | null
  | regex (pat : String) (flags : String)
  | arr (elems : List JVal)
  | obj (entries : List (String × JVal))

/-- The `isPrimitive` guard of `src/parser.ts`: string, number, boolean,
null, RegExp or Date (`NaN` is a number). -/
def isPrimitive : JVal → Bool
  | .str _ => true
  | .num _ => true
  | .nan => true
  | .bool _ => true
  | .null => true
  | .regex _ _ => true
  | .arr _ => false
  | .obj _ => false

/-- Lookup of a key in an insertion-ordered object. -/
def objGet (l : List (String × JVal)) (k : String) : Option JVal :=
  match l with
  | [] => none
  | (k', v) :: rest => if k' = k then some v else objGet rest k

/-- The `key in obj` test. -/
def objHas (l : List (String × JVal)) (k : String) : Bool :=
  (objGet l k).isSome

/-- JavaScript assignment `obj[k] = v`: an existing key keeps its position,
a fresh key is appended. -/
def objSet (l : List (String × JVal)) (k : String) (v : JVal) : List (String × JVal) :=
  match l with
  | [] => [(k, v)]
  | (k', v') :: rest => if k' = k then (k, v) :: rest else (k', v') :: objSet rest k v

/-- `Object.entries` on a parser node (parser nodes are always objects). -/
def entriesOf : JVal → List (String × JVal)
  | .obj l => l
  | _ => []

/-- `Object.keys` on a value known to be non-primitive.  For an array the
keys are the element indices (never reached by the parser: field values
are primitives or operator maps). -/
def keysOfVal : JVal → List String
  | .obj l => l.map (fun e => e.1)
  | .arr l => (List.range l.length).map (fun n => toString n)
  | _ => []

/-! ## Numbers

`Number(...)` on the decimal texts occurring here is modelled exactly by a
rational.  (Very long literals would lose precision in IEEE doubles; no
value compared in this development does.  Hex/exponent forms accepted by
`Number` are outside the modelled fragment.) -/

/-- Value of a list of decimal digits. -/
def digitsToNat (l : List Char) : Nat :=
  l.foldl (fun a c => a * 10 + (c.toNat - 48)) 0

/-- Unsigned decimal `digits[.digits]` as an exact rational. -/
def parseUDecQ (l : List Char) : Option ℚ :=
  let ip := l.takeWhile digitC
  let rest := l.dropWhile digitC
  match rest with
  | [] => if ip = [] then none else some (digitsToNat ip)
  | '.' :: fp =>
    if fp.all digitC ∧ (ip ≠ [] ∨ fp ≠ []) then
      some ((digitsToNat ip : ℚ) + (digitsToNat fp : ℚ) / ((10 : ℚ) ^ fp.length))
    else none
  | _ => none

/-- Signed decimal as an exact rational. -/
def parseDecQ : List Char → Option ℚ
  | '-' :: rest => (parseUDecQ rest).map (fun q => -q)
  | '+' :: rest => parseUDecQ rest
  | l => parseUDecQ l

/-- Model of `Number(s)` for the strings reaching it here: surrounding
whitespace is trimmed, the empty string is `0`, decimal texts are exact,
anything else is `NaN`. -/
def jsNumberV (s : String) : JVal :=
  let l := (s.data.dropWhile jsWs).reverse.dropWhile jsWs |>.reverse
  if l = [] then .num 0
  else
    match parseDecQ l with
    | some q => .num q
    | none => .nan

/-! ## The insight tracker -/

/-- The insight tracker: a `Map<string, Set<string>>` modelled as an
insertion-ordered association list of insertion-ordered lists. -/
abbrev Insights := List (String × List String)

/-- `captureInsights` from `src/parser.ts`: create the set on first use,
then add the operator tag. -/
def captureInsights (ins : Insights) (field : String) (op : String) : Insights :=
  match ins with
  | [] => [(field, [op])]
  | (f, ops) :: rest =>
    if f = field then (f, if op ∈ ops then ops else ops ++ [op]) :: rest
    else (f, ops) :: captureInsights rest field op

/-- Membership of a tag in a field's tracked set. -/
def insHas (ins : Insights) (field : String) (op : String) : Bool :=
  match ins with
  | [] => false
  | (f, ops) :: rest => if f = field then op ∈ ops else insHas rest field op

/-! ## The conjunction merge algorithm (`mergeConjunction`) -/

/-- JavaScript `new Set(xs)` for a list of strings: insertion-order dedup. -/
def jsSetOfList (l : List String) : List String :=
  l.foldl (fun acc x => if x ∈ acc then acc else acc ++ [x]) []

/-- JavaScript `new Set(s)` for a *string* argument iterates the string's
characters, so `new Set('$eq')` is the set of one-character strings
`"$"`, `"e"`, `"q"` — exactly as written in `src/parser.ts` line 206. -/
def jsSetOfString (s : String) : List String :=
  jsSetOfList (s.data.map (fun c => String.mk [c]))

/-- Processing of one `[key, val]` entry of a simple node inside
`mergeConjunction`'s loop (state: output list × current accumulator). -/
def mergeEntry (st : List JVal × List (String × JVal)) (kv : String × JVal) :
    List JVal × List (String × JVal) :=
  let (merged, cm) := st
  let (key, val) := kv
  if objHas cm key then
    let cur := (objGet cm key).getD .null
    let currentOps := if isPrimitive cur then ["$eq"] else keysOfVal cur
    let otherOps := if isPrimitive val then jsSetOfString "$eq" else jsSetOfList (keysOfVal val)
    if currentOps.any (fun op => decide (op ∈ otherOps)) then
      -- conflict: flush the accumulator and start a fresh (empty) one;
      -- note the incoming value is not retained (as in the source)
      (merged ++ [JVal.obj cm], [])
    else
      let e0 := currentOps.foldl
        (fun acc op => objSet acc op (if isPrimitive cur then cur else (objGet (entriesOf cur) op).getD .null))
        ([] : List (String × JVal))
      let e1 := otherOps.foldl
        (fun acc op => objSet acc op (if isPrimitive val then val else (objGet (entriesOf val) op).getD .null))
        e0
      (merged, objSet cm key (.obj e1))
  else (merged, objSet cm key val)

/-- Processing of one node of the conjunction. -/
def mergeNode (st : List JVal × List (String × JVal)) (node : JVal) :
    List JVal × List (String × JVal) :=
  if objHas (entriesOf node) "$or" ∨ objHas (entriesOf node) "$and" then
    (st.1 ++ [node], st.2)
  else (entriesOf node).foldl mergeEntry st

/-- `mergeConjunction` from `src/parser.ts`: flatten the nodes of an
AND-group where safe; `none` mirrors the `?? null` result on empty input. -/
def mergeConjunction (nodes : List JVal) : Option JVal :=
  let (merged, cm) := nodes.foldl mergeNode ([], [])
  let merged := if 0 < cm.length then merged ++ [JVal.obj cm] else merged
  if 1 < merged.length then some (.obj [("$and", .arr merged)])
  else merged.head?

/-- `buildExists` from `src/parser.ts`. -/
def buildExists (fields : List String) (positive : Bool) : JVal :=
  .obj (fields.foldl (fun acc f => objSet acc f (.obj [("$exists", .bool positive)])) [])

/-- The `opMap` table from `src/parser.ts`. -/
def opMap : TokenType → Option String
  | .opEq => some "$eq"
  | .opNe => some "$ne"
  | .opGt => some "$gt"
  | .opGte => some "$gte"
  | .opLt => some "$lt"
  | .opLte => some "$lte"
  | .opRegex => some "$regex"
  | _ => none

/-- `unescapeString` from `src/parser.ts`:
`str.replace(/(^'|'$)/gu, '')` removes one leading and one trailing quote
independently (on the one-character string `'` only the leading match
fires, since the global search continues past it). -/
def unescapeString (s : String) : String :=
  let l := s.data
  let l1 := if l.head? = some quoteC then l.tail else l
  let l2 := if l1.getLast? = some quoteC then l1.dropLast else l1
  String.mk l2

/-- The two slices `parseLiteral` takes out of a regex token text before
calling the `RegExp` constructor: the pattern
`value.slice(1, value.lastIndexOf('/'))` and the flags
`value.slice(value.lastIndexOf('/') + 1)`. -/
def regexParts (v : String) : String × String :=
  let l := v.data
  let j := (List.range l.length).foldl (fun acc k => if l.get? k = some '/' then k else acc) 0
  (String.mk ((l.take j).drop 1), String.mk (l.drop (j + 1)))

/-- The flag wellformedness required by the ECMAScript `RegExp`
constructor: `new RegExp(pattern, flags)` throws a `SyntaxError` whenever
`flags` contains a character outside `d g i m s u v y` (whatever the
pattern is).  The lexer's own flag class `[imsux]` also admits `x`, which
is not a `RegExp` flag, so e.g. the lexed token `/a/x` makes the
constructor throw. -/
def jsFlags (flags : String) : Bool :=
  flags.data.all fun c =>
    c = 'd' ∨ c = 'g' ∨ c = 'i' ∨ c = 'm' ∨ c = 's' ∨ c = 'u' ∨ c = 'v' ∨ c = 'y'

/-! ## The recursive-descent parser

The parser state carries the token array, the cursor `i` and the insight
tracker.  All grammar methods are fuel-indexed (the recursion through
grouping parentheses and the `while` loops are not structural); fuel
exhaustion is the otherwise unreachable `PErr.outOfFuel`. -/

/-- Parser state: tokens, cursor, insights, and the behaviour of the host
`RegExp` constructor.  `rx pat flags = true` means `new RegExp(pat, flags)`
constructs; `false` means it throws a (positionless) `SyntaxError`.  The
constructor is a platform builtin, not part of the repository, so the
grammar engine is developed for an arbitrary `rx`; a conforming host
satisfies `rx pat flags = true → jsFlags flags = true`. -/
structure PState where
  t : List Token
  i : Nat
  ins : Insights
  rx : String → String → Bool

/-- `peek(offset)`. -/
def peekAt (st : PState) (off : Nat) : Option Token :=
  st.t.get? (st.i + off)

/-- `peek()`. -/
def peekT (st : PState) : Option Token := peekAt st 0

/-- Type of `peek(off)` under optional chaining (`peek(off)?.type`). -/
def peekTy (st : PState) (off : Nat) : Option TokenType :=
  (peekAt st off).map (fun t => t.type)

/-- Cursor advance (the `this.i++` part of `consume`). -/
def bump (st : PState) : PState := { st with i := st.i + 1 }

/-- `consume()` without an expected type: returns the (possibly absent)
token and advances. -/
def consumeAny (st : PState) : Option Token × PState :=
  (st.t.get? st.i, bump st)

/-- `consume(type)`: reading `.type` of an absent token is a `TypeError`;
a mismatch is a `SyntaxError` carrying the token text and position. -/
def consumeTy (ty : TokenType) (st : PState) : Except PErr (Token × PState) :=
  let (tok?, st') := consumeAny st
  match tok? with
  | none => .error .typeErr
  | some tok =>
    if tok.type = ty then .ok (tok, st')
    else .error (.expected ty tok.value tok.pos)

/-- `match(type)`: consume and report success only when the next token has
the wanted type (`peek()?.type === type`). -/
def matchTy (ty : TokenType) (st : PState) : Bool × PState :=
  match peekT st with
  | some tok => if tok.type = ty then (true, bump st) else (false, st)
  | none => (false, st)

/-- Record one insight on the state. -/
def capIns (st : PState) (field : String) (op : String) : PState :=
  { st with ins := captureInsights st.ins field op }

/-- `parseLiteral` from `src/parser.ts`.  The `switch (tok.type)` on an
absent token is a `TypeError`.  The regex branch mirrors
`new RegExp(v.slice(1, v.lastIndexOf('/')), v.slice(v.lastIndexOf('/')+1))`:
the constructor call is the host's, so it succeeds or throws a positionless
`SyntaxError` according to the state's `rx` predicate. -/
def parseLiteral (st : PState) : Except PErr (JVal × PState) :=
  let (tok?, st') := consumeAny st
  match tok? with
  | none => .error .typeErr
  | some tok =>
    match tok.type with
    | .number => .ok (jsNumberV tok.value, st')
    | .boolean => .ok (.bool (tok.value = "true"), st')
    | .null => .ok (.null, st')
    | .regex =>
      if st.rx (regexParts tok.value).1 (regexParts tok.value).2 then
        .ok (.regex (regexParts tok.value).1 (regexParts tok.value).2, st')
      else .error .regexErr
    | .word => .ok (.str tok.value, st')
    | .string => .ok (.str (unescapeString tok.value), st')
    | _ => .error (.badLiteral tok.value tok.pos)

mutual

/-- `parseDisjunction` from `src/parser.ts`. -/
def parseDisjunction : Nat → PState → Except PErr (JVal × PState)
  | 0, _ => .error .outOfFuel
  | fuel + 1, st =>
    match parseConjunction fuel st with
    | .error e => .error e
    | .ok (node, st) =>
      match parseDisjTail fuel st [node] with
      | .error e => .error e
      | .ok (ors, st) =>
        if ors.length = 1 then .ok (node, st)
        else .ok (.obj [("$or", .arr ors)], st)

/-- The `while (this.match('or'))` loop of `parseDisjunction`. -/
def parseDisjTail : Nat → PState → List JVal → Except PErr (List JVal × PState)
  | 0, _, _ => .error .outOfFuel
  | fuel + 1, st, acc =>
    match matchTy .or st with
    | (true, st) =>
      match parseConjunction fuel st with
      | .error e => .error e
      | .ok (n, st) => parseDisjTail fuel st (acc ++ [n])
    | (false, st) => .ok (acc, st)

/-- `parseConjunction` from `src/parser.ts`: collect the AND-terms, then
try to flatten with `mergeConjunction`, falling back to `$and`. -/
def parseConjunction : Nat → PState → Except PErr (JVal × PState)
  | 0, _ => .error .outOfFuel
  | fuel + 1, st =>
    match parseTerm fuel st with
    | .error e => .error e
    | .ok (n, st) =>
      match parseConjTail fuel st [n] with
      | .error e => .error e
      | .ok (nodes, st) =>
        match nodes with
        | [x] => .ok (x, st)
        | _ =>
          match mergeConjunction nodes with
          | some m => .ok (m, st)
          | none => .ok (.obj [("$and", .arr nodes)], st)

/-- The `while (this.match('and'))` loop of `parseConjunction`. -/
def parseConjTail : Nat → PState → List JVal → Except PErr (List JVal × PState)
  | 0, _, _ => .error .outOfFuel
  | fuel + 1, st, acc =>
    match matchTy .and st with
    | (true, st) =>
      match parseTerm fuel st with
      | .error e => .error e
      | .ok (n, st) => parseConjTail fuel st (acc ++ [n])
    | (false, st) => .ok (acc, st)

/-- `parseTerm` from `src/parser.ts`: group, then the backtracking
"between" form, then the remaining term forms. -/
def parseTerm : Nat → PState → Except PErr (JVal × PState)
  | 0, _ => .error .outOfFuel
  | fuel + 1, st₀ =>
    match matchTy .lparen st₀ with
    | (true, st) =>
      match parseDisjunction fuel st with
      | .error e => .error e
      | .ok (inside, st) =>
        match consumeTy .rparen st with
        | .error e => .error e
        | .ok (_, st) => .ok (inside, st)
    | (false, st) =>
      match peekT st with
      | none => .error .typeErr            -- `this.peek().type` on undefined
      | some tok0 =>
        if tok0.type = .number ∨ tok0.type = .string then
          match parseLiteral st with
          | .error e => .error e
          | .ok (lhsLit, st1) =>
            let (opTok?, st2) := consumeAny st1
            match opTok? with
            | none => .error .typeErr      -- `this.consume().type` on undefined
            | some fOp =>
              if fOp.type ≠ .opLt ∧ fOp.type ≠ .opLte then
                -- rewind pointer: we actually parsed a comparison starting
                -- with a literal
                parseTermRest fuel { st2 with i := st2.i - 2 }
              else
                match consumeTy .word st2 with
                | .error e => .error e
                | .ok (fieldTok, st3) =>
                  let (sTok?, st4) := consumeAny st3
                  match sTok? with
                  | none => .error .typeErr
                  | some sOp =>
                    if sOp.type ≠ .opLt ∧ sOp.type ≠ .opLte then
                      .error (.invalidBetween sOp.pos)
                    else
                      match parseLiteral st4 with
                      | .error e => .error e
                      | .ok (rhsLit, st5) =>
                        let op1 := if fOp.type = .opLt then "$gt" else "$gte"
                        let op2 := if sOp.type = .opLt then "$lt" else "$lte"
                        let out := JVal.obj
                          [(fieldTok.value, .obj (objSet (objSet [] op1 lhsLit) op2 rhsLit))]
                        let st6 := capIns (capIns st5 fieldTok.value op1) fieldTok.value op2
                        .ok (out, st6)
        else parseTermRest fuel st

/-- The part of `parseTerm` after the between-form: `$exists`/`$!exists`,
membership lists, and plain comparisons. -/
def parseTermRest : Nat → PState → Except PErr (JVal × PState)
  | 0, _ => .error .outOfFuel
  | fuel + 1, st =>
    match peekT st with
    | none => .error .typeErr              -- `this.peek().type` on undefined
    | some kwTok =>
      if kwTok.type = .keyword ∧ (kwTok.value = "$exists" ∨ kwTok.value = "$!exists") then
        match consumeTy .keyword st with
        | .error e => .error e
        | .ok (_, st) =>
          match consumeTy .opEq st with
          | .error e => .error e
          | .ok (_, st) =>
            match consumeTy .word st with
            | .error e => .error e
            | .ok (f1, st) =>
              match parseFieldsTail fuel st [f1.value] with
              | .error e => .error e
              | .ok (fields, st) =>
                let st := fields.foldl (fun s f => capIns s f "$exists") st
                .ok (buildExists fields (kwTok.value = "$exists"), st)
      else
        if (kwTok.type = .word ∧ peekTy st 1 = some .lbrace) ∨
           (peekTy st 1 = some .bang ∧ peekTy st 2 = some .lbrace) then
          match consumeTy .word st with
          | .error e => .error e
          | .ok (fieldTok, st) =>
            let (neg, st) := matchTy .bang st
            match consumeTy .lbrace st with
            | .error e => .error e
            | .ok (_, st) =>
              match parseLiteral st with
              | .error e => .error e
              | .ok (l1, st) =>
                match parseListTail fuel st [l1] with
                | .error e => .error e
                | .ok (list, st) =>
                  match consumeTy .rbrace st with
                  | .error e => .error e
                  | .ok (_, st) =>
                    let op := if neg then "$nin" else "$in"
                    .ok (.obj [(fieldTok.value, .obj [(op, .arr list)])],
                         capIns st fieldTok.value op)
        else
          match consumeTy .word st with
          | .error e => .error e
          | .ok (fieldTok, st) =>
            let (opTok?, st) := consumeAny st
            match parseLiteral st with
            | .error e => .error e
            | .ok (lit, st) =>
              match opTok? with
              | none => .error .typeErr    -- `opMap[opTok.type]` on undefined
              | some opTok =>
                match opMap opTok.type with
                | none => .error (.unsupportedOp opTok.value opTok.pos)
                | some op =>
                  let st := capIns st fieldTok.value op
                  if op = "$eq" then .ok (.obj [(fieldTok.value, lit)], st)
                  else .ok (.obj [(fieldTok.value, .obj [(op, lit)])], st)

/-- The `while (this.match('comma'))` loop of the `$exists` branch. -/
def parseFieldsTail : Nat → PState → List String → Except PErr (List String × PState)
  | 0, _, _ => .error .outOfFuel
  | fuel + 1, st, acc =>
    match matchTy .comma st with
    | (true, st) =>
      match consumeTy .word st with
      | .error e => .error e
      | .ok (f, st) => parseFieldsTail fuel st (acc ++ [f.value])
    | (false, st) => .ok (acc, st)

/-- The `while (this.match('comma'))` loop of the membership-list branch. -/
def parseListTail : Nat → PState → List JVal → Except PErr (List JVal × PState)
  | 0, _, _ => .error .outOfFuel
  | fuel + 1, st, acc =>
    match matchTy .comma st with
    | (true, st) =>
      match parseLiteral st with
      | .error e => .error e
      | .ok (v, st) => parseListTail fuel st (acc ++ [v])
    | (false, st) => .ok (acc, st)

end

/-- `parseExpression` (it simply delegates to `parseDisjunction`). -/
def parseExpression (fuel : Nat) (st : PState) : Except PErr (JVal × PState) :=
  parseDisjunction fuel st

/-- `expectEof` from `src/parser.ts`. -/
def expectEof (st : PState) : Except PErr Unit :=
  if st.i ≠ st.t.length then .error (.eofExpected ((st.t.get? st.i).map (fun t => t.pos)))
  else .ok ()

/-- Fuel that is always sufficient for a token list of the given length. -/
def enoughFuel (n : Nat) : Nat := 3 * n + 16

/-- Run the grammar engine on a token list under the host `RegExp`
behaviour `rx`: parse one expression, require end of input, and return the
tree with the populated insight tracker. -/
def parseTokensRx (rx : String → String → Bool) (ts : List Token) :
    Except PErr (JVal × Insights) :=
  match parseExpression (enoughFuel ts.length) ⟨ts, 0, [], rx⟩ with
  | .error e => .error e
  | .ok (v, st) =>
    match expectEof st with
    | .error e => .error e
    | .ok _ => .ok (v, st.ins)

/-- The grammar engine under the host that accepts every pattern/flags
pair; on inputs whose regex literals the host constructs, the run
coincides with the real one. -/
def parseTokens (ts : List Token) : Except PErr (JVal × Insights) :=
  parseTokensRx (fun _ _ => true) ts

/-- The core entry under host behaviour `rx`: lex an already-decoded
filter expression and parse it. -/
def parseQueryRx (rx : String → String → Bool) (s : String) :
    Except PErr (JVal × Insights) :=
  match lexChars s.data with
  | .error e => .error e
  | .ok ts => parseTokensRx rx ts

/-- The core entry with the all-accepting host. -/
def parseQuery (s : String) : Except PErr (JVal × Insights) :=
  parseQueryRx (fun _ _ => true) s

/-! ## The public wrapper (`parseUrlql` in `src/urlql.ts`)

`decodeURIComponent` is a platform builtin; it is modelled here for
single-byte (ASCII) percent escapes, which covers every input considered
in this development.  Multi-byte UTF-8 escape sequences are outside the
modelled fragment and are mapped to `uriErr` like malformed escapes. -/

/-- Value of a hexadecimal digit character. -/
def hexVal (c : Char) : Option Nat :=
  if '0' ≤ c ∧ c ≤ '9' then some (c.toNat - 48)
  else if 'a' ≤ c ∧ c ≤ 'f' then some (c.toNat - 87)
  else if 'A' ≤ c ∧ c ≤ 'F' then some (c.toNat - 55)
  else none

/-- Model of `decodeURIComponent` restricted to ASCII percent-escapes. -/
def decodePercent : List Char → Option (List Char)
  | [] => some []
  | '%' :: h1 :: h2 :: rest =>
    match hexVal h1, hexVal h2 with
    | some a, some b =>
      let v := 16 * a + b
      if v < 128 then (decodePercent rest).map (fun l => Char.ofNat v :: l)
      else none
    | _, _ => none
  | '%' :: _ => none
  | c :: rest => (decodePercent rest).map (fun l => c :: l)

/-- String-level `decodeURIComponent` model. -/
def decodeURI (s : String) : Option String :=
  (decodePercent s.data).map String.mk

/-- Split a character list on a separator character (JS `split` with a
one-character separator). -/
def splitOnC (sep : Char) (l : List Char) : List (List Char) :=
  match l with
  | [] => [[]]
  | c :: rest =>
    let r := splitOnC sep rest
    if c = sep then [] :: r
    else
      match r with
      | [] => [[c]]
      | x :: xs => (c :: x) :: xs

/-- The control-segment test `/^\$[A-Za-z0-9_!]+/.test(p)`. -/
def isControlPart (p : String) : Bool :=
  match p.data with
  | '$' :: c :: _ => kwChar c ∨ c = '!'
  | _ => false

/-- The result envelope (`UrlqlQuery`). -/
structure UrlqlQuery where
  filter : JVal
  controls : List (String × JVal)
  insights : Insights

/-- Insertion-ordered `Set<string>.add`. -/
def setAdd (l : List String) (x : String) : List String :=
  if x ∈ l then l else l ++ [x]

/-- Removal of one leading minus sign (`replace` with an anchored regex). -/
def stripMinus (f : String) : String :=
  match f.data with
  | '-' :: rest => String.mk rest
  | _ => f

/-- State threaded through `handleControls`. -/
structure CtrlState where
  controls : List (String × JVal)
  selectInsights : List String
  orderInsights : List String

/-- One projection/sort list entry (the body of the `forEach` in the
`$select` and `$sort`/`$order` branches). -/
def ctrlListEntry (isSelect : Bool) (st : CtrlState) (f : String) : CtrlState :=
  if f = "" then st
  else
    let key := if isSelect then "$select" else "$sort"
    let inner := entriesOf ((objGet st.controls key).getD (.obj []))
    let neg := f.data.head? = some '-'
    let target := stripMinus f
    let val : JVal := if isSelect then (if neg then .num 0 else .num 1)
                      else (if neg then .num (-1) else .num 1)
    let inner := objSet inner target val
    { st with
      controls := objSet st.controls key (.obj inner),
      selectInsights := if isSelect then setAdd st.selectInsights target else st.selectInsights,
      orderInsights := if isSelect then st.orderInsights else setAdd st.orderInsights target }

/-- One control segment (`handleControls` loop body in `src/urlql.ts`). -/
def handleControl (st : CtrlState) (raw : String) : Except PErr CtrlState :=
  let segs := splitOnC '=' raw.data
  let key := String.mk (segs.headD [])
  match decodePercent (List.intercalate ['='] segs.tail) with
  | none => .error .uriErr
  | some valC =>
    let value := String.mk valC
    match key with
    | "$select" =>
      let st := { st with controls := objSet st.controls "$select" ((objGet st.controls "$select").getD (.obj [])) }
      .ok ((splitOnC ',' value.data).foldl
        (fun s f => ctrlListEntry true s (String.mk f)) st)
    | "$sort" | "$order" =>
      let st := { st with controls := objSet st.controls "$sort" ((objGet st.controls "$sort").getD (.obj [])) }
      .ok ((splitOnC ',' value.data).foldl
        (fun s f => ctrlListEntry false s (String.mk f)) st)
    | "$limit" | "$top" => .ok { st with controls := objSet st.controls "$limit" (jsNumberV value) }
    | "$skip" => .ok { st with controls := objSet st.controls "$skip" (jsNumberV value) }
    | "$count" => .ok { st with controls := objSet st.controls "$count" (.bool true) }
    | _ => .ok { st with controls := objSet st.controls key (.str value) }

/-- `handleControls` from `src/urlql.ts`. -/
def handleControls (parts : List String) : Except PErr CtrlState :=
  parts.foldlM handleControl ⟨[], [], []⟩

/-- `parseUrlql` from `src/urlql.ts`: split the raw query on `&`, decode
each part, separate control directives from expression parts, handle the
controls, parse the re-joined expression, and register the projection and
sort insights. -/
def parseUrlql (raw : String) : Except PErr UrlqlQuery :=
  let parts := splitOnC '&' raw.data
  match parts.foldlM
    (fun (acc : List String × List String) pc =>
      (match decodePercent pc with
      | none => Except.error PErr.uriErr
      | some pd =>
        let p := String.mk pd
        if isControlPart p ∧ ¬ ("$exists=".isPrefixOf p) ∧ ¬ ("$!exists=".isPrefixOf p) then
          Except.ok (acc.1 ++ [p], acc.2)
        else if p ≠ "" then Except.ok (acc.1, acc.2 ++ [p])
        else Except.ok acc : Except PErr (List String × List String)))
    (([], []) : List String × List String) with
  | .error e => .error e
  | .ok (controlParts, exprParts) =>
    match handleControls controlParts with
    | .error e => .error e
    | .ok cst =>
      let run : Except PErr (JVal × Insights) :=
        if exprParts.length ≠ 0 then
          let rawExpr := String.intercalate "&" exprParts
          parseQuery rawExpr
        else .ok (.obj [], [])
      match run with
      | .error e => .error e
      | .ok (filter, ins0) =>
        let ins1 := cst.selectInsights.foldl (fun a f => captureInsights a f "$select") ins0
        let ins2 := cst.orderInsights.foldl (fun a f => captureInsights a f "$order") ins1
        .ok ⟨filter, cst.controls, ins2⟩

/-! ## Statement-side definitions

Definitions used to *state* the verified properties (they are not
translations of source functions and are only referenced by theorems). -/

/-- The offset carried by an error, when it has one. -/
def errOffset : PErr → Option Nat
  | .lexErr _ p => some p
  | .expected _ _ p => some p
  | .eofExpected p => p
  | .invalidBetween p => some p
  | .unsupportedOp _ p => some p
  | .badLiteral _ p => some p
  | .typeErr => none
  | .regexErr => none
  | .uriErr => none
  | .outOfFuel => none

/-- The operator-tag vocabulary (`SupportedOps` in `src/parser.ts`). -/
def supportedTags : List String :=
  ["$eq", "$ne", "$gt", "$gte", "$lt", "$lte", "$in", "$nin", "$regex", "$exists"]

mutual

/-- All (field, operator-tag) pairs occurring in a predicate tree; a bare
literal value counts as the implicit `$eq` tag, and only keys from the
operator-tag vocabulary count as tags. -/
def collectPairs : JVal → List (String × String)
  | .obj l => collectEntries l
  | _ => []

/-- Pairs contributed by the entries of one object node. -/
def collectEntries : List (String × JVal) → List (String × String)
  | [] => []
  | (k, .arr vs) :: rest =>
    (if k = "$and" ∨ k = "$or" then collectList vs else []) ++ collectEntries rest
  | (k, .obj ops) :: rest =>
    (if k = "$and" ∨ k = "$or" then []
     else ((ops.map (fun e => e.1)).filter (fun t => t ∈ supportedTags)).map (fun t => (k, t)))
      ++ collectEntries rest
  | (k, _) :: rest => (k, "$eq") :: collectEntries rest

/-- Pairs of a list of tree nodes. -/
def collectList : List JVal → List (String × String)
  | [] => []
  | v :: vs => collectPairs v ++ collectList vs

end

/-- The token kinds acceptable to `parseLiteral`. -/
def isLitTy : TokenType → Bool
  | .number => true
  | .boolean => true
  | .null => true
  | .regex => true
  | .word => true
  | .string => true
  | _ => false

/-- The value `parseLiteral` produces for a literal-kind token. -/
def litValue (tok : Token) : JVal :=
  match tok.type with
  | .number => jsNumberV tok.value
  | .boolean => .bool (tok.value = "true")
  | .null => .null
  | .regex => .regex (regexParts tok.value).1 (regexParts tok.value).2
  | .word => .str tok.value
  | .string => .str (unescapeString tok.value)
  | _ => .null

/-- The node an atomic comparison produces (`parseTerm`'s last branch). -/
def compNode (f : String) (op : String) (v : JVal) : JVal :=
  if op = "$eq" then .obj [(f, v)] else .obj [(f, .obj [(op, v)])]

/-- Single-quoted rendering of a string. -/
def q1 (s : String) : String := String.mk (quoteC :: (s.data ++ [quoteC]))

/-! ## Claim theorems -/

/-- The node `parseConjunction` builds from the collected term nodes. -/
def conjNodes (nodes : List JVal) : JVal :=
  match nodes with
  | [x] => x
  | _ =>
    match mergeConjunction nodes with
    | some m => m
    | none => .obj [("$and", .arr nodes)]

/-- Tag-set inclusion between two insight trackers. -/
def insMono (a b : Insights) : Prop :=
  ∀ f op, insHas a f op = true → insHas b f op = true

/-- All listed (field, tag) pairs are present in the tracker. -/
def covered (ins : Insights) (ps : List (String × String)) : Prop :=
  ∀ p ∈ ps, insHas ins p.1 p.2 = true

/-- Wellformedness of one object entry as the merge algorithm sees it: an
array value only under a logical key. -/
def entryOK : String × JVal → Prop
  | (k, .arr _) => k = "$and" ∨ k = "$or"
  | _ => True

/-- Wellformedness of a tree node: every top-level entry is `entryOK`. -/
def nodeOK (v : JVal) : Prop := ∀ e ∈ entriesOf v, entryOK e

/-- Wellformedness of the merge accumulator: keys are field names (never
logical connectives) and values are never arrays. -/
def cmOK (cm : List (String × JVal)) : Prop :=
  ∀ e ∈ cm, (e.1 ≠ "$and" ∧ e.1 ≠ "$or") ∧ ∀ l, e.2 ≠ JVal.arr l

/-- Wellformedness of an error value relative to the token list it was
raised over: one of the two positionless errors (the `TypeError` from
reading a property of an absent token, or the `SyntaxError` thrown by the
`RegExp` constructor), or the carried offset is the position of one of the
tokens. -/
def errWF (ts : List Token) (e : PErr) : Prop :=
  e = .typeErr ∨ e = .regexErr ∨ ∃ tok ∈ ts, errOffset e = some tok.pos


/-- C1.  The claim states that `field=X & field=Y` (two equalities on the
same field) yields an explicit conjunction of two single-field objects,
the accumulator being flushed on an operator-tag conflict with the new
accumulator holding the incoming value.  The code does neither:
`new Set('$eq')` builds the set of characters `$`,`e`,`q`, so the two
equality tags are not seen as intersecting and the second equality is
merged under the junk keys `$`, `e`, `q`; and when a conflict *is*
detected (e.g. two `$gt` tags) the fresh accumulator is empty, silently
dropping the incoming constraint.  This theorem evaluates the embedded
code at both failing inputs. -/
theorem claim_C1 :
    parseQuery "a=1&a=2" =
      .ok (.obj [("a", .obj [("$eq", .num 1), ("$", .num 2), ("e", .num 2), ("q", .num 2)])],
           [("a", ["$eq"])]) ∧
    parseQuery "a>1&a>2" =
      .ok (.obj [("a", .obj [("$gt", .num 1)])], [("a", ["$gt"])]) :=
  ⟨rfl, rfl⟩

/-- C2.  The claim states that a conjunction whose terms apply
non-intersecting operator-tag sets yields one flat object holding all the
constraints.  For `a>2 & a=1` the tag sets {$gt} and {$eq} do not
intersect, so the claim predicts the flat object with entries `$gt: 2`
and `$eq: 1`; because of the `new Set('$eq')` character-set slip the code
instead stores the equality constraint under the junk keys `$`, `e`, `q`.
This theorem evaluates the embedded code at that failing input. -/
theorem claim_C2 :
    parseQuery "a>2&a=1" =
      .ok (.obj [("a", .obj [("$gt", .num 2), ("$", .num 1), ("e", .num 1), ("q", .num 1)])],
           [("a", ["$gt", "$eq"])]) ∧
    (JVal.obj [("a", .obj [("$gt", .num 2), ("$", .num 1), ("e", .num 1), ("q", .num 1)])]) ≠
    (JVal.obj [("a", .obj [("$gt", .num 2), ("$eq", .num 1)])]) :=
  ⟨rfl, by simp⟩

/-- C3 counterexample.  The claim says `A & B ^ C` parses as a disjunction
of (A) and (the conjunction of B and C).  On `a=1&b=2^c=3` the code
produces the disjunction of (the conjunction of A and B) and (C), which
differs from the claimed tree. -/
theorem claim_C3_counterexample :
    parseQuery "a=1&b=2^c=3" =
      .ok (.obj [("$or", .arr [.obj [("a", .num 1), ("b", .num 2)], .obj [("c", .num 3)]])],
           [("a", ["$eq"]), ("b", ["$eq"]), ("c", ["$eq"])]) ∧
    (JVal.obj [("$or", .arr [.obj [("a", .num 1), ("b", .num 2)], .obj [("c", .num 3)]])]) ≠
    (JVal.obj [("$or", .arr [.obj [("a", .num 1)], .obj [("b", .num 2), ("c", .num 3)]])]) :=
  ⟨rfl, by simp⟩

/-- C5.  Literal typing at the public interface: a bare leading-zero value
(`007`) is the string "007", bare `25` is the number 25, bare
`true`/`false` are booleans, bare `null` is null, and single-quoted
values are strings whatever their contents. -/
theorem claim_C5 :
    parseUrlql "a=007" = .ok ⟨.obj [("a", .str "007")], [], [("a", ["$eq"])]⟩ ∧
    parseUrlql "a=25" = .ok ⟨.obj [("a", .num 25)], [], [("a", ["$eq"])]⟩ ∧
    parseUrlql "a=true" = .ok ⟨.obj [("a", .bool true)], [], [("a", ["$eq"])]⟩ ∧
    parseUrlql "a=false" = .ok ⟨.obj [("a", .bool false)], [], [("a", ["$eq"])]⟩ ∧
    parseUrlql "a=null" = .ok ⟨.obj [("a", .null)], [], [("a", ["$eq"])]⟩ ∧
    parseUrlql ("a=" ++ q1 "25") = .ok ⟨.obj [("a", .str "25")], [], [("a", ["$eq"])]⟩ ∧
    parseUrlql ("a=" ++ q1 "true") = .ok ⟨.obj [("a", .str "true")], [], [("a", ["$eq"])]⟩ :=
  ⟨rfl, rfl, rfl, rfl, rfl, rfl, rfl⟩

/-- C6 counterexample.  The claim says every parse failure carries an
offset within the input bounds.  Two reachable failures carry none.
First, the truncated input `name=` makes the parser read past the end of
the token list: `parseLiteral` switches on the `type` property of
`undefined`, raising a `TypeError` with no offset.  Second, on
`name~=/a/x` the lexer accepts the flag `x` (its flag class is `[imsux]`)
but the `RegExp` constructor rejects it, so under any host whose flag
check is the ECMAScript one (`jsFlags`), `new RegExp("a", "x")` throws a
`SyntaxError` with no offset. -/
theorem claim_C6_counterexample :
    (parseQuery "name=" = .error .typeErr ∧ errOffset .typeErr = none) ∧
    (parseQueryRx (fun _ flags => jsFlags flags) "name~=/a/x" = .error .regexErr ∧
     errOffset .regexErr = none) :=
  ⟨⟨rfl, rfl⟩, ⟨rfl, rfl⟩⟩

/-- C8.  The claim says whitespace is matched by the whitespace rule and
discarded, so whitespace alone never causes a lexical failure.  The rule
is written `/^[\\s]+/u`, whose class contains a literal backslash and the
letter `s` — not whitespace — so a lone space matches no rule at all and
tokenization fails at offset 0.  (Whitespace between words is instead
swallowed by the unquoted-string rule, as the second conjunct shows.) -/
theorem claim_C8 :
    lexChars " ".data = .error (.lexErr ' ' 0) ∧
    lexChars "a b".data = .ok [⟨.string, "a b", 0⟩] ∧
    matchWsRule " ".data = none :=
  ⟨rfl, rfl, rfl⟩

/-- C10.  For every single-quoted string literal the value placed in the
tree is the token text with exactly the leading and trailing quote
removed (`unescapeString` strips one quote from each end and nothing
else), so backslash escape sequences inside the quotes stay verbatim; the
second conjunct runs the embedded pipeline on `a='x\'y'` and the two
source characters backslash-quote remain exactly those two characters. -/
theorem claim_C10 :
    (∀ (st : PState) (mid : List Char) (p : Nat),
      st.t.get? st.i = some ⟨.string, String.mk (quoteC :: (mid ++ [quoteC])), p⟩ →
      parseLiteral st = .ok (.str (String.mk mid), bump st)) ∧
    parseQuery ("a=" ++ String.mk [quoteC, 'x', bslashC, quoteC, 'y', quoteC]) =
      .ok (.obj [("a", .str (String.mk ['x', bslashC, quoteC, 'y']))], [("a", ["$eq"])]) := by
  constructor
  · intro st mid p h
    simp only [List.get?_eq_getElem?] at h
    simp [parseLiteral, consumeAny, h, unescapeString, List.getLast?_concat, List.dropLast_concat]
  · rfl

/-- C10 witness: the general statement applied to a concrete state holding
the token for `'x\'y'`. -/
theorem claim_C10_witness :
    parseLiteral ⟨[⟨.string, String.mk [quoteC, 'x', bslashC, quoteC, 'y', quoteC], 2⟩], 0, [],
        fun _ _ => true⟩ =
      .ok (.str (String.mk ['x', bslashC, quoteC, 'y']),
           ⟨[⟨.string, String.mk [quoteC, 'x', bslashC, quoteC, 'y', quoteC], 2⟩], 1, [],
            fun _ _ => true⟩) :=
  claim_C10.1 ⟨[⟨.string, String.mk [quoteC, 'x', bslashC, quoteC, 'y', quoteC], 2⟩], 0, [],
      fun _ _ => true⟩
    ['x', bslashC, quoteC, 'y'] 2 rfl


/-! ## Evaluation lemmas for the grammar engine -/

theorem parseLiteral_lit (st : PState) (tok : Token)
    (hrx : ∀ p f, st.rx p f = true)
    (h : st.t.get? st.i = some tok) (hl : isLitTy tok.type) :
    parseLiteral st = .ok (litValue tok, bump st) := by
  simp only [List.get?_eq_getElem?] at h
  rcases tok with ⟨ty, v, p⟩
  cases ty <;> simp_all [parseLiteral, consumeAny, litValue, isLitTy]

theorem opMap_ne_lbrace {ty : TokenType} {op : String} (h : opMap ty = some op) :
    ty ≠ TokenType.lbrace := by
  intro e; rw [e] at h; simp [opMap] at h

theorem opMap_ne_bang {ty : TokenType} {op : String} (h : opMap ty = some op) :
    ty ≠ TokenType.bang := by
  intro e; rw [e] at h; simp [opMap] at h

theorem parseTermRest_cmp (fuel : Nat) (st : PState) (ftok otok ltok : Token) (op : String)
    (hfuel : 1 ≤ fuel) (hrx : ∀ p f, st.rx p f = true)
    (hf : st.t.get? st.i = some ftok) (hfw : ftok.type = .word)
    (ho : st.t.get? (st.i + 1) = some otok) (hop : opMap otok.type = some op)
    (hl : st.t.get? (st.i + 2) = some ltok) (hlit : isLitTy ltok.type) :
    parseTermRest fuel st =
      .ok (compNode ftok.value op (litValue ltok),
           ⟨st.t, st.i + 3, captureInsights st.ins ftok.value op, st.rx⟩) := by
  obtain ⟨g, rfl⟩ : ∃ g, fuel = g + 1 := ⟨fuel - 1, by omega⟩
  have hlb : otok.type ≠ .lbrace := opMap_ne_lbrace hop
  have hbg : otok.type ≠ .bang := opMap_ne_bang hop
  have hpl : parseLiteral (bump (bump st)) = .ok (litValue ltok, bump (bump (bump st))) :=
    parseLiteral_lit _ _ hrx (by simpa [bump] using hl) hlit
  by_cases he : op = "$eq" <;>
    simp_all [parseTermRest, peekT, peekAt, peekTy, consumeTy, consumeAny, bump, capIns,
      compNode]

theorem parseTerm_cmp (fuel : Nat) (st : PState) (ftok otok ltok : Token) (op : String)
    (hfuel : 2 ≤ fuel) (hrx : ∀ p f, st.rx p f = true)
    (hf : st.t.get? st.i = some ftok) (hfw : ftok.type = .word)
    (ho : st.t.get? (st.i + 1) = some otok) (hop : opMap otok.type = some op)
    (hl : st.t.get? (st.i + 2) = some ltok) (hlit : isLitTy ltok.type) :
    parseTerm fuel st =
      .ok (compNode ftok.value op (litValue ltok),
           ⟨st.t, st.i + 3, captureInsights st.ins ftok.value op, st.rx⟩) := by
  obtain ⟨g, rfl⟩ : ∃ g, fuel = g + 2 := ⟨fuel - 2, by omega⟩
  have hrest :=
    parseTermRest_cmp (g + 1) st ftok otok ltok op (by omega) hrx hf hfw ho hop hl hlit
  simp only [List.get?_eq_getElem?] at hf
  simp [parseTerm, matchTy, peekT, peekAt, hf, hfw, hrest]

theorem parseTerm_between (fuel : Nat) (st : PState) (ltok fop wtok sop utok : Token)
    (hfuel : 1 ≤ fuel) (hrx : ∀ p f, st.rx p f = true)
    (hL : st.t.get? st.i = some ltok) (hLt : ltok.type = .number ∨ ltok.type = .string)
    (hF : st.t.get? (st.i + 1) = some fop) (hFt : fop.type = .opLt ∨ fop.type = .opLte)
    (hW : st.t.get? (st.i + 2) = some wtok) (hWt : wtok.type = .word)
    (hS : st.t.get? (st.i + 3) = some sop) (hSt : sop.type = .opLt ∨ sop.type = .opLte)
    (hU : st.t.get? (st.i + 4) = some utok) (hUt : isLitTy utok.type) :
    parseTerm fuel st =
      .ok (.obj [(wtok.value,
             .obj [(if fop.type = .opLt then "$gt" else "$gte", litValue ltok),
                   (if sop.type = .opLt then "$lt" else "$lte", litValue utok)])],
           ⟨st.t, st.i + 5,
            captureInsights
              (captureInsights st.ins wtok.value (if fop.type = .opLt then "$gt" else "$gte"))
              wtok.value (if sop.type = .opLt then "$lt" else "$lte"), st.rx⟩) := by
  obtain ⟨g, rfl⟩ : ∃ g, fuel = g + 1 := ⟨fuel - 1, by omega⟩
  have hpl1 : parseLiteral st = .ok (litValue ltok, bump st) :=
    parseLiteral_lit _ _ hrx hL (by rcases hLt with h | h <;> simp [isLitTy, h])
  have hpl2 : parseLiteral (bump (bump (bump (bump st)))) =
      .ok (litValue utok, bump (bump (bump (bump (bump st))))) :=
    parseLiteral_lit _ _ hrx (by simpa [bump] using hU) hUt
  simp only [List.get?_eq_getElem?] at hL hF hW hS
  rcases hFt with hFt | hFt <;> rcases hSt with hSt | hSt <;>
    rcases hLt with hLt | hLt <;>
    simp_all [parseTerm, matchTy, peekT, peekAt, consumeTy, consumeAny, bump, capIns, objSet]

theorem parseConjTail_stop (fuel : Nat) (st : PState) (acc : List JVal)
    (hfuel : 1 ≤ fuel)
    (hs : ∀ tok, st.t.get? st.i = some tok → tok.type ≠ .and) :
    parseConjTail fuel st acc = .ok (acc, st) := by
  obtain ⟨g, rfl⟩ : ∃ g, fuel = g + 1 := ⟨fuel - 1, by omega⟩
  simp only [parseConjTail, matchTy, peekT, peekAt, Nat.add_zero]
  match h : st.t.get? st.i with
  | none => simp only [List.get?_eq_getElem?] at h; simp [h]
  | some tok =>
    have := hs tok h
    simp only [List.get?_eq_getElem?] at h
    simp [h, this]

theorem parseDisjTail_stop (fuel : Nat) (st : PState) (acc : List JVal)
    (hfuel : 1 ≤ fuel)
    (hs : ∀ tok, st.t.get? st.i = some tok → tok.type ≠ .or) :
    parseDisjTail fuel st acc = .ok (acc, st) := by
  obtain ⟨g, rfl⟩ : ∃ g, fuel = g + 1 := ⟨fuel - 1, by omega⟩
  simp only [parseDisjTail, matchTy, peekT, peekAt, Nat.add_zero]
  match h : st.t.get? st.i with
  | none => simp only [List.get?_eq_getElem?] at h; simp [h]
  | some tok =>
    have := hs tok h
    simp only [List.get?_eq_getElem?] at h
    simp [h, this]

theorem parseConjunction_one (fuel : Nat) (st : PState) (n : JVal) (st₁ : PState)
    (hfuel : 2 ≤ fuel)
    (ht : parseTerm (fuel - 1) st = .ok (n, st₁))
    (hs : ∀ tok, st₁.t.get? st₁.i = some tok → tok.type ≠ .and) :
    parseConjunction fuel st = .ok (n, st₁) := by
  obtain ⟨g, rfl⟩ : ∃ g, fuel = g + 1 := ⟨fuel - 1, by omega⟩
  simp only [Nat.add_sub_cancel] at ht
  simp [parseConjunction, ht, parseConjTail_stop g st₁ [n] (by omega) hs]

theorem parseConjunction_two (fuel : Nat) (st : PState) (n₁ : JVal) (st₁ : PState)
    (n₂ : JVal) (st₂ : PState) (andTok : Token)
    (hfuel : 3 ≤ fuel)
    (ht1 : parseTerm (fuel - 1) st = .ok (n₁, st₁))
    (hand : st₁.t.get? st₁.i = some andTok) (ha : andTok.type = .and)
    (ht2 : parseTerm (fuel - 2) (bump st₁) = .ok (n₂, st₂))
    (hs : ∀ tok, st₂.t.get? st₂.i = some tok → tok.type ≠ .and) :
    parseConjunction fuel st = .ok (conjNodes [n₁, n₂], st₂) := by
  obtain ⟨g, rfl⟩ : ∃ g, fuel = g + 2 := ⟨fuel - 2, by omega⟩
  have e1 : g + 2 - 1 = g + 1 := by omega
  have e2 : g + 2 - 2 = g := by omega
  rw [e1] at ht1; rw [e2] at ht2
  simp only [List.get?_eq_getElem?] at hand
  have htail : parseConjTail (g + 1) st₁ [n₁] = .ok ([n₁, n₂], st₂) := by
    simp [parseConjTail, matchTy, peekT, peekAt, hand, ha, ht2,
      parseConjTail_stop g st₂ [n₁, n₂] (by omega) hs]
  simp only [parseConjunction, ht1, htail, conjNodes]
  cases mergeConjunction [n₁, n₂] <;> simp

theorem parseDisjunction_one (fuel : Nat) (st : PState) (n : JVal) (st₁ : PState)
    (hfuel : 2 ≤ fuel)
    (hc : parseConjunction (fuel - 1) st = .ok (n, st₁))
    (hs : ∀ tok, st₁.t.get? st₁.i = some tok → tok.type ≠ .or) :
    parseDisjunction fuel st = .ok (n, st₁) := by
  obtain ⟨g, rfl⟩ : ∃ g, fuel = g + 1 := ⟨fuel - 1, by omega⟩
  simp only [Nat.add_sub_cancel] at hc
  simp [parseDisjunction, hc, parseDisjTail_stop g st₁ [n] (by omega) hs]

theorem parseDisjunction_two (fuel : Nat) (st : PState) (n₁ : JVal) (st₁ : PState)
    (n₂ : JVal) (st₂ : PState) (orTok : Token)
    (hfuel : 3 ≤ fuel)
    (hc1 : parseConjunction (fuel - 1) st = .ok (n₁, st₁))
    (hor : st₁.t.get? st₁.i = some orTok) (ho : orTok.type = .or)
    (hc2 : parseConjunction (fuel - 2) (bump st₁) = .ok (n₂, st₂))
    (hs : ∀ tok, st₂.t.get? st₂.i = some tok → tok.type ≠ .or) :
    parseDisjunction fuel st = .ok (.obj [("$or", .arr [n₁, n₂])], st₂) := by
  obtain ⟨g, rfl⟩ : ∃ g, fuel = g + 2 := ⟨fuel - 2, by omega⟩
  have e1 : g + 2 - 1 = g + 1 := by omega
  have e2 : g + 2 - 2 = g := by omega
  rw [e1] at hc1; rw [e2] at hc2
  simp only [List.get?_eq_getElem?] at hor
  have htail : parseDisjTail (g + 1) st₁ [n₁] = .ok ([n₁, n₂], st₂) := by
    simp [parseDisjTail, matchTy, peekT, peekAt, hor, ho, hc2,
      parseDisjTail_stop g st₂ [n₁, n₂] (by omega) hs]
  simp [parseDisjunction, hc1, htail]

theorem parseTokens_of_expr (ts : List Token) (v : JVal) (st' : PState)
    (h : parseDisjunction (enoughFuel ts.length) ⟨ts, 0, [], fun _ _ => true⟩ = .ok (v, st'))
    (ht : st'.t = ts) (hi : st'.i = ts.length) :
    parseTokens ts = .ok (v, st'.ins) := by
  simp [parseTokens, parseTokensRx, parseExpression, h, expectEof, ht, hi]

/-- C4.  Every Between clause `L op1 field op2 U` (literal bounds, each
operator `<` or `<=`) parses to a single comparison object on the middle
field, with `<` mapping to the strict bound and `<=` to the inclusive
bound on each side, and both bound tags recorded for the field in the
insight tracker; concretely, `25<age<35` yields
`{age: {$gt: 25, $lt: 35}}` with tags `$gt`, `$lt` tracked for `age`. -/
theorem claim_C4 :
    (∀ ltok fop wtok sop utok : Token,
      (ltok.type = .number ∨ ltok.type = .string) →
      (fop.type = .opLt ∨ fop.type = .opLte) →
      wtok.type = .word →
      (sop.type = .opLt ∨ sop.type = .opLte) →
      isLitTy utok.type →
      parseTokens [ltok, fop, wtok, sop, utok] =
        .ok (.obj [(wtok.value,
               .obj [(if fop.type = .opLt then "$gt" else "$gte", litValue ltok),
                     (if sop.type = .opLt then "$lt" else "$lte", litValue utok)])],
             captureInsights
               (captureInsights [] wtok.value (if fop.type = .opLt then "$gt" else "$gte"))
               wtok.value (if sop.type = .opLt then "$lt" else "$lte")) ∧
      insHas
        (captureInsights
          (captureInsights [] wtok.value (if fop.type = .opLt then "$gt" else "$gte"))
          wtok.value (if sop.type = .opLt then "$lt" else "$lte"))
        wtok.value (if fop.type = .opLt then "$gt" else "$gte") = true ∧
      insHas
        (captureInsights
          (captureInsights [] wtok.value (if fop.type = .opLt then "$gt" else "$gte"))
          wtok.value (if sop.type = .opLt then "$lt" else "$lte"))
        wtok.value (if sop.type = .opLt then "$lt" else "$lte") = true) ∧
    parseQuery "25<age<35" =
      .ok (.obj [("age", .obj [("$gt", .num 25), ("$lt", .num 35)])],
           [("age", ["$gt", "$lt"])]) := by
  constructor
  · intro ltok fop wtok sop utok hLt hFt hWt hSt hUt
    refine ⟨?_, ?_, ?_⟩
    · have hterm := parseTerm_between 29 ⟨[ltok, fop, wtok, sop, utok], 0, [], fun _ _ => true⟩
        ltok fop wtok sop utok (by omega) (fun _ _ => rfl)
        rfl hLt rfl hFt rfl hWt rfl hSt rfl hUt
      have hconj := parseConjunction_one 30
        ⟨[ltok, fop, wtok, sop, utok], 0, [], fun _ _ => true⟩ _ _
        (by omega) hterm (fun tok h => by simp at h)
      have hdisj := parseDisjunction_one 31
        ⟨[ltok, fop, wtok, sop, utok], 0, [], fun _ _ => true⟩ _ _
        (by omega) hconj (fun tok h => by simp at h)
      exact parseTokens_of_expr [ltok, fop, wtok, sop, utok] _ _ hdisj rfl rfl
    · rcases hFt with h1 | h1 <;> rcases hSt with h2 | h2 <;>
        simp [h1, h2, captureInsights, insHas]
    · rcases hFt with h1 | h1 <;> rcases hSt with h2 | h2 <;>
        simp [h1, h2, captureInsights, insHas]
  · rfl

/-- C4 witness: the general statement applied to the tokens of
`25<age<35`. -/
theorem claim_C4_witness :
    parseTokens [⟨.number, "25", 0⟩, ⟨.opLt, "<", 2⟩, ⟨.word, "age", 3⟩,
                 ⟨.opLt, "<", 6⟩, ⟨.number, "35", 7⟩] =
      .ok (.obj [("age", .obj [("$gt", .num 25), ("$lt", .num 35)])],
           [("age", ["$gt", "$lt"])]) := by
  have h := (claim_C4.1 ⟨.number, "25", 0⟩ ⟨.opLt, "<", 2⟩ ⟨.word, "age", 3⟩
    ⟨.opLt, "<", 6⟩ ⟨.number, "35", 7⟩ (Or.inl rfl) (Or.inl rfl) rfl (Or.inl rfl)
    (by decide)).1
  exact h.trans (by rfl)

/-- C3 (amended).  For every expression `A & B ^ C` with atomic comparison
terms A, B, C, the tree is a disjunction whose members are (the
conjunction of A and B) and (C): the AND connector binds tighter than the
OR connector.  (The claim as frozen swapped the members; see the
counterexample.) -/
theorem claim_C3 (w1 o1 l1 andTok w2 o2 l2 orTok w3 o3 l3 : Token) (op1 op2 op3 : String)
    (hw1 : w1.type = .word) (ho1 : opMap o1.type = some op1) (hl1 : isLitTy l1.type)
    (ha : andTok.type = .and)
    (hw2 : w2.type = .word) (ho2 : opMap o2.type = some op2) (hl2 : isLitTy l2.type)
    (hr : orTok.type = .or)
    (hw3 : w3.type = .word) (ho3 : opMap o3.type = some op3) (hl3 : isLitTy l3.type) :
    parseTokens [w1, o1, l1, andTok, w2, o2, l2, orTok, w3, o3, l3] =
      .ok (.obj [("$or", .arr
             [conjNodes [compNode w1.value op1 (litValue l1),
                         compNode w2.value op2 (litValue l2)],
              compNode w3.value op3 (litValue l3)])],
           captureInsights (captureInsights (captureInsights [] w1.value op1) w2.value op2)
             w3.value op3) := by
  have ht1 : parseTerm 47
      ⟨[w1, o1, l1, andTok, w2, o2, l2, orTok, w3, o3, l3], 0, [], fun _ _ => true⟩ =
      .ok (compNode w1.value op1 (litValue l1),
           ⟨[w1, o1, l1, andTok, w2, o2, l2, orTok, w3, o3, l3], 3,
            captureInsights [] w1.value op1, fun _ _ => true⟩) :=
    parseTerm_cmp 47 _ w1 o1 l1 op1 (by omega) (fun _ _ => rfl) rfl hw1 rfl ho1 rfl hl1
  have ht2 : parseTerm 46 ⟨[w1, o1, l1, andTok, w2, o2, l2, orTok, w3, o3, l3], 4,
      captureInsights [] w1.value op1, fun _ _ => true⟩ =
      .ok (compNode w2.value op2 (litValue l2),
           ⟨[w1, o1, l1, andTok, w2, o2, l2, orTok, w3, o3, l3], 7,
            captureInsights (captureInsights [] w1.value op1) w2.value op2, fun _ _ => true⟩) :=
    parseTerm_cmp 46 _ w2 o2 l2 op2 (by omega) (fun _ _ => rfl) rfl hw2 rfl ho2 rfl hl2
  have hconj12 : parseConjunction 48
      ⟨[w1, o1, l1, andTok, w2, o2, l2, orTok, w3, o3, l3], 0, [], fun _ _ => true⟩ =
      .ok (conjNodes [compNode w1.value op1 (litValue l1), compNode w2.value op2 (litValue l2)],
           ⟨[w1, o1, l1, andTok, w2, o2, l2, orTok, w3, o3, l3], 7,
            captureInsights (captureInsights [] w1.value op1) w2.value op2, fun _ _ => true⟩) :=
    parseConjunction_two 48 _ _ _ _ _ andTok (by omega) ht1 rfl ha ht2
      (fun tok h => by
        have e : orTok = tok := Option.some.inj h
        subst e; simp [hr])
  have ht3 : parseTerm 46 ⟨[w1, o1, l1, andTok, w2, o2, l2, orTok, w3, o3, l3], 8,
      captureInsights (captureInsights [] w1.value op1) w2.value op2, fun _ _ => true⟩ =
      .ok (compNode w3.value op3 (litValue l3),
           ⟨[w1, o1, l1, andTok, w2, o2, l2, orTok, w3, o3, l3], 11,
            captureInsights (captureInsights (captureInsights [] w1.value op1) w2.value op2)
              w3.value op3, fun _ _ => true⟩) :=
    parseTerm_cmp 46 _ w3 o3 l3 op3 (by omega) (fun _ _ => rfl) rfl hw3 rfl ho3 rfl hl3
  have hconj3 : parseConjunction 47
      ⟨[w1, o1, l1, andTok, w2, o2, l2, orTok, w3, o3, l3], 8,
        captureInsights (captureInsights [] w1.value op1) w2.value op2, fun _ _ => true⟩ =
      .ok (compNode w3.value op3 (litValue l3),
           ⟨[w1, o1, l1, andTok, w2, o2, l2, orTok, w3, o3, l3], 11,
            captureInsights (captureInsights (captureInsights [] w1.value op1) w2.value op2)
              w3.value op3, fun _ _ => true⟩) :=
    parseConjunction_one 47 _ _ _ (by omega) ht3 (fun tok h => by simp at h)
  have hdisj := parseDisjunction_two 49
    ⟨[w1, o1, l1, andTok, w2, o2, l2, orTok, w3, o3, l3], 0, [], fun _ _ => true⟩ _ _ _ _ orTok
    (by omega) hconj12 rfl hr hconj3 (fun tok h => by simp at h)
  exact parseTokens_of_expr _ _ _ hdisj rfl rfl

/-- C3 witness: the amended statement applied to the tokens of
`a=1&b=2^c=3`. -/
theorem claim_C3_witness :
    parseTokens [⟨.word, "a", 0⟩, ⟨.opEq, "=", 1⟩, ⟨.number, "1", 2⟩, ⟨.and, "&", 3⟩,
                 ⟨.word, "b", 4⟩, ⟨.opEq, "=", 5⟩, ⟨.number, "2", 6⟩, ⟨.or, "^", 7⟩,
                 ⟨.word, "c", 8⟩, ⟨.opEq, "=", 9⟩, ⟨.number, "3", 10⟩] =
      .ok (.obj [("$or", .arr [.obj [("a", .num 1), ("b", .num 2)], .obj [("c", .num 3)]])],
           [("a", ["$eq"]), ("b", ["$eq"]), ("c", ["$eq"])]) := by
  have h := claim_C3 ⟨.word, "a", 0⟩ ⟨.opEq, "=", 1⟩ ⟨.number, "1", 2⟩ ⟨.and, "&", 3⟩
    ⟨.word, "b", 4⟩ ⟨.opEq, "=", 5⟩ ⟨.number, "2", 6⟩ ⟨.or, "^", 7⟩
    ⟨.word, "c", 8⟩ ⟨.opEq, "=", 9⟩ ⟨.number, "3", 10⟩ "$eq" "$eq" "$eq"
    rfl rfl (by decide) rfl rfl rfl (by decide) rfl rfl rfl (by decide)
  exact h.trans (by rfl)


theorem insMono_refl (a : Insights) : insMono a a := fun _ _ h => h

theorem insMono_trans {a b c : Insights} (h1 : insMono a b) (h2 : insMono b c) :
    insMono a c := fun f op h => h2 f op (h1 f op h)

theorem insHas_capture_self (ins : Insights) (f op : String) :
    insHas (captureInsights ins f op) f op = true := by
  induction ins with
  | nil => simp [captureInsights, insHas]
  | cons e rest ih =>
    rcases e with ⟨g, ops⟩
    by_cases hg : g = f <;> simp [captureInsights, insHas, hg, ih]
    by_cases ho : op ∈ ops <;> simp [ho]

theorem insMono_capture (ins : Insights) (f op : String) :
    insMono ins (captureInsights ins f op) := by
  intro f' op' h
  induction ins with
  | nil => simp [insHas] at h
  | cons e rest ih =>
    rcases e with ⟨g, ops⟩
    by_cases hg : g = f <;> by_cases hg' : g = f' <;>
      simp_all [captureInsights, insHas]
    by_cases ho : op ∈ ops <;> simp_all

theorem covered_mono {ins ins' : Insights} {ps : List (String × String)}
    (hm : insMono ins ins') (hc : covered ins ps) : covered ins' ps :=
  fun p hp => hm p.1 p.2 (hc p hp)

theorem covered_append {ins : Insights} {ps qs : List (String × String)} :
    covered ins (ps ++ qs) ↔ covered ins ps ∧ covered ins qs := by
  constructor
  · intro h
    exact ⟨fun p hp => h p (List.mem_append_left _ hp),
           fun p hp => h p (List.mem_append_right _ hp)⟩
  · rintro ⟨h1, h2⟩ p hp
    rcases List.mem_append.1 hp with h | h
    · exact h1 p h
    · exact h2 p h

theorem insMono_foldl_capture (fields : List String) (op : String) (ins : Insights) :
    insMono ins (fields.foldl (fun a g => captureInsights a g op) ins) := by
  induction fields generalizing ins with
  | nil => exact insMono_refl ins
  | cons f rest ih =>
    exact insMono_trans (insMono_capture ins f op) (ih (captureInsights ins f op))

theorem exists_fields_covered (fields : List String) (op : String) (ins : Insights) :
    ∀ f ∈ fields, insHas (fields.foldl (fun a g => captureInsights a g op) ins) f op = true := by
  induction fields generalizing ins with
  | nil => intro f h; simp at h
  | cons g rest ih =>
    intro f hf
    rcases List.mem_cons.1 hf with rfl | hf
    · exact insMono_foldl_capture rest op _ f op (insHas_capture_self ins f op)
    · exact ih (captureInsights ins g op) f hf


theorem collectEntries_cons (k : String) (v : JVal) (rest : List (String × JVal)) :
    collectEntries ((k, v) :: rest) = collectEntries [(k, v)] ++ collectEntries rest := by
  cases v <;> simp [collectEntries]

theorem collectList_append (l1 l2 : List JVal) :
    collectList (l1 ++ l2) = collectList l1 ++ collectList l2 := by
  induction l1 with
  | nil => simp [collectList]
  | cons v rest ih => simp [collectList, ih]

theorem collectEntries_objSet_sub (cm : List (String × JVal)) (k : String) (v : JVal) :
    ∀ p ∈ collectEntries (objSet cm k v),
      p ∈ collectEntries cm ++ collectEntries [(k, v)] := by
  induction cm with
  | nil => intro p hp; simp [objSet] at hp; simp [hp]
  | cons e rest ih =>
    rcases e with ⟨k', v'⟩
    intro p hp
    by_cases hk : k' = k
    · rw [objSet, if_pos hk, collectEntries_cons] at hp
      rcases List.mem_append.1 hp with h | h
      · exact List.mem_append_right _ h
      · rw [collectEntries_cons]
        exact List.mem_append_left _ (List.mem_append_right _ h)
    · rw [objSet, if_neg hk, collectEntries_cons] at hp
      rw [collectEntries_cons]
      rcases List.mem_append.1 hp with h | h
      · exact List.mem_append_left _ (List.mem_append_left _ h)
      · rcases List.mem_append.1 (ih p h) with h' | h'
        · exact List.mem_append_left _ (List.mem_append_right _ h')
        · exact List.mem_append_right _ h'

theorem keys_objSet_sub (cm : List (String × JVal)) (k k' : String) (v : JVal)
    (h : k' ∈ (objSet cm k v).map (fun e => e.1)) :
    k' ∈ cm.map (fun e => e.1) ∨ k' = k := by
  induction cm with
  | nil => simp [objSet] at h; simp [h]
  | cons e rest ih =>
    rcases e with ⟨k0, v0⟩
    by_cases hk : k0 = k
    · rw [objSet, if_pos hk] at h
      simp at h
      rcases h with h | h
      · right; exact h
      · left; simp [h]
    · rw [objSet, if_neg hk] at h
      simp at h
      rcases h with h | h
      · left; simp [h]
      · rcases ih (by simpa using h) with h' | h'
        · left; simp at h'; simp [h']
        · right; exact h'

theorem keys_foldl_objSet_sub (ops : List String) (f : String → JVal)
    (init : List (String × JVal)) (k' : String)
    (h : k' ∈ (ops.foldl (fun acc op => objSet acc op (f op)) init).map (fun e => e.1)) :
    k' ∈ init.map (fun e => e.1) ∨ k' ∈ ops := by
  induction ops generalizing init with
  | nil => exact Or.inl h
  | cons op rest ih =>
    simp only [List.foldl_cons] at h
    rcases ih (objSet init op (f op)) h with h' | h'
    · rcases keys_objSet_sub init op k' (f op) h' with h'' | h''
      · left; exact h''
      · right; simp [h'']
    · right; simp [h']

theorem values_objSet_ne_arr (cm : List (String × JVal)) (k : String) (v : JVal)
    (hv : ∀ l, v ≠ JVal.arr l) (hcm : ∀ e ∈ cm, ∀ l, e.2 ≠ JVal.arr l) :
    ∀ e ∈ objSet cm k v, ∀ l, e.2 ≠ JVal.arr l := by
  induction cm with
  | nil => intro e he; simp [objSet] at he; simp [he, hv]
  | cons e0 rest ih =>
    rcases e0 with ⟨k0, v0⟩
    intro e he
    by_cases hk : k0 = k
    · rw [objSet, if_pos hk] at he
      rcases List.mem_cons.1 he with rfl | he
      · simpa using hv
      · exact hcm e (List.mem_cons_of_mem _ he)
    · rw [objSet, if_neg hk] at he
      rcases List.mem_cons.1 he with rfl | he
      · exact hcm _ (List.mem_cons_self _ _)
      · exact ih (fun e' he' => hcm e' (List.mem_cons_of_mem _ he')) e he

theorem objGet_mem {cm : List (String × JVal)} {k : String} {cur : JVal}
    (h : objGet cm k = some cur) : (k, cur) ∈ cm := by
  induction cm with
  | nil => simp [objGet] at h
  | cons e rest ih =>
    rcases e with ⟨k0, v0⟩
    by_cases hk : k0 = k
    · rw [objGet, if_pos hk] at h
      subst hk
      simp at h
      simp [h]
    · rw [objGet, if_neg hk] at h
      exact List.mem_cons_of_mem _ (ih h)

theorem mem_objSet {cm : List (String × JVal)} {k : String} {v : JVal} {e : String × JVal}
    (h : e ∈ objSet cm k v) : e ∈ cm ∨ e = (k, v) := by
  induction cm with
  | nil => simp [objSet] at h; right; exact h
  | cons e0 rest ih =>
    rcases e0 with ⟨k0, v0⟩
    by_cases hk : k0 = k
    · rw [objSet, if_pos hk] at h
      rcases List.mem_cons.1 h with rfl | h
      · right; rfl
      · left; exact List.mem_cons_of_mem _ h
    · rw [objSet, if_neg hk] at h
      rcases List.mem_cons.1 h with rfl | h
      · left; exact List.mem_cons_self _ _
      · rcases ih h with h' | h'
        · left; exact List.mem_cons_of_mem _ h'
        · right; exact h'

theorem mem_jsSetOfList {l : List String} {t : String} (h : t ∈ jsSetOfList l) : t ∈ l := by
  have general : ∀ (l : List String) (init : List String),
      t ∈ l.foldl (fun acc x => if x ∈ acc then acc else acc ++ [x]) init →
      t ∈ init ∨ t ∈ l := by
    intro l
    induction l with
    | nil => intro init h; exact Or.inl h
    | cons x rest ih =>
      intro init h
      simp only [List.foldl_cons] at h
      rcases ih _ h with h' | h'
      · by_cases hx : x ∈ init
        · rw [if_pos hx] at h'; exact Or.inl h'
        · rw [if_neg hx] at h'
          rcases List.mem_append.1 h' with h'' | h''
          · exact Or.inl h''
          · simp at h''; right; simp [h'']
      · right; exact List.mem_cons_of_mem _ h'
  rcases general l [] h with h' | h'
  · simp at h'
  · exact h'

theorem pair_of_prim {cm : List (String × JVal)} {k : String} {cur : JVal}
    (hget : objGet cm k = some cur) (hprim : isPrimitive cur = true)
    (hcm : cmOK cm) : (k, "$eq") ∈ collectEntries cm := by
  induction cm with
  | nil => simp [objGet] at hget
  | cons e rest ih =>
    rcases e with ⟨k0, v0⟩
    rw [collectEntries_cons]
    by_cases hk : k0 = k
    · subst hk
      rw [objGet, if_pos rfl] at hget
      simp only [Option.some.injEq] at hget
      apply List.mem_append_left
      rw [hget]
      cases cur <;> simp_all [collectEntries, isPrimitive]
    · rw [objGet, if_neg hk] at hget
      exact List.mem_append_right _
        (ih hget (fun e he => hcm e (List.mem_cons_of_mem _ he)))

theorem pair_of_obj {cm : List (String × JVal)} {k : String} {ops : List (String × JVal)}
    {t : String}
    (hget : objGet cm k = some (.obj ops)) (hcm : cmOK cm)
    (ht : t ∈ ops.map (fun e => e.1)) (hsup : t ∈ supportedTags) :
    (k, t) ∈ collectEntries cm := by
  induction cm with
  | nil => simp [objGet] at hget
  | cons e rest ih =>
    rcases e with ⟨k0, v0⟩
    rw [collectEntries_cons]
    by_cases hk : k0 = k
    · subst hk
      rw [objGet, if_pos rfl] at hget
      simp only [Option.some.injEq] at hget
      apply List.mem_append_left
      rw [hget]
      have hkk := hcm (k0, v0) (List.mem_cons_self _ _)
      have h1 : ¬ (k0 = "$and" ∨ k0 = "$or") := fun h => h.elim hkk.1.1 hkk.1.2
      simp only [collectEntries, if_neg h1, List.append_nil]
      exact List.mem_map.2 ⟨t, List.mem_filter.2 ⟨ht, by simpa using hsup⟩, rfl⟩
    · rw [objGet, if_neg hk] at hget
      exact List.mem_append_right _
        (ih hget (fun e he => hcm e (List.mem_cons_of_mem _ he)))

theorem not_prim_not_arr_obj {v : JVal} (hp : isPrimitive v = false)
    (hna : ∀ l, v ≠ JVal.arr l) : ∃ ops, v = JVal.obj ops := by
  cases v <;> simp_all [isPrimitive]

theorem mergeEntry_inv (merged : List JVal) (cm : List (String × JVal)) (k : String) (v : JVal)
    (hk1 : k ≠ "$and") (hk2 : k ≠ "$or") (hv : ∀ l, v ≠ JVal.arr l) (hcm : cmOK cm) :
    cmOK (mergeEntry (merged, cm) (k, v)).2 ∧
    (∀ p ∈ collectList (mergeEntry (merged, cm) (k, v)).1 ++
           collectEntries (mergeEntry (merged, cm) (k, v)).2,
       p ∈ (collectList merged ++ collectEntries cm) ++ collectEntries [(k, v)]) ∧
    (∀ n ∈ (mergeEntry (merged, cm) (k, v)).1, n ∈ merged ∨ n = JVal.obj cm) := by
  by_cases hhas : objHas cm k = true
  · obtain ⟨cur, hget⟩ : ∃ cur, objGet cm k = some cur := by
      unfold objHas at hhas
      exact Option.isSome_iff_exists.1 hhas
    have hcurna : ∀ l, cur ≠ JVal.arr l := (hcm _ (objGet_mem hget)).2
    by_cases hint : ((if isPrimitive cur then ["$eq"] else keysOfVal cur).any
        (fun op => decide (op ∈ (if isPrimitive v then jsSetOfString "$eq"
                                 else jsSetOfList (keysOfVal v))))) = true
    · -- conflict: flush the accumulator, drop the incoming value
      have hres : mergeEntry (merged, cm) (k, v) = (merged ++ [JVal.obj cm], []) := by
        simp [mergeEntry, hhas, hget, hint]
      rw [hres]
      refine ⟨by intro e he; simp at he, ?_, ?_⟩
      · intro p hp
        simp only [collectEntries, List.append_nil] at hp
        rw [collectList_append] at hp
        rcases List.mem_append.1 hp with h | h
        · exact List.mem_append_left _ (List.mem_append_left _ h)
        · simp only [collectList, collectPairs, List.append_nil] at h
          exact List.mem_append_left _ (List.mem_append_right _ h)
      · intro n hn
        rcases List.mem_append.1 hn with h | h
        · exact Or.inl h
        · simp at h; exact Or.inr h
    · -- no conflict: rebuild the field's entry as the union of both op maps
      have hres : mergeEntry (merged, cm) (k, v) =
          (merged, objSet cm k (.obj
            ((if isPrimitive v then jsSetOfString "$eq" else jsSetOfList (keysOfVal v)).foldl
              (fun acc op => objSet acc op (if isPrimitive v then v
                else (objGet (entriesOf v) op).getD .null))
              ((if isPrimitive cur then ["$eq"] else keysOfVal cur).foldl
                (fun acc op => objSet acc op (if isPrimitive cur then cur
                  else (objGet (entriesOf cur) op).getD .null)) [])))) := by
        simp [mergeEntry, hhas, hget, hint]
      rw [hres]
      refine ⟨?_, ?_, fun n hn => Or.inl hn⟩
      · intro e he
        rcases mem_objSet he with h | h
        · exact hcm e h
        · subst h
          exact ⟨⟨hk1, hk2⟩, by intro l h; simp at h⟩
      · intro p hp
        rcases List.mem_append.1 hp with h | h
        · exact List.mem_append_left _ (List.mem_append_left _ h)
        · rcases List.mem_append.1 (collectEntries_objSet_sub cm k _ p h) with h1 | h1
          · exact List.mem_append_left _ (List.mem_append_right _ h1)
          · -- p is a pair contributed by the rebuilt entry
            have h2 : ¬ (k = "$and" ∨ k = "$or") := fun h' => h'.elim hk1 hk2
            simp only [collectEntries, if_neg h2, List.append_nil] at h1
            rcases List.mem_map.1 h1 with ⟨t, htf, rfl⟩
            have htt := List.mem_filter.1 htf
            have hsup : t ∈ supportedTags := by simpa using htt.2
            rcases keys_foldl_objSet_sub _ _ _ t htt.1 with hkey | hkey
            · rcases keys_foldl_objSet_sub _ _ _ t hkey with hkey' | hkey'
              · simp at hkey'
              · -- t comes from the current accumulator entry for k
                by_cases hprim : isPrimitive cur = true
                · rw [if_pos hprim] at hkey'
                  simp at hkey'
                  subst hkey'
                  exact List.mem_append_left _
                    (List.mem_append_right _ (pair_of_prim hget hprim hcm))
                · rw [if_neg (by simpa using hprim)] at hkey'
                  obtain ⟨ops, rfl⟩ :=
                    not_prim_not_arr_obj (by simpa using hprim) hcurna
                  exact List.mem_append_left _ (List.mem_append_right _
                    (pair_of_obj hget hcm (by simpa [keysOfVal] using hkey') hsup))
            · -- t comes from the incoming value
              by_cases hprim : isPrimitive v = true
              · rw [if_pos hprim] at hkey
                have : t ∈ jsSetOfString "$eq" := hkey
                have hbad : t ∈ (["$", "e", "q"] : List String) := by
                  simpa [jsSetOfString, jsSetOfList] using this
                have hbad' : t = "$" ∨ t = "e" ∨ t = "q" := by simpa using hbad
                rcases hbad' with rfl | rfl | rfl <;> simp_all [supportedTags]
              · rw [if_neg (by simpa using hprim)] at hkey
                obtain ⟨ops, rfl⟩ := not_prim_not_arr_obj (by simpa using hprim) hv
                apply List.mem_append_right
                have h3 : ¬ (k = "$and" ∨ k = "$or") := fun h' => h'.elim hk1 hk2
                simp only [collectEntries, if_neg h3, List.append_nil]
                refine List.mem_map.2 ⟨t, List.mem_filter.2 ⟨?_, by simpa using hsup⟩, rfl⟩
                simpa [keysOfVal] using mem_jsSetOfList hkey
  · -- key absent: plain insert
    have hres : mergeEntry (merged, cm) (k, v) = (merged, objSet cm k v) := by
      simp [mergeEntry, hhas]
    rw [hres]
    refine ⟨?_, ?_, fun n hn => Or.inl hn⟩
    · intro e he
      rcases mem_objSet he with h | h
      · exact hcm e h
      · subst h; exact ⟨⟨hk1, hk2⟩, hv⟩
    · intro p hp
      rcases List.mem_append.1 hp with h | h
      · exact List.mem_append_left _ (List.mem_append_left _ h)
      · rcases List.mem_append.1 (collectEntries_objSet_sub cm k v p h) with h1 | h1
        · exact List.mem_append_left _ (List.mem_append_right _ h1)
        · exact List.mem_append_right _ h1

theorem nodeOK_of_cmOK {cm : List (String × JVal)} (hcm : cmOK cm) : nodeOK (.obj cm) := by
  intro e he
  rcases e with ⟨k, v⟩
  cases v <;> simp [entryOK]
  exact absurd rfl ((hcm _ he).2 _)

theorem objGet_isSome_of_mem {l : List (String × JVal)} {k : String} {v : JVal}
    (h : (k, v) ∈ l) : (objGet l k).isSome = true := by
  induction l with
  | nil => simp at h
  | cons e rest ih =>
    rcases e with ⟨k0, v0⟩
    by_cases hk : k0 = k
    · simp [objGet, hk]
    · rw [objGet, if_neg hk]
      rcases List.mem_cons.1 h with he | he
      · cases he; simp at hk
      · exact ih he

theorem mergeEntries_inv : ∀ (entries : List (String × JVal)) (merged : List JVal)
    (cm : List (String × JVal)),
    (∀ e ∈ entries, (e.1 ≠ "$and" ∧ e.1 ≠ "$or") ∧ ∀ l, e.2 ≠ JVal.arr l) →
    cmOK cm →
    cmOK (entries.foldl mergeEntry (merged, cm)).2 ∧
    (∀ p ∈ collectList (entries.foldl mergeEntry (merged, cm)).1 ++
           collectEntries (entries.foldl mergeEntry (merged, cm)).2,
       p ∈ (collectList merged ++ collectEntries cm) ++ collectEntries entries) ∧
    (∀ n ∈ (entries.foldl mergeEntry (merged, cm)).1, n ∈ merged ∨ nodeOK n) := by
  intro entries
  induction entries with
  | nil =>
    intro merged cm _ hcm
    refine ⟨hcm, ?_, fun n hn => Or.inl hn⟩
    intro p hp
    simp only [List.foldl_nil] at hp
    exact List.mem_append_left _ hp
  | cons e rest ih =>
    intro merged cm hent hcm
    rcases e with ⟨k, vv⟩
    have he0 := hent (k, vv) (List.mem_cons_self _ _)
    have hme := mergeEntry_inv merged cm k vv he0.1.1 he0.1.2 he0.2 hcm
    simp only [List.foldl_cons]
    rcases hres : mergeEntry (merged, cm) (k, vv) with ⟨m1, c1⟩
    rw [hres] at hme
    have hrec := ih m1 c1 (fun e he => hent e (List.mem_cons_of_mem _ he)) hme.1
    refine ⟨hrec.1, ?_, ?_⟩
    · intro p hp
      have h1 := hrec.2.1 p hp
      rcases List.mem_append.1 h1 with h | h
      · have h2 := hme.2.1 p h
        rcases List.mem_append.1 h2 with h3 | h3
        · exact List.mem_append_left _ h3
        · rw [collectEntries_cons]
          exact List.mem_append_right _ (List.mem_append_left _ h3)
      · rw [collectEntries_cons]
        exact List.mem_append_right _ (List.mem_append_right _ h)
    · intro n hn
      rcases hrec.2.2 n hn with h | h
      · rcases hme.2.2 n h with h' | h'
        · exact Or.inl h'
        · subst h'; exact Or.inr (nodeOK_of_cmOK hcm)
      · exact Or.inr h

theorem mergeNode_inv (node : JVal) (merged : List JVal) (cm : List (String × JVal))
    (hnode : nodeOK node) (hcm : cmOK cm) :
    cmOK (mergeNode (merged, cm) node).2 ∧
    (∀ p ∈ collectList (mergeNode (merged, cm) node).1 ++
           collectEntries (mergeNode (merged, cm) node).2,
       p ∈ (collectList merged ++ collectEntries cm) ++ collectPairs node) ∧
    (∀ n ∈ (mergeNode (merged, cm) node).1, n ∈ merged ∨ nodeOK n) := by
  by_cases hlog : (objHas (entriesOf node) "$or" = true) ∨ (objHas (entriesOf node) "$and" = true)
  · have hres : mergeNode (merged, cm) node = (merged ++ [node], cm) := by
      unfold mergeNode
      rcases hlog with h | h <;> simp [h]
    rw [hres]
    refine ⟨hcm, ?_, ?_⟩
    · intro p hp
      rcases List.mem_append.1 hp with h | h
      · rw [collectList_append] at h
        rcases List.mem_append.1 h with h' | h'
        · exact List.mem_append_left _ (List.mem_append_left _ h')
        · simp only [collectList, List.append_nil] at h'
          exact List.mem_append_right _ h'
      · exact List.mem_append_left _ (List.mem_append_right _ h)
    · intro n hn
      rcases List.mem_append.1 hn with h | h
      · exact Or.inl h
      · simp at h; subst h; exact Or.inr hnode
  · have hres : mergeNode (merged, cm) node = (entriesOf node).foldl mergeEntry (merged, cm) := by
      unfold mergeNode
      simp only [not_or] at hlog
      simp [Bool.not_eq_true] at hlog
      simp [hlog.1, hlog.2]
    rw [hres]
    simp only [not_or] at hlog
    have hent : ∀ e ∈ entriesOf node, (e.1 ≠ "$and" ∧ e.1 ≠ "$or") ∧ ∀ l, e.2 ≠ JVal.arr l := by
      intro e he
      rcases e with ⟨k, v⟩
      have hk1 : k ≠ "$and" := by
        intro hk; subst hk
        exact hlog.2 (by unfold objHas; exact objGet_isSome_of_mem he)
      have hk2 : k ≠ "$or" := by
        intro hk; subst hk
        exact hlog.1 (by unfold objHas; exact objGet_isSome_of_mem he)
      refine ⟨⟨hk1, hk2⟩, ?_⟩
      intro l hl
      subst hl
      have := hnode _ he
      simp [entryOK] at this
      exact this.elim hk1 hk2
    have h := mergeEntries_inv (entriesOf node) merged cm hent hcm
    refine ⟨h.1, ?_, h.2.2⟩
    intro p hp
    have h1 := h.2.1 p hp
    rcases List.mem_append.1 h1 with h2 | h2
    · exact List.mem_append_left _ h2
    · apply List.mem_append_right
      cases node <;> simp_all [entriesOf, collectPairs, collectEntries]

theorem collectPairs_mem_sub {v : JVal} {l : List JVal} (h : v ∈ l) :
    ∀ p ∈ collectPairs v, p ∈ collectList l := by
  induction l with
  | nil => simp at h
  | cons x rest ih =>
    intro p hp
    rcases List.mem_cons.1 h with rfl | h'
    · simp only [collectList]
      exact List.mem_append_left _ hp
    · simp only [collectList]
      exact List.mem_append_right _ (ih h' p hp)

theorem mergeFold_inv : ∀ (nodes : List JVal) (merged : List JVal)
    (cm : List (String × JVal)),
    (∀ n ∈ nodes, nodeOK n) → cmOK cm →
    cmOK (nodes.foldl mergeNode (merged, cm)).2 ∧
    (∀ p ∈ collectList (nodes.foldl mergeNode (merged, cm)).1 ++
           collectEntries (nodes.foldl mergeNode (merged, cm)).2,
       p ∈ (collectList merged ++ collectEntries cm) ++ collectList nodes) ∧
    (∀ n ∈ (nodes.foldl mergeNode (merged, cm)).1, n ∈ merged ∨ nodeOK n) := by
  intro nodes
  induction nodes with
  | nil =>
    intro merged cm _ hcm
    refine ⟨hcm, ?_, fun n hn => Or.inl hn⟩
    intro p hp
    exact List.mem_append_left _ hp
  | cons node rest ih =>
    intro merged cm hnodes hcm
    have hmn := mergeNode_inv node merged cm (hnodes node (List.mem_cons_self _ _)) hcm
    simp only [List.foldl_cons]
    rcases hres : mergeNode (merged, cm) node with ⟨m1, c1⟩
    rw [hres] at hmn
    have hrec := ih m1 c1 (fun n hn => hnodes n (List.mem_cons_of_mem _ hn)) hmn.1
    refine ⟨hrec.1, ?_, ?_⟩
    · intro p hp
      have h1 := hrec.2.1 p hp
      rcases List.mem_append.1 h1 with h | h
      · have h2 := hmn.2.1 p h
        rcases List.mem_append.1 h2 with h3 | h3
        · exact List.mem_append_left _ h3
        · simp only [collectList]
          exact List.mem_append_right _ (List.mem_append_left _ h3)
      · simp only [collectList]
        exact List.mem_append_right _ (List.mem_append_right _ h)
    · intro n hn
      rcases hrec.2.2 n hn with h | h
      · rcases hmn.2.2 n h with h' | h'
        · exact Or.inl h'
        · exact Or.inr h'
      · exact Or.inr h

theorem mergeConjunction_inv (nodes : List JVal) (hnodes : ∀ n ∈ nodes, nodeOK n)
    (m : JVal) (hm : mergeConjunction nodes = some m) :
    nodeOK m ∧ ∀ p ∈ collectPairs m, p ∈ collectList nodes := by
  have hfold := mergeFold_inv nodes [] [] hnodes (by intro e he; simp at he)
  rcases hres : nodes.foldl mergeNode ([], []) with ⟨mg, cm⟩
  rw [hres] at hfold
  unfold mergeConjunction at hm
  rw [hres] at hm
  simp only at hm
  have hmg : ∀ n ∈ mg ++ (if 0 < cm.length then [JVal.obj cm] else []), nodeOK n := by
    intro n hn
    rcases List.mem_append.1 hn with h | h
    · rcases hfold.2.2 n h with h' | h'
      · simp at h'
      · exact h'
    · by_cases hc : 0 < cm.length
      · rw [if_pos hc] at h; simp at h; subst h
        exact nodeOK_of_cmOK hfold.1
      · rw [if_neg hc] at h; simp at h
  have hpairs : ∀ p ∈ collectList (mg ++ (if 0 < cm.length then [JVal.obj cm] else [])),
      p ∈ collectList nodes := by
    intro p hp
    rw [collectList_append] at hp
    rcases List.mem_append.1 hp with h | h
    · have := hfold.2.1 p (List.mem_append_left _ h)
      simpa [collectList, collectEntries] using this
    · by_cases hc : 0 < cm.length
      · rw [if_pos hc] at h
        simp only [collectList, collectPairs, List.append_nil] at h
        have := hfold.2.1 p (List.mem_append_right _ h)
        simpa [collectList, collectEntries] using this
      · rw [if_neg hc] at h; simp [collectList] at h
  by_cases hlen : 1 < (if 0 < cm.length then mg ++ [JVal.obj cm] else mg).length
  · rw [if_pos hlen] at hm
    simp only [Option.some.injEq] at hm
    subst hm
    constructor
    · intro e he
      simp only [entriesOf] at he
      simp at he
      subst he
      simp [entryOK]
    · intro p hp
      simp only [collectPairs, collectEntries, List.append_nil] at hp
      rw [if_pos (by simp)] at hp
      apply hpairs
      by_cases hc : 0 < cm.length
      · rw [if_pos hc]
        simpa [hc] using hp
      · rw [if_neg hc]
        simpa [hc] using hp
  · rw [if_neg hlen] at hm
    have hmem : m ∈ (if 0 < cm.length then mg ++ [JVal.obj cm] else mg) := by
      rcases hl : (if 0 < cm.length then mg ++ [JVal.obj cm] else mg) with _ | ⟨x, xs⟩
      · rw [hl] at hm; simp at hm
      · rw [hl] at hm; simp at hm; subst hm; simp
    have hmem' : m ∈ mg ++ (if 0 < cm.length then [JVal.obj cm] else []) := by
      by_cases hc : 0 < cm.length
      · rw [if_pos hc] at hmem; simpa [hc] using hmem
      · rw [if_neg hc] at hmem; simp [hc]; exact hmem
    exact ⟨hmg m hmem', fun p hp => hpairs p (collectPairs_mem_sub hmem' p hp)⟩

theorem matchTy_true {ty : TokenType} {st st' : PState}
    (h : matchTy ty st = (true, st')) :
    st' = bump st ∧ ∃ tok, st.t.get? st.i = some tok ∧ tok.type = ty := by
  unfold matchTy peekT peekAt at h
  rcases hg : st.t.get? (st.i + 0) with _ | tok <;> rw [hg] at h
  · simp at h
  · by_cases hty : tok.type = ty
    · simp [hty] at h
      exact ⟨h.symm, tok, by simpa using hg, hty⟩
    · simp [hty] at h

theorem matchTy_false {ty : TokenType} {st st' : PState}
    (h : matchTy ty st = (false, st')) : st' = st := by
  unfold matchTy peekT peekAt at h
  rcases hg : st.t.get? (st.i + 0) with _ | tok <;> rw [hg] at h
  · simpa using h.symm
  · by_cases hty : tok.type = ty
    · simp [hty] at h
    · simp [hty] at h; exact h.symm

theorem consumeTy_ok {ty : TokenType} {st : PState} {tok : Token} {st' : PState}
    (h : consumeTy ty st = .ok (tok, st')) :
    st' = bump st ∧ st.t.get? st.i = some tok ∧ tok.type = ty := by
  unfold consumeTy consumeAny at h
  rcases hg : st.t.get? st.i with _ | tk <;> rw [hg] at h
  · simp at h
  · by_cases hty : tk.type = ty
    · simp [hty] at h
      obtain ⟨h1, h2⟩ := h
      refine ⟨h2.symm, ?_, ?_⟩ <;> simp_all
    · simp [hty] at h

theorem jsNumberV_prim (s : String) : isPrimitive (jsNumberV s) = true := by
  simp only [jsNumberV]
  split
  · rfl
  · split <;> rfl

theorem parseLiteral_ok {st : PState} {v : JVal} {st' : PState}
    (h : parseLiteral st = .ok (v, st')) :
    st' = bump st ∧ isPrimitive v = true ∧
    ∃ tok, st.t.get? st.i = some tok ∧ isLitTy tok.type = true := by
  unfold parseLiteral consumeAny at h
  rcases hg : st.t.get? st.i with _ | tok <;> rw [hg] at h
  · simp at h
  · rcases tok with ⟨ty, tv, tp⟩
    cases ty
    case regex =>
      dsimp only at h
      split at h <;> simp at h <;>
        exact ⟨h.2.symm, by rw [← h.1]; rfl, ⟨_, rfl, rfl⟩⟩
    all_goals
      simp at h <;>
        refine ⟨h.2.symm, ?_, ⟨_, rfl, rfl⟩⟩ <;>
        first
          | exact h.1 ▸ jsNumberV_prim tv
          | (rw [← h.1]; rfl)

theorem collectEntries_mem_split {l : List (String × JVal)} {p : String × String}
    (hp : p ∈ collectEntries l) : ∃ e ∈ l, p ∈ collectEntries [e] := by
  induction l with
  | nil => simp [collectEntries] at hp
  | cons e rest ih =>
    rcases e with ⟨k, v⟩
    rw [collectEntries_cons] at hp
    rcases List.mem_append.1 hp with h | h
    · exact ⟨(k, v), List.mem_cons_self _ _, h⟩
    · obtain ⟨e', he', hpe⟩ := ih h
      exact ⟨e', List.mem_cons_of_mem _ he', hpe⟩

theorem mem_foldl_objSet {V : String → JVal} :
    ∀ (fs : List String) (init : List (String × JVal)) (e : String × JVal),
    e ∈ fs.foldl (fun acc f => objSet acc f (V f)) init →
    e ∈ init ∨ ∃ f ∈ fs, e = (f, V f) := by
  intro fs
  induction fs with
  | nil => intro init e h; exact Or.inl h
  | cons f rest ih =>
    intro init e h
    simp only [List.foldl_cons] at h
    rcases ih (objSet init f (V f)) e h with h' | h'
    · rcases mem_objSet h' with h'' | h''
      · exact Or.inl h''
      · exact Or.inr ⟨f, List.mem_cons_self _ _, h''⟩
    · obtain ⟨f', hf', he⟩ := h'
      exact Or.inr ⟨f', List.mem_cons_of_mem _ hf', he⟩

theorem buildExists_pairs (fields : List String) (pos : Bool) :
    ∀ p ∈ collectPairs (buildExists fields pos), ∃ f ∈ fields, p = (f, "$exists") := by
  intro p hp
  simp only [buildExists, collectPairs] at hp
  obtain ⟨e, he, hpe⟩ := collectEntries_mem_split hp
  rcases mem_foldl_objSet fields [] e he with h | h
  · simp at h
  · obtain ⟨f, hf, rfl⟩ := h
    by_cases hlog : f = "$and" ∨ f = "$or"
    · simp [collectEntries, hlog] at hpe
    · simp [collectEntries, if_neg hlog, supportedTags] at hpe
      exact ⟨f, hf, by simp [hpe]⟩

theorem buildExists_nodeOK (fields : List String) (pos : Bool) :
    nodeOK (buildExists fields pos) := by
  intro e he
  simp only [buildExists, entriesOf] at he
  rcases mem_foldl_objSet fields [] e he with h | h
  · simp at h
  · obtain ⟨f, _, rfl⟩ := h
    simp [entryOK]

theorem collectList_singleton (v : JVal) : collectList [v] = collectPairs v := by
  simp [collectList]

theorem foldl_capIns_ins (fields : List String) (op : String) :
    ∀ st : PState, (fields.foldl (fun s f => capIns s f op) st).ins =
      fields.foldl (fun a g => captureInsights a g op) st.ins := by
  induction fields with
  | nil => intro st; rfl
  | cons f rest ih => intro st; exact ih (capIns st f op)

theorem collectPairs_single_op (f op : String) (v : JVal) :
    ∀ p ∈ collectPairs (.obj [(f, .obj [(op, v)])]),
      p = (f, op) ∧ op ∈ supportedTags := by
  intro p hp
  by_cases hlog : f = "$and" ∨ f = "$or"
  · simp [collectPairs, collectEntries, hlog] at hp
  · simp [collectPairs, collectEntries, if_neg hlog] at hp
    obtain ⟨a, ⟨ha, hsup⟩, hpa⟩ := hp
    subst ha
    exact ⟨hpa.symm, hsup⟩

theorem collectPairs_prim_entry (f : String) (v : JVal) (hv : isPrimitive v = true) :
    ∀ p ∈ collectPairs (.obj [(f, v)]), p = (f, "$eq") := by
  intro p hp
  rcases v <;> simp_all [collectPairs, collectEntries, isPrimitive] <;>
    (rcases p with ⟨pf, pt⟩; simp_all)

theorem nodeOK_single_obj (f : String) (entries : List (String × JVal)) :
    nodeOK (.obj [(f, .obj entries)]) := by
  intro e he
  simp only [entriesOf] at he
  simp at he
  subst he
  simp [entryOK]

theorem nodeOK_single_prim (f : String) (v : JVal) (hv : isPrimitive v = true) :
    nodeOK (.obj [(f, v)]) := by
  intro e he
  simp only [entriesOf] at he
  simp at he
  subst he
  cases v <;> simp_all [entryOK, isPrimitive]

theorem collectPairs_two_op (f o1 o2 : String) (v1 v2 : JVal) :
    ∀ p ∈ collectPairs (.obj [(f, .obj [(o1, v1), (o2, v2)])]),
      (p = (f, o1) ∧ o1 ∈ supportedTags) ∨ (p = (f, o2) ∧ o2 ∈ supportedTags) := by
  intro p hp
  by_cases hlog : f = "$and" ∨ f = "$or"
  · simp [collectPairs, collectEntries, hlog] at hp
  · simp [collectPairs, collectEntries, if_neg hlog] at hp
    obtain ⟨a, ⟨ha, hsup⟩, hpa⟩ := hp
    rcases ha with ha | ha <;> subst ha
    · exact Or.inl ⟨hpa.symm, hsup⟩
    · exact Or.inr ⟨hpa.symm, hsup⟩

/-- One induction over fuel establishing, for every grammar method, that the
insight tracker only grows and that the returned tree's (field, tag) pairs
are all covered by the final tracker (with the node-wellformedness needed
by the merge algorithm). -/
theorem parser_ins_inv : ∀ fuel : Nat,
    (∀ st v st', parseTerm fuel st = .ok (v, st') →
      insMono st.ins st'.ins ∧ covered st'.ins (collectPairs v) ∧ nodeOK v) ∧
    (∀ st v st', parseTermRest fuel st = .ok (v, st') →
      insMono st.ins st'.ins ∧ covered st'.ins (collectPairs v) ∧ nodeOK v) ∧
    (∀ st v st', parseConjunction fuel st = .ok (v, st') →
      insMono st.ins st'.ins ∧ covered st'.ins (collectPairs v) ∧ nodeOK v) ∧
    (∀ st acc nodes st', parseConjTail fuel st acc = .ok (nodes, st') →
      insMono st.ins st'.ins ∧
      (covered st.ins (collectList acc) → (∀ n ∈ acc, nodeOK n) →
        covered st'.ins (collectList nodes) ∧ ∀ n ∈ nodes, nodeOK n)) ∧
    (∀ st v st', parseDisjunction fuel st = .ok (v, st') →
      insMono st.ins st'.ins ∧ covered st'.ins (collectPairs v) ∧ nodeOK v) ∧
    (∀ st acc nodes st', parseDisjTail fuel st acc = .ok (nodes, st') →
      insMono st.ins st'.ins ∧
      (covered st.ins (collectList acc) → (∀ n ∈ acc, nodeOK n) →
        covered st'.ins (collectList nodes) ∧ ∀ n ∈ nodes, nodeOK n)) ∧
    (∀ st acc fs st', parseFieldsTail fuel st acc = .ok (fs, st') → st'.ins = st.ins) ∧
    (∀ st acc vs st', parseListTail fuel st acc = .ok (vs, st') → st'.ins = st.ins) := by
  intro fuel
  induction fuel with
  | zero =>
    refine ⟨?_, ?_, ?_, ?_, ?_, ?_, ?_, ?_⟩ <;>
    · intros
      rename_i h
      simp [parseTerm, parseTermRest, parseConjunction, parseConjTail, parseDisjunction,
        parseDisjTail, parseFieldsTail, parseListTail] at h
  | succ fuel ih =>
    obtain ⟨ihTerm, ihRest, ihConj, ihConjT, ihDisj, ihDisjT, ihF, ihL⟩ := ih
    have hFields : ∀ st acc fs st', parseFieldsTail (fuel + 1) st acc = .ok (fs, st') →
        st'.ins = st.ins := by
      intro st acc fs st' h
      simp only [parseFieldsTail] at h
      rcases hm : matchTy .comma st with ⟨b, st0⟩
      rw [hm] at h
      cases b <;> dsimp only at h
      · simp at h
        rw [← h.2, matchTy_false hm]
      · rcases hc : consumeTy .word st0 with e | ⟨f, st1⟩ <;> rw [hc] at h <;>
          dsimp only at h
        · simp at h
        · rw [ihF _ _ _ _ h, (consumeTy_ok hc).1, (matchTy_true hm).1]
          rfl
    have hList : ∀ st acc vs st', parseListTail (fuel + 1) st acc = .ok (vs, st') →
        st'.ins = st.ins := by
      intro st acc vs st' h
      simp only [parseListTail] at h
      rcases hm : matchTy .comma st with ⟨b, st0⟩
      rw [hm] at h
      cases b <;> dsimp only at h
      · simp at h
        rw [← h.2, matchTy_false hm]
      · rcases hc : parseLiteral st0 with e | ⟨lv, st1⟩ <;> rw [hc] at h <;>
          dsimp only at h
        · simp at h
        · rw [ihL _ _ _ _ h, (parseLiteral_ok hc).1, (matchTy_true hm).1]
          rfl
    have hRest : ∀ st v st', parseTermRest (fuel + 1) st = .ok (v, st') →
        insMono st.ins st'.ins ∧ covered st'.ins (collectPairs v) ∧ nodeOK v := by
      intro st v st' h
      simp only [parseTermRest] at h
      rcases hpk : peekT st with _ | kwTok <;> rw [hpk] at h <;> dsimp only at h
      · simp at h
      · by_cases hkw : kwTok.type = .keyword ∧ (kwTok.value = "$exists" ∨ kwTok.value = "$!exists")
        · rw [if_pos hkw] at h
          rcases h1 : consumeTy .keyword st with e | ⟨kt, st1⟩ <;> rw [h1] at h <;>
            dsimp only at h
          · simp at h
          rcases h2 : consumeTy .opEq st1 with e | ⟨et, st2⟩ <;> rw [h2] at h <;>
            dsimp only at h
          · simp at h
          rcases h3 : consumeTy .word st2 with e | ⟨f1, st3⟩ <;> rw [h3] at h <;>
            dsimp only at h
          · simp at h
          rcases h4 : parseFieldsTail fuel st3 [f1.value] with e | ⟨fields, st4⟩ <;>
            rw [h4] at h <;> dsimp only at h
          · simp at h
          simp only [Except.ok.injEq, Prod.mk.injEq] at h
          obtain ⟨hv, hst⟩ := h
          subst hv
          have hins4 : st4.ins = st.ins := by
            rw [ihF _ _ _ _ h4, (consumeTy_ok h3).1, (consumeTy_ok h2).1, (consumeTy_ok h1).1]
            rfl
          have hmono : insMono st.ins st'.ins := by
            rw [← hst, foldl_capIns_ins]
            intro f op hf
            have hh : insHas st4.ins f op = true := by rw [hins4]; exact hf
            exact insMono_foldl_capture fields "$exists" st4.ins f op hh
          refine ⟨hmono, ?_, buildExists_nodeOK fields _⟩
          intro p hp
          obtain ⟨f, hf, rfl⟩ := buildExists_pairs fields _ p hp
          rw [← hst]
          show insHas (List.foldl (fun s f => capIns s f "$exists") st4 fields).ins f "$exists" = true
          rw [foldl_capIns_ins]
          exact exists_fields_covered fields "$exists" st4.ins f hf
        · rw [if_neg hkw] at h
          by_cases hin : (kwTok.type = .word ∧ peekTy st 1 = some .lbrace) ∨
              (peekTy st 1 = some .bang ∧ peekTy st 2 = some .lbrace)
          · rw [if_pos hin] at h
            rcases h1 : consumeTy .word st with e | ⟨fieldTok, st1⟩ <;> rw [h1] at h <;>
              dsimp only at h
            · simp at h
            rcases h2 : matchTy .bang st1 with ⟨neg, st2⟩
            rw [h2] at h
            dsimp only at h
            rcases h3 : consumeTy .lbrace st2 with e | ⟨bt, st3⟩ <;> rw [h3] at h <;>
              dsimp only at h
            · simp at h
            rcases h4 : parseLiteral st3 with e | ⟨l1, st4⟩ <;> rw [h4] at h <;>
              dsimp only at h
            · simp at h
            rcases h5 : parseListTail fuel st4 [l1] with e | ⟨list, st5⟩ <;> rw [h5] at h <;>
              dsimp only at h
            · simp at h
            rcases h6 : consumeTy .rbrace st5 with e | ⟨rt, st6⟩ <;> rw [h6] at h <;>
              dsimp only at h
            · simp at h
            simp only [Except.ok.injEq, Prod.mk.injEq, capIns] at h
            obtain ⟨hv, hst⟩ := h
            subst hv
            have hins6 : st6.ins = st.ins := by
              rw [(consumeTy_ok h6).1]
              show st5.ins = st.ins
              rw [ihL _ _ _ _ h5, (parseLiteral_ok h4).1, (consumeTy_ok h3).1]
              show st2.ins = st.ins
              have hst2 : st2.ins = st1.ins := by
                cases neg
                · rw [matchTy_false h2]
                · rw [(matchTy_true h2).1]; rfl
              rw [hst2, (consumeTy_ok h1).1]
              rfl
            have hmono : insMono st.ins st'.ins := by
              rw [← hst]
              intro f op hf
              apply insMono_capture
              show insHas st6.ins f op = true
              rw [hins6]; exact hf
            refine ⟨hmono, ?_, ?_⟩
            · intro p hp
              have hp' := (collectPairs_single_op _ _ _ p hp).1
              rw [hp', ← hst]
              exact insHas_capture_self st6.ins fieldTok.value _
            · exact nodeOK_single_obj _ _
          · rw [if_neg hin] at h
            rcases h1 : consumeTy .word st with e | ⟨fieldTok, st1⟩ <;> rw [h1] at h <;>
              dsimp only at h
            · simp at h
            rcases h2 : consumeAny st1 with ⟨opTok?, st2⟩
            rw [h2] at h
            dsimp only at h
            rcases h3 : parseLiteral st2 with e | ⟨lit, st3⟩ <;> rw [h3] at h <;>
              dsimp only at h
            · simp at h
            rcases opTok? with _ | opTok <;> dsimp only at h
            · simp at h
            rcases h4 : opMap opTok.type with _ | op <;> rw [h4] at h <;> dsimp only at h
            · simp at h
            have hins3 : st3.ins = st.ins := by
              rw [(parseLiteral_ok h3).1]
              show st2.ins = st.ins
              have hb : st2 = bump st1 := by
                unfold consumeAny at h2
                simp at h2
                exact h2.2.symm
              rw [hb, (consumeTy_ok h1).1]
              rfl
            have hlitprim := (parseLiteral_ok h3).2.1
            by_cases he : op = "$eq"
            · rw [if_pos he] at h
              simp only [Except.ok.injEq, Prod.mk.injEq, capIns] at h
              obtain ⟨hv, hst⟩ := h
              subst hv
              have hmono : insMono st.ins st'.ins := by
                rw [← hst]
                intro f o hf
                apply insMono_capture
                show insHas st3.ins f o = true
                rw [hins3]; exact hf
              subst he
              refine ⟨hmono, ?_, ?_⟩
              · intro p hp
                rw [collectPairs_prim_entry _ _ hlitprim p hp, ← hst]
                exact insHas_capture_self st3.ins fieldTok.value "$eq"
              · exact nodeOK_single_prim _ _ hlitprim
            · rw [if_neg he] at h
              simp only [Except.ok.injEq, Prod.mk.injEq, capIns] at h
              obtain ⟨hv, hst⟩ := h
              subst hv
              have hmono : insMono st.ins st'.ins := by
                rw [← hst]
                intro f o hf
                apply insMono_capture
                show insHas st3.ins f o = true
                rw [hins3]; exact hf
              refine ⟨hmono, ?_, ?_⟩
              · intro p hp
                rw [(collectPairs_single_op _ _ _ p hp).1, ← hst]
                exact insHas_capture_self st3.ins fieldTok.value op
              · exact nodeOK_single_obj _ _
    have hTerm : ∀ st v st', parseTerm (fuel + 1) st = .ok (v, st') →
        insMono st.ins st'.ins ∧ covered st'.ins (collectPairs v) ∧ nodeOK v := by
      intro st v st' h
      simp only [parseTerm] at h
      rcases hm : matchTy .lparen st with ⟨b, st0⟩
      rw [hm] at h
      cases b <;> dsimp only at h
      · obtain rfl := (matchTy_false hm).symm
        rcases hpk : peekT st with _ | tok0 <;> rw [hpk] at h <;> dsimp only at h
        · simp at h
        · by_cases hns : tok0.type = .number ∨ tok0.type = .string
          · rw [if_pos hns] at h
            rcases h1 : parseLiteral st with e | ⟨lhsLit, st1⟩ <;> rw [h1] at h <;>
              dsimp only at h
            · simp at h
            rcases h2 : consumeAny st1 with ⟨fOp?, st2⟩
            rw [h2] at h
            dsimp only at h
            rcases fOp? with _ | fOp <;> dsimp only at h
            · simp at h
            have hst2 : st2 = bump st1 := by
              unfold consumeAny at h2
              simp at h2
              exact h2.2.symm
            have hins2 : st2.ins = st.ins := by
              rw [hst2, (parseLiteral_ok h1).1]
              rfl
            by_cases hfop : fOp.type ≠ .opLt ∧ fOp.type ≠ .opLte
            · rw [if_pos hfop] at h
              have hr := ihRest _ _ _ h
              have hrw : ({ st2 with i := st2.i - 2 } : PState).ins = st.ins := hins2
              refine ⟨?_, hr.2.1, hr.2.2⟩
              intro f op hf
              exact hr.1 f op (by rw [hrw]; exact hf)
            · rw [if_neg hfop] at h
              rcases h3 : consumeTy .word st2 with e | ⟨fieldTok, st3⟩ <;> rw [h3] at h <;>
                dsimp only at h
              · simp at h
              rcases h4 : consumeAny st3 with ⟨sOp?, st4⟩
              rw [h4] at h
              dsimp only at h
              rcases sOp? with _ | sOp <;> dsimp only at h
              · simp at h
              by_cases hsop : sOp.type ≠ .opLt ∧ sOp.type ≠ .opLte
              · rw [if_pos hsop] at h; simp at h
              · rw [if_neg hsop] at h
                rcases h5 : parseLiteral st4 with e | ⟨rhsLit, st5⟩ <;> rw [h5] at h <;>
                  dsimp only at h
                · simp at h
                simp only [Except.ok.injEq, Prod.mk.injEq, capIns] at h
                obtain ⟨hv, hst⟩ := h
                subst hv
                have hst4 : st4 = bump st3 := by
                  unfold consumeAny at h4
                  simp at h4
                  exact h4.2.symm
                have hins5 : st5.ins = st.ins := by
                  rw [(parseLiteral_ok h5).1, hst4, (consumeTy_ok h3).1]
                  show st2.ins = st.ins
                  exact hins2
                have hmono : insMono st.ins st'.ins := by
                  rw [← hst]
                  intro f op hf
                  apply insMono_capture
                  apply insMono_capture
                  show insHas st5.ins f op = true
                  rw [hins5]; exact hf
                refine ⟨hmono, ?_, ?_⟩
                · intro p hp
                  have hred : objSet (objSet [] (if fOp.type = .opLt then "$gt" else "$gte")
                      (lhsLit)) (if sOp.type = .opLt then "$lt" else "$lte") rhsLit =
                      [((if fOp.type = .opLt then "$gt" else "$gte"), lhsLit),
                       ((if sOp.type = .opLt then "$lt" else "$lte"), rhsLit)] := by
                    by_cases hf1 : fOp.type = .opLt <;> by_cases hs1 : sOp.type = .opLt <;>
                      simp [hf1, hs1, objSet]
                  rw [hred] at hp
                  rcases collectPairs_two_op _ _ _ _ _ p hp with ⟨hpe, _⟩ | ⟨hpe, _⟩
                  · rw [hpe, ← hst]
                    apply insMono_capture
                    exact insHas_capture_self st5.ins fieldTok.value _
                  · rw [hpe, ← hst]
                    exact insHas_capture_self _ fieldTok.value _
                · exact nodeOK_single_obj _ _
          · rw [if_neg hns] at h
            have hr := ihRest _ _ _ h
            exact ⟨hr.1, hr.2.1, hr.2.2⟩
      · obtain ⟨hb, tok, hg, hty⟩ := matchTy_true hm
        rcases h1 : parseDisjunction fuel st0 with e | ⟨inside, st1⟩ <;> rw [h1] at h <;>
          dsimp only at h
        · simp at h
        rcases h2 : consumeTy .rparen st1 with e | ⟨rt, st2⟩ <;> rw [h2] at h <;>
          dsimp only at h
        · simp at h
        simp only [Except.ok.injEq, Prod.mk.injEq] at h
        obtain ⟨hv, hst⟩ := h
        subst hv
        have hd := ihDisj _ _ _ h1
        have hins' : st'.ins = st1.ins := by
          rw [← hst, (consumeTy_ok h2).1]
          rfl
        have hins0 : st0.ins = st.ins := by rw [hb]; rfl
        refine ⟨?_, ?_, hd.2.2⟩
        · intro f op hf
          rw [hins']
          exact hd.1 f op (by rw [hins0]; exact hf)
        · intro p hp
          rw [hins']
          exact hd.2.1 p hp
    have hConjT : ∀ st acc nodes st', parseConjTail (fuel + 1) st acc = .ok (nodes, st') →
        insMono st.ins st'.ins ∧
        (covered st.ins (collectList acc) → (∀ n ∈ acc, nodeOK n) →
          covered st'.ins (collectList nodes) ∧ ∀ n ∈ nodes, nodeOK n) := by
      intro st acc nodes st' h
      simp only [parseConjTail] at h
      rcases hm : matchTy .and st with ⟨b, st0⟩
      rw [hm] at h
      cases b <;> dsimp only at h
      · obtain rfl := matchTy_false hm
        simp at h
        obtain ⟨hn, hst⟩ := h
        subst hn
        rw [← hst]
        exact ⟨insMono_refl _, fun hc hOK => ⟨hc, hOK⟩⟩
      · obtain ⟨hb, tok, hg, hty⟩ := matchTy_true hm
        rcases h1 : parseTerm fuel st0 with e | ⟨n, st1⟩ <;> rw [h1] at h <;> dsimp only at h
        · simp at h
        have ht := ihTerm _ _ _ h1
        have htl := ihConjT _ _ _ _ h
        have hins0 : st0.ins = st.ins := by rw [hb]; rfl
        have hmono : insMono st.ins st'.ins := by
          intro f op hf
          exact htl.1 f op (ht.1 f op (by rw [hins0]; exact hf))
        refine ⟨hmono, ?_⟩
        intro hcov hOK
        apply htl.2
        · intro p hp
          rw [collectList_append] at hp
          rcases List.mem_append.1 hp with hp | hp
          · exact ht.1 p.1 p.2 (by rw [hins0]; exact hcov p hp)
          · rw [collectList_singleton] at hp
            exact ht.2.1 p hp
        · intro m hm'
          rcases List.mem_append.1 hm' with hm' | hm'
          · exact hOK m hm'
          · simp at hm'; subst hm'; exact ht.2.2
    have hDisjT : ∀ st acc nodes st', parseDisjTail (fuel + 1) st acc = .ok (nodes, st') →
        insMono st.ins st'.ins ∧
        (covered st.ins (collectList acc) → (∀ n ∈ acc, nodeOK n) →
          covered st'.ins (collectList nodes) ∧ ∀ n ∈ nodes, nodeOK n) := by
      intro st acc nodes st' h
      simp only [parseDisjTail] at h
      rcases hm : matchTy .or st with ⟨b, st0⟩
      rw [hm] at h
      cases b <;> dsimp only at h
      · obtain rfl := matchTy_false hm
        simp at h
        obtain ⟨hn, hst⟩ := h
        subst hn
        rw [← hst]
        exact ⟨insMono_refl _, fun hc hOK => ⟨hc, hOK⟩⟩
      · obtain ⟨hb, tok, hg, hty⟩ := matchTy_true hm
        rcases h1 : parseConjunction fuel st0 with e | ⟨n, st1⟩ <;> rw [h1] at h <;>
          dsimp only at h
        · simp at h
        have ht := ihConj _ _ _ h1
        have htl := ihDisjT _ _ _ _ h
        have hins0 : st0.ins = st.ins := by rw [hb]; rfl
        have hmono : insMono st.ins st'.ins := by
          intro f op hf
          exact htl.1 f op (ht.1 f op (by rw [hins0]; exact hf))
        refine ⟨hmono, ?_⟩
        intro hcov hOK
        apply htl.2
        · intro p hp
          rw [collectList_append] at hp
          rcases List.mem_append.1 hp with hp | hp
          · exact ht.1 p.1 p.2 (by rw [hins0]; exact hcov p hp)
          · rw [collectList_singleton] at hp
            exact ht.2.1 p hp
        · intro m hm'
          rcases List.mem_append.1 hm' with hm' | hm'
          · exact hOK m hm'
          · simp at hm'; subst hm'; exact ht.2.2
    have hConj : ∀ st v st', parseConjunction (fuel + 1) st = .ok (v, st') →
        insMono st.ins st'.ins ∧ covered st'.ins (collectPairs v) ∧ nodeOK v := by
      intro st v st' h
      simp only [parseConjunction] at h
      rcases h1 : parseTerm fuel st with e | ⟨n, st1⟩ <;> rw [h1] at h <;> dsimp only at h
      · simp at h
      rcases h2 : parseConjTail fuel st1 [n] with e | ⟨nodes, st2⟩ <;> rw [h2] at h <;>
        dsimp only at h
      · simp at h
      have ht := ihTerm _ _ _ h1
      have htl := ihConjT _ _ _ _ h2
      obtain ⟨hcov2, hOK2⟩ := htl.2
        (by intro p hp; rw [collectList_singleton] at hp; exact ht.2.1 p hp)
        (by intro m hm'; simp at hm'; subst hm'; exact ht.2.2)
      have hmono : insMono st.ins st2.ins := insMono_trans ht.1 htl.1
      rcases nodes with _ | ⟨x, _ | ⟨y, rest⟩⟩ <;> dsimp only at h
      · rcases hm2 : mergeConjunction [] with _ | m <;> rw [hm2] at h <;> dsimp only at h
        · simp at h
          obtain ⟨hv, hst⟩ := h
          subst hv
          rw [← hst]
          refine ⟨hmono, ?_, ?_⟩
          · intro p hp
            simp [collectPairs, collectEntries, collectList] at hp
          · intro e he
            simp only [entriesOf] at he
            simp at he
            subst he
            simp [entryOK]
        · simp [mergeConjunction] at hm2
      · simp at h
        obtain ⟨hv, hst⟩ := h
        subst hv
        rw [← hst]
        refine ⟨hmono, ?_, hOK2 x (by simp)⟩
        intro p hp
        exact hcov2 p (by rw [collectList_singleton]; exact hp)
      · rcases hm2 : mergeConjunction (x :: y :: rest) with _ | m <;> rw [hm2] at h <;>
          dsimp only at h
        · simp at h
          obtain ⟨hv, hst⟩ := h
          subst hv
          rw [← hst]
          refine ⟨hmono, ?_, ?_⟩
          · intro p hp
            have hpe : collectPairs (JVal.obj [("$and", JVal.arr (x :: y :: rest))]) =
                collectList (x :: y :: rest) := by
              simp [collectPairs, collectEntries]
            rw [hpe] at hp
            exact hcov2 p hp
          · intro e he
            simp only [entriesOf] at he
            simp at he
            subst he
            simp [entryOK]
        · simp at h
          obtain ⟨hv, hst⟩ := h
          subst hv
          rw [← hst]
          have hmi := mergeConjunction_inv (x :: y :: rest) hOK2 m hm2
          exact ⟨hmono, fun p hp => hcov2 p (hmi.2 p hp), hmi.1⟩
    have hDisj : ∀ st v st', parseDisjunction (fuel + 1) st = .ok (v, st') →
        insMono st.ins st'.ins ∧ covered st'.ins (collectPairs v) ∧ nodeOK v := by
      intro st v st' h
      simp only [parseDisjunction] at h
      rcases h1 : parseConjunction fuel st with e | ⟨node, st1⟩ <;> rw [h1] at h <;>
        dsimp only at h
      · simp at h
      rcases h2 : parseDisjTail fuel st1 [node] with e | ⟨ors, st2⟩ <;> rw [h2] at h <;>
        dsimp only at h
      · simp at h
      have hc := ihConj _ _ _ h1
      have htl := ihDisjT _ _ _ _ h2
      obtain ⟨hcov2, hOK2⟩ := htl.2
        (by intro p hp; rw [collectList_singleton] at hp; exact hc.2.1 p hp)
        (by intro m hm'; simp at hm'; subst hm'; exact hc.2.2)
      have hmono : insMono st.ins st2.ins := insMono_trans hc.1 htl.1
      by_cases hl : ors.length = 1
      · rw [if_pos hl] at h
        simp at h
        obtain ⟨hv, hst⟩ := h
        subst hv
        rw [← hst]
        refine ⟨hmono, ?_, hc.2.2⟩
        intro p hp
        exact htl.1 p.1 p.2 (hc.2.1 p hp)
      · rw [if_neg hl] at h
        simp at h
        obtain ⟨hv, hst⟩ := h
        subst hv
        rw [← hst]
        refine ⟨hmono, ?_, ?_⟩
        · intro p hp
          have hpe : collectPairs (JVal.obj [("$or", JVal.arr ors)]) = collectList ors := by
            simp [collectPairs, collectEntries]
          rw [hpe] at hp
          exact hcov2 p hp
        · intro e he
          simp only [entriesOf] at he
          simp at he
          subst he
          simp [entryOK]
    exact ⟨hTerm, hRest, hConj, hConjT, hDisj, hDisjT, hFields, hList⟩

/-- Claim C7: tracker completeness.  Whenever the grammar engine returns a
predicate tree together with its insight tracker, every field name that the
tree constrains with a supported operator tag (a bare literal counting as the
implicit equality tag, walking through all logical connectives) has that tag
recorded in the tracker for that field, because `captureInsights` is invoked
at every recognition point. -/
theorem claim_C7 (s : String) (filter : JVal) (ins : Insights)
    (h : parseQuery s = .ok (filter, ins)) :
    ∀ p ∈ collectPairs filter, insHas ins p.1 p.2 = true := by
  unfold parseQuery parseQueryRx at h
  rcases hl : lexChars s.data with e | ts <;> rw [hl] at h <;> dsimp only at h
  · simp at h
  unfold parseTokensRx parseExpression at h
  rcases hp : parseDisjunction (enoughFuel ts.length) ⟨ts, 0, [], fun _ _ => true⟩
      with e | ⟨v, st⟩ <;>
    rw [hp] at h <;> dsimp only at h
  · simp at h
  rcases he : expectEof st with e | u <;> rw [he] at h <;> dsimp only at h
  · simp at h
  simp only [Except.ok.injEq, Prod.mk.injEq] at h
  obtain ⟨hv, hins⟩ := h
  subst hv
  have hd := (parser_ins_inv (enoughFuel ts.length)).2.2.2.2.1 _ _ _ hp
  intro p hp2
  rw [← hins]
  exact hd.2.1 p hp2

/-- Witness for C7 at the input `age>=18&name=bob^price<100`: the parse
succeeds, the pair (name, eq-tag) appears in the tree, and the tracker
contains it. -/
theorem claim_C7_witness :
    insHas [("age", ["$gte"]), ("name", ["$eq"]), ("price", ["$lt"])] "name" "$eq" = true :=
  claim_C7 "age>=18&name=bob^price<100"
    (JVal.obj [("$or", JVal.arr
      [JVal.obj [("age", JVal.obj [("$gte", JVal.num 18)]),
                 ("name", JVal.str "bob")],
       JVal.obj [("price", JVal.obj [("$lt", JVal.num 100)])]])])
    [("age", ["$gte"]), ("name", ["$eq"]), ("price", ["$lt"])]
    (by rfl) ("name", "$eq") (by decide)

/-! ## Lexer invariants: every rule match is nonempty, every token position
and every lexical-error offset lies inside the input. -/

theorem litLen_pos (lit s : List Char) (n : Nat) (hne : lit ≠ [])
    (h : litLen lit s = some n) : 1 ≤ n := by
  unfold litLen at h
  split at h
  · simp at h
    rcases lit with _ | ⟨c, cs⟩
    · exact absurd rfl hne
    · simp [← h]
  · simp at h

theorem findSplitDown_pos (s : List Char) (j k : Nat)
    (h : findSplitDown s j = some k) : 1 ≤ k := by
  induction j with
  | zero => simp [findSplitDown] at h
  | succ j ih =>
    rw [findSplitDown] at h
    rcases hg : s.get? (j + 1) with _ | c <;> rw [hg] at h <;> dsimp only at h
    · exact ih h
    · by_cases hc : wsOrPlus c = true
      · rw [if_pos hc] at h
        simp at h
        omega
      · rw [if_neg hc] at h
        exact ih h

theorem iterOnce_pos (s : List Char) (n : Nat) (h : iterOnce s = some n) : 1 ≤ n := by
  unfold iterOnce at h
  by_cases ha : runLen class1 s = 0
  · rw [if_pos ha] at h
    simp at h
  · rw [if_neg ha] at h
    dsimp only at h
    rcases hs : (match s.get? (runLen class1 s) with
        | some c => if wsOrPlus c then some (runLen class1 s)
                    else findSplitDown s (runLen class1 s - 1)
        | none => findSplitDown s (runLen class1 s - 1)) with _ | k <;> rw [hs] at h
    · simp at h
    · simp at h
      have hk : 1 ≤ k := by
        rcases hg : s.get? (runLen class1 s) with _ | c <;> rw [hg] at hs <;> dsimp only at hs
        · exact findSplitDown_pos _ _ _ hs
        · by_cases hc : wsOrPlus c = true
          · rw [if_pos hc] at hs
            simp at hs
            omega
          · rw [if_neg hc] at hs
            exact findSplitDown_pos _ _ _ hs
      omega

theorem rule9Loop_pos (fuel : Nat) (s : List Char) (n : Nat)
    (h : rule9Loop fuel s = some n) : 1 ≤ n := by
  cases fuel with
  | zero => simp [rule9Loop] at h
  | succ fuel =>
    rw [rule9Loop] at h
    rcases hi : iterOnce s with _ | m <;> rw [hi] at h <;> dsimp only at h
    · simp at h
    · have hm := iterOnce_pos s m hi
      rcases hl : rule9Loop fuel (s.drop m) with _ | k <;> rw [hl] at h <;>
        dsimp only at h <;> simp at h <;> omega

theorem rules_pos : ∀ mt ∈ rules, ∀ s n, mt.1 s = some n → 1 ≤ n := by
  intro mt hmt s n h
  simp only [rules, List.mem_cons, List.not_mem_nil, or_false] at hmt
  rcases hmt with rfl|rfl|rfl|rfl|rfl|rfl|rfl|rfl|rfl|rfl|rfl|rfl|rfl|rfl|rfl|rfl|rfl|rfl|rfl|rfl|rfl|rfl|rfl|rfl <;>
    dsimp only at h
  · -- regex literal
    rcases s with _ | ⟨c, cs⟩
    · simp [matchRegexLit] at h
    · dsimp only [matchRegexLit] at h
      split at h
      · rcases he : escTail '/' cs with _ | m <;> rw [he] at h <;> simp at h
        omega
      · simp at h
  · -- string literal
    rcases s with _ | ⟨c, cs⟩
    · simp [matchStrLit] at h
    · dsimp only [matchStrLit] at h
      split at h
      · rcases he : escTail quoteC cs with _ | m <;> rw [he] at h <;> simp at h
        omega
      · simp at h
  · -- number
    have hcore : ∀ t m, numCore t = some m → 1 ≤ m := by
      intro t m hm
      rcases t with _ | ⟨c, cs⟩
      · simp [numCore] at hm
      · dsimp only [numCore] at hm
        split at hm
        · rcases cs with _ | ⟨d, ds⟩ <;> dsimp only at hm
          · simp at hm; omega
          · split at hm
            · simp at hm
            · simp at hm; omega
        · split at hm
          · simp at hm; omega
          · simp at hm
    rcases s with _ | ⟨c, cs⟩
    · simp [matchNumber, numCore] at h
    · by_cases hc : c = '-'
      · subst hc
        have he : matchNumber ('-' :: cs) = (numCore cs).map (fun x => x + 1) := rfl
        rw [he] at h
        rcases hn : numCore cs with _ | m <;> rw [hn] at h <;> simp at h
        omega
      · have : matchNumber (c :: cs) = numCore (c :: cs) := by
          rcases s' : c :: cs with _ | ⟨c', cs'⟩
          · simp at s'
          · cases s'
            unfold matchNumber
            split
            · rename_i heq
              exact absurd (List.cons.inj heq).1 hc
            · rfl
        rw [this] at h
        exact hcore _ _ h
  · -- boolean
    unfold matchBoolean at h
    rcases h1 : litLen ['t', 'r', 'u', 'e'] s with _ | m <;> rw [h1] at h
    · exact litLen_pos _ _ _ (by simp) h
    · simp at h
      subst h
      exact litLen_pos _ _ _ (by simp) h1
  · exact litLen_pos _ _ _ (by simp) h
  · exact litLen_pos _ _ _ (by simp) h
  · exact litLen_pos _ _ _ (by simp) h
  · exact litLen_pos _ _ _ (by simp) h
  · exact litLen_pos _ _ _ (by simp) h
  · exact litLen_pos _ _ _ (by simp) h
  · exact litLen_pos _ _ _ (by simp) h
  · exact litLen_pos _ _ _ (by simp) h
  · exact litLen_pos _ _ _ (by simp) h
  · exact litLen_pos _ _ _ (by simp) h
  · exact litLen_pos _ _ _ (by simp) h
  · exact litLen_pos _ _ _ (by simp) h
  · exact litLen_pos _ _ _ (by simp) h
  · exact litLen_pos _ _ _ (by simp) h
  · exact litLen_pos _ _ _ (by simp) h
  · exact litLen_pos _ _ _ (by simp) h
  · -- keyword
    unfold matchKeyword at h
    split at h <;> [skip; skip; simp at h] <;> dsimp only at h <;> split at h <;>
      simp at h <;> omega
  · -- whitespace-embedding string
    exact rule9Loop_pos _ _ _ h
  · -- word
    unfold matchWord at h
    dsimp only at h
    split at h <;> simp at h
    omega
  · -- ws rule
    unfold matchWsRule at h
    dsimp only at h
    split at h <;> simp at h
    omega

theorem firstMatch_pos (rs : List ((List Char → Option Nat) × TokenType))
    (hpos : ∀ mt ∈ rs, ∀ s n, mt.1 s = some n → 1 ≤ n)
    (s : List Char) (ty : TokenType) (n : Nat)
    (h : firstMatch rs s = some (ty, n)) : 1 ≤ n := by
  induction rs with
  | nil => simp [firstMatch] at h
  | cons mt rest ih =>
    rw [firstMatch] at h
    rcases mt with ⟨m, t⟩
    dsimp only at h
    rcases hm : m s with _ | k <;> rw [hm] at h <;> dsimp only at h
    · exact ih (fun x hx => hpos x (List.mem_cons_of_mem _ hx)) h
    · simp at h
      rw [← h.2]
      exact hpos ⟨m, t⟩ (by simp) s k hm

/-- Main lexer invariant: a lexical error's offset is inside the input, and
every emitted token's position is inside the input, provided the fuel
exceeds the remaining length (each rule consumes at least one character). -/
theorem lexGo_inv : ∀ fuel cs idx,
    (∀ e, lexGo fuel cs idx = .error e →
      cs.length < fuel → ∃ c p, e = .lexErr c p ∧ p < idx + cs.length) ∧
    (∀ ts, lexGo fuel cs idx = .ok ts → ∀ t ∈ ts, t.pos < idx + cs.length) := by
  intro fuel
  induction fuel with
  | zero =>
    intro cs idx
    constructor
    · intro e h hlt
      omega
    · intro ts h
      simp [lexGo] at h
  | succ fuel ih =>
    intro cs idx
    rcases cs with _ | ⟨c, cs⟩
    · constructor
      · intro e h hlt
        simp [lexGo] at h
      · intro ts h
        simp [lexGo] at h
        subst h
        simp
    · constructor
      · intro e h hlt
        rw [lexGo] at h
        rcases hf : firstMatch rules (c :: cs) with _ | ⟨ty, n⟩ <;> rw [hf] at h <;>
          dsimp only at h
        · simp at h
          subst h
          exact ⟨c, idx, rfl, by simp⟩
        · have hn := firstMatch_pos rules rules_pos _ _ _ hf
          rcases hrec : lexGo fuel ((c :: cs).drop n) (idx + n) with e' | rest <;>
            rw [hrec] at h <;> dsimp only at h
          · simp at h
            subst h
            rcases hd : (c :: cs).drop n with _ | ⟨d, ds⟩
            · rw [hd] at hrec
              cases fuel with
              | zero => simp at hlt
              | succ f => simp [lexGo] at hrec
            · have hlen : n < (c :: cs).length := by
                by_contra hge
                push_neg at hge
                rw [List.drop_eq_nil_of_le hge] at hd
                simp at hd
              obtain ⟨c', p, he, hp⟩ :=
                (ih ((c :: cs).drop n) (idx + n)).1 e' hrec
                  (by simp at hlt hlen ⊢; omega)
              refine ⟨c', p, he, ?_⟩
              simp at hp hlen ⊢
              omega
          · split at h <;> simp at h
      · intro ts h
        rw [lexGo] at h
        rcases hf : firstMatch rules (c :: cs) with _ | ⟨ty, n⟩ <;> rw [hf] at h <;>
          dsimp only at h
        · simp at h
        · have hn := firstMatch_pos rules rules_pos _ _ _ hf
          rcases hrec : lexGo fuel ((c :: cs).drop n) (idx + n) with e' | rest <;>
            rw [hrec] at h <;> dsimp only at h
          · simp at h
          · have hrest := (ih ((c :: cs).drop n) (idx + n)).2 rest hrec
            have htail : ∀ t ∈ rest, t.pos < idx + (c :: cs).length := by
              intro t ht
              rcases Nat.lt_or_ge n (c :: cs).length with hlen | hge
              · have hb := hrest t ht
                simp at hb hlen ⊢
                omega
              · rw [List.drop_eq_nil_of_le hge] at hrec
                cases fuel with
                | zero => simp [lexGo] at hrec
                | succ f =>
                  simp [lexGo] at hrec
                  subst hrec
                  simp at ht
            by_cases hty : ty = .ws
            · rw [if_pos hty] at h
              simp at h
              subst h
              exact htail
            · rw [if_neg hty] at h
              simp at h
              subst h
              intro t ht
              rcases List.mem_cons.1 ht with rfl | ht
              · simp
              · exact htail t ht

/-- A failing lex carries an in-bounds character offset. -/
theorem lexChars_err (s : List Char) (e : PErr) (h : lexChars s = .error e) :
    ∃ c p, e = .lexErr c p ∧ p < s.length := by
  have hh := (lexGo_inv (s.length + 1) s 0).1 e h (by omega)
  simpa using hh

/-- A successful lex yields only in-bounds token positions. -/
theorem lexChars_pos (s : List Char) (ts : List Token) (h : lexChars s = .ok ts) :
    ∀ t ∈ ts, t.pos < s.length := by
  have hh := (lexGo_inv (s.length + 1) s 0).2 ts h
  simpa using hh

/-! ## Parser error locality: every parser error either is the positionless
`TypeError` of an out-of-bounds token read, or carries the position of one
of the input tokens; and the fuel budget `enoughFuel` is never exhausted. -/

theorem consumeTy_err {ty : TokenType} {st : PState} {e : PErr}
    (h : consumeTy ty st = .error e) :
    e = .typeErr ∨ ∃ tok, st.t.get? st.i = some tok ∧ e = .expected ty tok.value tok.pos := by
  unfold consumeTy consumeAny at h
  rcases hg : st.t.get? st.i with _ | tk <;> rw [hg] at h
  · simp at h
    exact Or.inl h.symm
  · by_cases hty : tk.type = ty
    · simp [hty] at h
    · simp only [hty, if_neg, if_false] at h
      simp at h
      exact Or.inr ⟨tk, rfl, h.symm⟩

theorem parseLiteral_err {st : PState} {e : PErr} (h : parseLiteral st = .error e) :
    e = .typeErr ∨ e = .regexErr ∨
      ∃ tok, st.t.get? st.i = some tok ∧ e = .badLiteral tok.value tok.pos := by
  unfold parseLiteral consumeAny at h
  rcases hg : st.t.get? st.i with _ | tok <;> rw [hg] at h
  · simp at h
    exact Or.inl h.symm
  · rcases tok with ⟨ty, tv, tp⟩
    cases ty
    case regex =>
      dsimp only at h
      split at h <;> simp at h
      exact Or.inr (Or.inl h.symm)
    all_goals
      simp at h <;>
        exact Or.inr (Or.inr ⟨⟨_, tv, tp⟩, rfl, h.symm⟩)

theorem foldl_capIns_ti (fields : List String) (op : String) (st : PState) :
    (fields.foldl (fun s f => capIns s f op) st).t = st.t ∧
    (fields.foldl (fun s f => capIns s f op) st).i = st.i := by
  induction fields generalizing st with
  | nil => exact ⟨rfl, rfl⟩
  | cons f rest ih => exact ih (capIns st f op)

theorem get?_lt {l : List Token} {n : Nat} {a : Token} (h : l.get? n = some a) :
    n < l.length := by
  rcases List.get?_eq_some.1 h with ⟨hl, _⟩
  exact hl

/-- One induction over fuel establishing, for every parser function: on
success the token list is unchanged, the cursor advances and stays in
bounds; on failure the error is one of the two positionless errors (the
`TypeError` from an absent token, or the `SyntaxError` the `RegExp`
constructor throws) or carries the position of an input token, and fuel is
only ever exhausted below an explicit budget linear in the remaining
tokens. -/
theorem parser_err_inv : ∀ fuel : Nat,
    (∀ st res, parseTerm fuel st = res →
      (∀ v st', res = .ok (v, st') → st'.t = st.t ∧ st.i < st'.i ∧ st'.i ≤ st.t.length) ∧
      (∀ e, res = .error e → (errWF st.t e ∨ e = .outOfFuel) ∧
        (e = .outOfFuel → fuel < 3 * (st.t.length - st.i) + 3))) ∧
    (∀ st res, parseTermRest fuel st = res →
      (∀ v st', res = .ok (v, st') → st'.t = st.t ∧ st.i < st'.i ∧ st'.i ≤ st.t.length) ∧
      (∀ e, res = .error e → (errWF st.t e ∨ e = .outOfFuel) ∧
        (e = .outOfFuel → fuel < (st.t.length - st.i) + 2))) ∧
    (∀ st res, parseConjunction fuel st = res →
      (∀ v st', res = .ok (v, st') → st'.t = st.t ∧ st.i < st'.i ∧ st'.i ≤ st.t.length) ∧
      (∀ e, res = .error e → (errWF st.t e ∨ e = .outOfFuel) ∧
        (e = .outOfFuel → fuel < 3 * (st.t.length - st.i) + 4))) ∧
    (∀ st acc res, parseConjTail fuel st acc = res →
      (∀ ns st', res = .ok (ns, st') → st'.t = st.t ∧ st.i ≤ st'.i ∧
        (st.i ≤ st.t.length → st'.i ≤ st.t.length)) ∧
      (∀ e, res = .error e → (errWF st.t e ∨ e = .outOfFuel) ∧
        (e = .outOfFuel → fuel < 3 * (st.t.length - st.i) + 3))) ∧
    (∀ st res, parseDisjunction fuel st = res →
      (∀ v st', res = .ok (v, st') → st'.t = st.t ∧ st.i < st'.i ∧ st'.i ≤ st.t.length) ∧
      (∀ e, res = .error e → (errWF st.t e ∨ e = .outOfFuel) ∧
        (e = .outOfFuel → fuel < 3 * (st.t.length - st.i) + 5))) ∧
    (∀ st acc res, parseDisjTail fuel st acc = res →
      (∀ ns st', res = .ok (ns, st') → st'.t = st.t ∧ st.i ≤ st'.i ∧
        (st.i ≤ st.t.length → st'.i ≤ st.t.length)) ∧
      (∀ e, res = .error e → (errWF st.t e ∨ e = .outOfFuel) ∧
        (e = .outOfFuel → fuel < 3 * (st.t.length - st.i) + 4))) ∧
    (∀ st acc res, parseFieldsTail fuel st acc = res →
      (∀ fs st', res = .ok (fs, st') → st'.t = st.t ∧ st.i ≤ st'.i ∧
        (st.i ≤ st.t.length → st'.i ≤ st.t.length)) ∧
      (∀ e, res = .error e → (errWF st.t e ∨ e = .outOfFuel) ∧
        (e = .outOfFuel → fuel < (st.t.length - st.i) + 1))) ∧
    (∀ st acc res, parseListTail fuel st acc = res →
      (∀ vs st', res = .ok (vs, st') → st'.t = st.t ∧ st.i ≤ st'.i ∧
        (st.i ≤ st.t.length → st'.i ≤ st.t.length)) ∧
      (∀ e, res = .error e → (errWF st.t e ∨ e = .outOfFuel) ∧
        (e = .outOfFuel → fuel < (st.t.length - st.i) + 1))) := by
  intro fuel
  induction fuel with
  | zero =>
    refine ⟨?_, ?_, ?_, ?_, ?_, ?_, ?_, ?_⟩ <;>
    · intros
      rename_i h
      simp only [parseTerm, parseTermRest, parseConjunction, parseConjTail,
        parseDisjunction, parseDisjTail, parseFieldsTail, parseListTail] at h
      subst h
      constructor
      · intro _ _ hok
        simp at hok
      · intro e he
        obtain rfl := Except.error.inj he
        exact ⟨Or.inr rfl, fun _ => by omega⟩
  | succ fuel ih =>
    obtain ⟨ihTerm, ihRest, ihConj, ihConjT, ihDisj, ihDisjT, ihF, ihL⟩ := ih
    have hFields : ∀ st acc res, parseFieldsTail (fuel + 1) st acc = res →
        (∀ fs st', res = .ok (fs, st') → st'.t = st.t ∧ st.i ≤ st'.i ∧
          (st.i ≤ st.t.length → st'.i ≤ st.t.length)) ∧
        (∀ e, res = .error e → (errWF st.t e ∨ e = .outOfFuel) ∧
          (e = .outOfFuel → fuel + 1 < (st.t.length - st.i) + 1)) := by
      intro st acc res h
      simp only [parseFieldsTail] at h
      rcases hm : matchTy .comma st with ⟨b, st0⟩
      rw [hm] at h
      cases b <;> dsimp only at h
      · obtain rfl := (matchTy_false hm).symm
        subst h
        constructor
        · intro fs st' hok
          simp at hok
          obtain ⟨rfl, rfl⟩ := hok
          exact ⟨rfl, le_refl _, fun hh => hh⟩
        · intro e he
          simp at he
      · obtain ⟨hb, tok, hg, hty⟩ := matchTy_true hm
        have hib : st.i < st.t.length := get?_lt hg
        rcases hc : consumeTy .word st0 with e0 | ⟨f, st1⟩ <;> rw [hc] at h <;>
          dsimp only at h
        · subst h
          constructor
          · intro fs st' hok
            simp at hok
          · intro e he
            obtain rfl := Except.error.inj he
            refine ⟨?_, ?_⟩
            · rcases consumeTy_err hc with rfl | ⟨tok2, hg2, rfl⟩
              · exact Or.inl (Or.inl rfl)
              · refine Or.inl (Or.inr (Or.inr ⟨tok2, ?_, rfl⟩))
                rw [hb] at hg2
                exact List.get?_mem hg2
            · intro hoof
              rcases consumeTy_err hc with rfl | ⟨tok2, hg2, rfl⟩ <;> simp at hoof
        · obtain ⟨hs1, hg1, hty1⟩ := consumeTy_ok hc
          have hi1 : st1.i = st.i + 2 := by rw [hs1, hb]; rfl
          have ht1 : st1.t = st.t := by rw [hs1, hb]; rfl
          have hib1 : st.i + 1 < st.t.length := by
            have := get?_lt hg1
            rw [hb] at this
            simpa using this
          have hr := ihF st1 (acc ++ [f.value]) res h
          constructor
          · intro fs st' hok
            obtain ⟨hT, hI, hB⟩ := hr.1 fs st' hok
            rw [hi1] at hI
            rw [ht1, hi1] at hB
            refine ⟨hT.trans ht1, by omega, fun _ => ?_⟩
            have := hB (by omega)
            omega
          · intro e he
            obtain ⟨hwf, hoof⟩ := hr.2 e he
            refine ⟨?_, ?_⟩
            · rw [ht1] at hwf
              exact hwf
            · intro h2
              have h3 := hoof h2
              rw [ht1, hi1] at h3
              omega
    have hList : ∀ st acc res, parseListTail (fuel + 1) st acc = res →
        (∀ vs st', res = .ok (vs, st') → st'.t = st.t ∧ st.i ≤ st'.i ∧
          (st.i ≤ st.t.length → st'.i ≤ st.t.length)) ∧
        (∀ e, res = .error e → (errWF st.t e ∨ e = .outOfFuel) ∧
          (e = .outOfFuel → fuel + 1 < (st.t.length - st.i) + 1)) := by
      intro st acc res h
      simp only [parseListTail] at h
      rcases hm : matchTy .comma st with ⟨b, st0⟩
      rw [hm] at h
      cases b <;> dsimp only at h
      · obtain rfl := (matchTy_false hm).symm
        subst h
        constructor
        · intro vs st' hok
          simp at hok
          obtain ⟨rfl, rfl⟩ := hok
          exact ⟨rfl, le_refl _, fun hh => hh⟩
        · intro e he
          simp at he
      · obtain ⟨hb, tok, hg, hty⟩ := matchTy_true hm
        have hib : st.i < st.t.length := get?_lt hg
        rcases hc : parseLiteral st0 with e0 | ⟨v0, st1⟩ <;> rw [hc] at h <;>
          dsimp only at h
        · subst h
          constructor
          · intro vs st' hok
            simp at hok
          · intro e he
            obtain rfl := Except.error.inj he
            refine ⟨?_, ?_⟩
            · rcases parseLiteral_err hc with rfl | rfl | ⟨tok2, hg2, rfl⟩
              · exact Or.inl (Or.inl rfl)
              · exact Or.inl (Or.inr (Or.inl rfl))
              · refine Or.inl (Or.inr (Or.inr ⟨tok2, ?_, rfl⟩))
                rw [hb] at hg2
                exact List.get?_mem hg2
            · intro hoof
              rcases parseLiteral_err hc with rfl | rfl | ⟨tok2, hg2, rfl⟩ <;> simp at hoof
        · obtain ⟨hs1, hprim, tok1, hg1, hty1⟩ := parseLiteral_ok hc
          have hi1 : st1.i = st.i + 2 := by rw [hs1, hb]; rfl
          have ht1 : st1.t = st.t := by rw [hs1, hb]; rfl
          have hib1 : st.i + 1 < st.t.length := by
            have := get?_lt hg1
            rw [hb] at this
            simpa using this
          have hr := ihL st1 (acc ++ [v0]) res h
          constructor
          · intro vs st' hok
            obtain ⟨hT, hI, hB⟩ := hr.1 vs st' hok
            rw [hi1] at hI
            rw [ht1, hi1] at hB
            refine ⟨hT.trans ht1, by omega, fun _ => ?_⟩
            have := hB (by omega)
            omega
          · intro e he
            obtain ⟨hwf, hoof⟩ := hr.2 e he
            refine ⟨?_, ?_⟩
            · rw [ht1] at hwf
              exact hwf
            · intro h2
              have h3 := hoof h2
              rw [ht1, hi1] at h3
              omega
    have hConjT : ∀ st acc res, parseConjTail (fuel + 1) st acc = res →
        (∀ ns st', res = .ok (ns, st') → st'.t = st.t ∧ st.i ≤ st'.i ∧
          (st.i ≤ st.t.length → st'.i ≤ st.t.length)) ∧
        (∀ e, res = .error e → (errWF st.t e ∨ e = .outOfFuel) ∧
          (e = .outOfFuel → fuel + 1 < 3 * (st.t.length - st.i) + 3)) := by
      intro st acc res h
      simp only [parseConjTail] at h
      rcases hm : matchTy .and st with ⟨b, st0⟩
      rw [hm] at h
      cases b <;> dsimp only at h
      · obtain rfl := (matchTy_false hm).symm
        subst h
        constructor
        · intro ns st' hok
          simp at hok
          obtain ⟨rfl, rfl⟩ := hok
          exact ⟨rfl, le_refl _, fun hh => hh⟩
        · intro e he
          simp at he
      · obtain ⟨hb, tok, hg, hty⟩ := matchTy_true hm
        have hib : st.i < st.t.length := get?_lt hg
        have ht0 : st0.t = st.t := by rw [hb]; rfl
        have hi0 : st0.i = st.i + 1 := by rw [hb]; rfl
        rcases h1 : parseTerm fuel st0 with e1 | ⟨n, st1⟩ <;> rw [h1] at h <;>
          dsimp only at h
        · subst h
          constructor
          · intro ns st' hok
            simp at hok
          · intro e he
            obtain rfl := Except.error.inj he
            obtain ⟨hwf, hoof⟩ := (ihTerm st0 _ h1).2 e1 rfl
            rw [ht0] at hwf
            refine ⟨hwf, fun h2 => ?_⟩
            have h3 := hoof h2
            rw [ht0, hi0] at h3
            omega
        · obtain ⟨hT1, hI1, hB1⟩ := (ihTerm st0 _ h1).1 n st1 rfl
          rw [ht0] at hT1 hB1
          rw [hi0] at hI1
          have hr := ihConjT st1 (acc ++ [n]) res h
          constructor
          · intro ns st' hok
            obtain ⟨hT, hI, hB⟩ := hr.1 ns st' hok
            rw [hT1] at hT hB
            refine ⟨hT, by omega, fun _ => hB (by omega)⟩
          · intro e he
            obtain ⟨hwf, hoof⟩ := hr.2 e he
            rw [hT1] at hwf
            refine ⟨hwf, fun h2 => ?_⟩
            have h3 := hoof h2
            rw [hT1] at h3
            omega
    have hDisjT : ∀ st acc res, parseDisjTail (fuel + 1) st acc = res →
        (∀ ns st', res = .ok (ns, st') → st'.t = st.t ∧ st.i ≤ st'.i ∧
          (st.i ≤ st.t.length → st'.i ≤ st.t.length)) ∧
        (∀ e, res = .error e → (errWF st.t e ∨ e = .outOfFuel) ∧
          (e = .outOfFuel → fuel + 1 < 3 * (st.t.length - st.i) + 4)) := by
      intro st acc res h
      simp only [parseDisjTail] at h
      rcases hm : matchTy .or st with ⟨b, st0⟩
      rw [hm] at h
      cases b <;> dsimp only at h
      · obtain rfl := (matchTy_false hm).symm
        subst h
        constructor
        · intro ns st' hok
          simp at hok
          obtain ⟨rfl, rfl⟩ := hok
          exact ⟨rfl, le_refl _, fun hh => hh⟩
        · intro e he
          simp at he
      · obtain ⟨hb, tok, hg, hty⟩ := matchTy_true hm
        have hib : st.i < st.t.length := get?_lt hg
        have ht0 : st0.t = st.t := by rw [hb]; rfl
        have hi0 : st0.i = st.i + 1 := by rw [hb]; rfl
        rcases h1 : parseConjunction fuel st0 with e1 | ⟨n, st1⟩ <;> rw [h1] at h <;>
          dsimp only at h
        · subst h
          constructor
          · intro ns st' hok
            simp at hok
          · intro e he
            obtain rfl := Except.error.inj he
            obtain ⟨hwf, hoof⟩ := (ihConj st0 _ h1).2 e1 rfl
            rw [ht0] at hwf
            refine ⟨hwf, fun h2 => ?_⟩
            have h3 := hoof h2
            rw [ht0, hi0] at h3
            omega
        · obtain ⟨hT1, hI1, hB1⟩ := (ihConj st0 _ h1).1 n st1 rfl
          rw [ht0] at hT1 hB1
          rw [hi0] at hI1
          have hr := ihDisjT st1 (acc ++ [n]) res h
          constructor
          · intro ns st' hok
            obtain ⟨hT, hI, hB⟩ := hr.1 ns st' hok
            rw [hT1] at hT hB
            refine ⟨hT, by omega, fun _ => hB (by omega)⟩
          · intro e he
            obtain ⟨hwf, hoof⟩ := hr.2 e he
            rw [hT1] at hwf
            refine ⟨hwf, fun h2 => ?_⟩
            have h3 := hoof h2
            rw [hT1] at h3
            omega
    have hConj : ∀ st res, parseConjunction (fuel + 1) st = res →
        (∀ v st', res = .ok (v, st') → st'.t = st.t ∧ st.i < st'.i ∧ st'.i ≤ st.t.length) ∧
        (∀ e, res = .error e → (errWF st.t e ∨ e = .outOfFuel) ∧
          (e = .outOfFuel → fuel + 1 < 3 * (st.t.length - st.i) + 4)) := by
      intro st res h
      simp only [parseConjunction] at h
      rcases h1 : parseTerm fuel st with e1 | ⟨n, st1⟩ <;> rw [h1] at h <;> dsimp only at h
      · subst h
        constructor
        · intro v st' hok
          simp at hok
        · intro e he
          obtain rfl := Except.error.inj he
          obtain ⟨hwf, hoof⟩ := (ihTerm st _ h1).2 e1 rfl
          refine ⟨hwf, fun h2 => ?_⟩
          have h3 := hoof h2
          omega
      · obtain ⟨hT1, hI1, hB1⟩ := (ihTerm st _ h1).1 n st1 rfl
        rcases h2 : parseConjTail fuel st1 [n] with e2 | ⟨nodes, st2⟩ <;> rw [h2] at h <;>
          dsimp only at h
        · subst h
          constructor
          · intro v st' hok
            simp at hok
          · intro e he
            obtain rfl := Except.error.inj he
            obtain ⟨hwf, hoof⟩ := (ihConjT st1 _ _ h2).2 e2 rfl
            rw [hT1] at hwf
            refine ⟨hwf, fun hx => ?_⟩
            have h3 := hoof hx
            rw [hT1] at h3
            omega
        · obtain ⟨hT2, hI2, hB2⟩ := (ihConjT st1 _ _ h2).1 nodes st2 rfl
          rw [hT1] at hT2 hB2
          have hres : ∃ w, res = Except.ok (w, st2) := by
            rcases nodes with _ | ⟨x, _ | ⟨y, rest⟩⟩ <;> dsimp only at h
            · rcases hm2 : mergeConjunction [] with _ | m <;> rw [hm2] at h <;>
                dsimp only at h <;> exact ⟨_, h.symm⟩
            · exact ⟨_, h.symm⟩
            · rcases hm2 : mergeConjunction (x :: y :: rest) with _ | m <;> rw [hm2] at h <;>
                dsimp only at h <;> exact ⟨_, h.symm⟩
          obtain ⟨w, rfl⟩ := hres
          constructor
          · intro v st' hok
            simp at hok
            obtain ⟨h3, rfl⟩ := hok
            exact ⟨hT2, by omega, hB2 (by omega)⟩
          · intro e he
            simp at he
    have hDisj : ∀ st res, parseDisjunction (fuel + 1) st = res →
        (∀ v st', res = .ok (v, st') → st'.t = st.t ∧ st.i < st'.i ∧ st'.i ≤ st.t.length) ∧
        (∀ e, res = .error e → (errWF st.t e ∨ e = .outOfFuel) ∧
          (e = .outOfFuel → fuel + 1 < 3 * (st.t.length - st.i) + 5)) := by
      intro st res h
      simp only [parseDisjunction] at h
      rcases h1 : parseConjunction fuel st with e1 | ⟨n, st1⟩ <;> rw [h1] at h <;>
        dsimp only at h
      · subst h
        constructor
        · intro v st' hok
          simp at hok
        · intro e he
          obtain rfl := Except.error.inj he
          obtain ⟨hwf, hoof⟩ := (ihConj st _ h1).2 e1 rfl
          refine ⟨hwf, fun h2 => ?_⟩
          have h3 := hoof h2
          omega
      · obtain ⟨hT1, hI1, hB1⟩ := (ihConj st _ h1).1 n st1 rfl
        rcases h2 : parseDisjTail fuel st1 [n] with e2 | ⟨ors, st2⟩ <;> rw [h2] at h <;>
          dsimp only at h
        · subst h
          constructor
          · intro v st' hok
            simp at hok
          · intro e he
            obtain rfl := Except.error.inj he
            obtain ⟨hwf, hoof⟩ := (ihDisjT st1 _ _ h2).2 e2 rfl
            rw [hT1] at hwf
            refine ⟨hwf, fun hx => ?_⟩
            have h3 := hoof hx
            rw [hT1] at h3
            omega
        · obtain ⟨hT2, hI2, hB2⟩ := (ihDisjT st1 _ _ h2).1 ors st2 rfl
          rw [hT1] at hT2 hB2
          have hres : ∃ w, res = Except.ok (w, st2) := by
            split at h <;> exact ⟨_, h.symm⟩
          obtain ⟨w, rfl⟩ := hres
          constructor
          · intro v st' hok
            simp at hok
            obtain ⟨h3, rfl⟩ := hok
            exact ⟨hT2, by omega, hB2 (by omega)⟩
          · intro e he
            simp at he
    have hTerm : ∀ st res, parseTerm (fuel + 1) st = res →
        (∀ v st', res = .ok (v, st') → st'.t = st.t ∧ st.i < st'.i ∧ st'.i ≤ st.t.length) ∧
        (∀ e, res = .error e → (errWF st.t e ∨ e = .outOfFuel) ∧
          (e = .outOfFuel → fuel + 1 < 3 * (st.t.length - st.i) + 3)) := by
      intro st res h
      simp only [parseTerm] at h
      rcases hm : matchTy .lparen st with ⟨b, st0⟩
      rw [hm] at h
      cases b <;> dsimp only at h
      · obtain rfl := (matchTy_false hm).symm
        rcases hpk : peekT st with _ | tok0 <;> rw [hpk] at h <;> dsimp only at h
        · subst h
          constructor
          · intro v st' hok
            simp at hok
          · intro e he
            obtain rfl := Except.error.inj he
            exact ⟨Or.inl (Or.inl rfl), fun hoof => by simp at hoof⟩
        · by_cases hns : tok0.type = .number ∨ tok0.type = .string
          · rw [if_pos hns] at h
            rcases h1 : parseLiteral st with e1 | ⟨lhsLit, st1⟩ <;> rw [h1] at h <;>
              dsimp only at h
            · subst h
              constructor
              · intro v st' hok
                simp at hok
              · intro e he
                obtain rfl := Except.error.inj he
                refine ⟨?_, ?_⟩
                · rcases parseLiteral_err h1 with rfl | rfl | ⟨tok2, hg2, rfl⟩
                  · exact Or.inl (Or.inl rfl)
                  · exact Or.inl (Or.inr (Or.inl rfl))
                  · exact Or.inl (Or.inr (Or.inr ⟨tok2, List.get?_mem hg2, rfl⟩))
                · intro hoof
                  rcases parseLiteral_err h1 with rfl | rfl | ⟨tok2, hg2, rfl⟩ <;> simp at hoof
            · obtain ⟨hs1, hprim, tokL, hgL, _⟩ := parseLiteral_ok h1
              have ht1 : st1.t = st.t := by rw [hs1]; rfl
              have hi1 : st1.i = st.i + 1 := by rw [hs1]; rfl
              have hibL : st.i < st.t.length := get?_lt hgL
              rcases h2 : consumeAny st1 with ⟨fOp?, st2⟩
              rw [h2] at h
              dsimp only at h
              unfold consumeAny at h2
              injection h2 with hf2 hs2
              have ht2 : st2.t = st.t := by rw [← hs2]; exact ht1
              have hi2 : st2.i = st.i + 2 := by
                rw [← hs2]
                show st1.i + 1 = st.i + 2
                omega
              rcases fOp? with _ | fOp <;> dsimp only at h
              · subst h
                constructor
                · intro v st' hok
                  simp at hok
                · intro e he
                  obtain rfl := Except.error.inj he
                  exact ⟨Or.inl (Or.inl rfl), fun hoof => by simp at hoof⟩
              · by_cases hfop : fOp.type ≠ .opLt ∧ fOp.type ≠ .opLte
                · rw [if_pos hfop] at h
                  have hr := ihRest { st2 with i := st2.i - 2 } res h
                  have hlen2 : st2.t.length = st.t.length := by rw [ht2]
                  constructor
                  · intro v st' hok
                    obtain ⟨hT, hI, hB⟩ := hr.1 v st' hok
                    have hT2 : st'.t = st2.t := hT
                    have hI2 : st2.i - 2 < st'.i := hI
                    have hB2 : st'.i ≤ st2.t.length := hB
                    exact ⟨by rw [hT2, ht2], by omega, by omega⟩
                  · intro e he
                    obtain ⟨hwf, hoof⟩ := hr.2 e he
                    have hwf2 : errWF st2.t e ∨ e = PErr.outOfFuel := hwf
                    rw [ht2] at hwf2
                    refine ⟨hwf2, fun hx => ?_⟩
                    have h3 : fuel < st2.t.length - (st2.i - 2) + 2 := hoof hx
                    omega
                · rw [if_neg hfop] at h
                  rcases h3 : consumeTy .word st2 with e3 | ⟨fieldTok, st3⟩ <;> rw [h3] at h <;>
                    dsimp only at h
                  · subst h
                    constructor
                    · intro v st' hok
                      simp at hok
                    · intro e he
                      obtain rfl := Except.error.inj he
                      refine ⟨?_, ?_⟩
                      · rcases consumeTy_err h3 with rfl | ⟨tok2, hg2, rfl⟩
                        · exact Or.inl (Or.inl rfl)
                        · rw [ht2] at hg2
                          exact Or.inl (Or.inr (Or.inr ⟨tok2, List.get?_mem hg2, rfl⟩))
                      · intro hoof
                        rcases consumeTy_err h3 with rfl | ⟨tok2, hg2, rfl⟩ <;> simp at hoof
                  · obtain ⟨hs3, hg3, _⟩ := consumeTy_ok h3
                    have ht3 : st3.t = st.t := by
                      rw [hs3]
                      show st2.t = st.t
                      exact ht2
                    have hi3 : st3.i = st.i + 3 := by
                      rw [hs3]
                      show st2.i + 1 = st.i + 3
                      omega
                    have hib2 : st.i + 2 < st.t.length := by
                      have h6 := get?_lt hg3
                      rw [hi2, ht2] at h6
                      exact h6
                    rcases h4 : consumeAny st3 with ⟨sOp?, st4⟩
                    rw [h4] at h
                    dsimp only at h
                    unfold consumeAny at h4
                    injection h4 with hf4 hs4
                    have ht4 : st4.t = st.t := by
                      rw [← hs4]
                      show st3.t = st.t
                      exact ht3
                    have hi4 : st4.i = st.i + 4 := by
                      rw [← hs4]
                      show st3.i + 1 = st.i + 4
                      omega
                    rcases sOp? with _ | sOp <;> dsimp only at h
                    · subst h
                      constructor
                      · intro v st' hok
                        simp at hok
                      · intro e he
                        obtain rfl := Except.error.inj he
                        exact ⟨Or.inl (Or.inl rfl), fun hoof => by simp at hoof⟩
                    · by_cases hsop : sOp.type ≠ .opLt ∧ sOp.type ≠ .opLte
                      · rw [if_pos hsop] at h
                        subst h
                        constructor
                        · intro v st' hok
                          simp at hok
                        · intro e he
                          obtain rfl := Except.error.inj he
                          refine ⟨?_, fun hoof => by simp at hoof⟩
                          refine Or.inl (Or.inr (Or.inr ⟨sOp, ?_, rfl⟩))
                          have h5 : st.t.get? (st.i + 3) = some sOp := by
                            rw [← ht3, ← hi3]
                            exact hf4
                          exact List.get?_mem h5
                      · rw [if_neg hsop] at h
                        rcases h5 : parseLiteral st4 with e5 | ⟨rhsLit, st5⟩ <;> rw [h5] at h <;>
                          dsimp only at h
                        · subst h
                          constructor
                          · intro v st' hok
                            simp at hok
                          · intro e he
                            obtain rfl := Except.error.inj he
                            refine ⟨?_, ?_⟩
                            · rcases parseLiteral_err h5 with rfl | rfl | ⟨tok2, hg2, rfl⟩
                              · exact Or.inl (Or.inl rfl)
                              · exact Or.inl (Or.inr (Or.inl rfl))
                              · rw [ht4] at hg2
                                exact Or.inl (Or.inr (Or.inr ⟨tok2, List.get?_mem hg2, rfl⟩))
                            · intro hoof
                              rcases parseLiteral_err h5 with rfl | rfl | ⟨tok2, hg2, rfl⟩ <;>
                                simp at hoof
                        · obtain ⟨hs5, _, tokR, hgR, _⟩ := parseLiteral_ok h5
                          have ht5 : st5.t = st.t := by
                            rw [hs5]
                            show st4.t = st.t
                            exact ht4
                          have hi5 : st5.i = st.i + 5 := by
                            rw [hs5]
                            show st4.i + 1 = st.i + 5
                            omega
                          have hib4 : st.i + 4 < st.t.length := by
                            have h6 := get?_lt hgR
                            rw [hi4, ht4] at h6
                            exact h6
                          subst h
                          constructor
                          · intro v st' hok
                            simp only [Except.ok.injEq, Prod.mk.injEq] at hok
                            obtain ⟨h7, h8⟩ := hok
                            rw [← h8]
                            refine ⟨?_, ?_, ?_⟩
                            · show st5.t = st.t
                              exact ht5
                            · show st.i < st5.i
                              omega
                            · show st5.i ≤ st.t.length
                              omega
                          · intro e he
                            simp at he
          · rw [if_neg hns] at h
            have hr := ihRest st res h
            constructor
            · intro v st' hok
              exact hr.1 v st' hok
            · intro e he
              obtain ⟨hwf, hoof⟩ := hr.2 e he
              refine ⟨hwf, fun hx => ?_⟩
              have h3 := hoof hx
              omega
      · obtain ⟨hb, tokp, hgp, _⟩ := matchTy_true hm
        have hib : st.i < st.t.length := get?_lt hgp
        have ht0 : st0.t = st.t := by rw [hb]; rfl
        have hi0 : st0.i = st.i + 1 := by rw [hb]; rfl
        rcases h1 : parseDisjunction fuel st0 with e1 | ⟨inside, st1⟩ <;> rw [h1] at h <;>
          dsimp only at h
        · subst h
          constructor
          · intro v st' hok
            simp at hok
          · intro e he
            obtain rfl := Except.error.inj he
            obtain ⟨hwf, hoof⟩ := (ihDisj st0 _ h1).2 e1 rfl
            rw [ht0] at hwf
            refine ⟨hwf, fun hx => ?_⟩
            have h3 := hoof hx
            rw [ht0, hi0] at h3
            omega
        · obtain ⟨hT1, hI1, hB1⟩ := (ihDisj st0 _ h1).1 inside st1 rfl
          rw [ht0] at hT1 hB1
          rw [hi0] at hI1
          rcases h2 : consumeTy .rparen st1 with e2 | ⟨rp, st2⟩ <;> rw [h2] at h <;>
            dsimp only at h
          · subst h
            constructor
            · intro v st' hok
              simp at hok
            · intro e he
              obtain rfl := Except.error.inj he
              refine ⟨?_, ?_⟩
              · rcases consumeTy_err h2 with rfl | ⟨tok2, hg2, rfl⟩
                · exact Or.inl (Or.inl rfl)
                · rw [hT1] at hg2
                  exact Or.inl (Or.inr (Or.inr ⟨tok2, List.get?_mem hg2, rfl⟩))
              · intro hoof
                rcases consumeTy_err h2 with rfl | ⟨tok2, hg2, rfl⟩ <;> simp at hoof
          · obtain ⟨hs2, hg2, _⟩ := consumeTy_ok h2
            have hib1 : st1.i < st.t.length := by
              have h5 := get?_lt hg2
              rw [hT1] at h5
              exact h5
            subst h
            constructor
            · intro v st' hok
              simp only [Except.ok.injEq, Prod.mk.injEq] at hok
              obtain ⟨h7, h8⟩ := hok
              rw [← h8, hs2]
              refine ⟨?_, ?_, ?_⟩
              · show st1.t = st.t
                exact hT1
              · show st.i < st1.i + 1
                omega
              · show st1.i + 1 ≤ st.t.length
                omega
            · intro e he
              simp at he
    have hRest : ∀ st res, parseTermRest (fuel + 1) st = res →
        (∀ v st', res = .ok (v, st') → st'.t = st.t ∧ st.i < st'.i ∧ st'.i ≤ st.t.length) ∧
        (∀ e, res = .error e → (errWF st.t e ∨ e = .outOfFuel) ∧
          (e = .outOfFuel → fuel + 1 < (st.t.length - st.i) + 2)) := by
      intro st res h
      simp only [parseTermRest] at h
      rcases hpk : peekT st with _ | kwTok <;> rw [hpk] at h <;> dsimp only at h
      · subst h
        constructor
        · intro v st' hok
          simp at hok
        · intro e he
          obtain rfl := Except.error.inj he
          exact ⟨Or.inl (Or.inl rfl), fun hoof => by simp at hoof⟩
      · by_cases hkw : kwTok.type = .keyword ∧
            (kwTok.value = "$exists" ∨ kwTok.value = "$!exists")
        · rw [if_pos hkw] at h
          rcases h1 : consumeTy .keyword st with e1 | ⟨k1, stA⟩ <;> rw [h1] at h <;>
            dsimp only at h
          · subst h
            constructor
            · intro v st' hok
              simp at hok
            · intro e he
              obtain rfl := Except.error.inj he
              refine ⟨?_, ?_⟩
              · rcases consumeTy_err h1 with rfl | ⟨tok2, hg2, rfl⟩
                · exact Or.inl (Or.inl rfl)
                · exact Or.inl (Or.inr (Or.inr ⟨tok2, List.get?_mem hg2, rfl⟩))
              · intro hoof
                rcases consumeTy_err h1 with rfl | ⟨tok2, hg2, rfl⟩ <;> simp at hoof
          · obtain ⟨hsA, hgA, _⟩ := consumeTy_ok h1
            have htA : stA.t = st.t := by rw [hsA]; rfl
            have hiA : stA.i = st.i + 1 := by rw [hsA]; rfl
            have hibA : st.i < st.t.length := get?_lt hgA
            rcases h2 : consumeTy .opEq stA with e2 | ⟨k2, stB⟩ <;> rw [h2] at h <;>
              dsimp only at h
            · subst h
              constructor
              · intro v st' hok
                simp at hok
              · intro e he
                obtain rfl := Except.error.inj he
                refine ⟨?_, ?_⟩
                · rcases consumeTy_err h2 with rfl | ⟨tok2, hg2, rfl⟩
                  · exact Or.inl (Or.inl rfl)
                  · rw [htA] at hg2
                    exact Or.inl (Or.inr (Or.inr ⟨tok2, List.get?_mem hg2, rfl⟩))
                · intro hoof
                  rcases consumeTy_err h2 with rfl | ⟨tok2, hg2, rfl⟩ <;> simp at hoof
            · obtain ⟨hsB, hgB, _⟩ := consumeTy_ok h2
              have htB : stB.t = st.t := by
                rw [hsB]
                show stA.t = st.t
                exact htA
              have hiB : stB.i = st.i + 2 := by
                rw [hsB]
                show stA.i + 1 = st.i + 2
                omega
              have hibB : st.i + 1 < st.t.length := by
                have h9 := get?_lt hgB
                rw [hiA, htA] at h9
                exact h9
              rcases h3 : consumeTy .word stB with e3 | ⟨f1, stC⟩ <;> rw [h3] at h <;>
                dsimp only at h
              · subst h
                constructor
                · intro v st' hok
                  simp at hok
                · intro e he
                  obtain rfl := Except.error.inj he
                  refine ⟨?_, ?_⟩
                  · rcases consumeTy_err h3 with rfl | ⟨tok2, hg2, rfl⟩
                    · exact Or.inl (Or.inl rfl)
                    · rw [htB] at hg2
                      exact Or.inl (Or.inr (Or.inr ⟨tok2, List.get?_mem hg2, rfl⟩))
                  · intro hoof
                    rcases consumeTy_err h3 with rfl | ⟨tok2, hg2, rfl⟩ <;> simp at hoof
              · obtain ⟨hsC, hgC, _⟩ := consumeTy_ok h3
                have htC : stC.t = st.t := by
                  rw [hsC]
                  show stB.t = st.t
                  exact htB
                have hiC : stC.i = st.i + 3 := by
                  rw [hsC]
                  show stB.i + 1 = st.i + 3
                  omega
                have hibC : st.i + 2 < st.t.length := by
                  have h9 := get?_lt hgC
                  rw [hiB, htB] at h9
                  exact h9
                rcases h4 : parseFieldsTail fuel stC [f1.value] with e4 | ⟨fields, stD⟩ <;>
                  rw [h4] at h <;> dsimp only at h
                · subst h
                  constructor
                  · intro v st' hok
                    simp at hok
                  · intro e he
                    obtain rfl := Except.error.inj he
                    obtain ⟨hwf, hoof⟩ := (ihF stC _ _ h4).2 e4 rfl
                    rw [htC] at hwf
                    refine ⟨hwf, fun hx => ?_⟩
                    have h9 := hoof hx
                    rw [htC, hiC] at h9
                    omega
                · obtain ⟨hTD, hID, hBD⟩ := (ihF stC _ _ h4).1 fields stD rfl
                  rw [htC] at hTD hBD
                  rw [hiC] at hID hBD
                  subst h
                  constructor
                  · intro v st' hok
                    simp only [Except.ok.injEq, Prod.mk.injEq] at hok
                    obtain ⟨h7, h8⟩ := hok
                    rw [← h8]
                    obtain ⟨hft, hfi⟩ := foldl_capIns_ti fields "$exists" stD
                    refine ⟨?_, ?_, ?_⟩
                    · rw [hft, hTD]
                    · rw [hfi]
                      omega
                    · rw [hfi]
                      have h9 := hBD (by omega)
                      omega
                  · intro e he
                    simp at he
        · rw [if_neg hkw] at h
          by_cases hmem : (kwTok.type = .word ∧ peekTy st 1 = some .lbrace) ∨
              (peekTy st 1 = some .bang ∧ peekTy st 2 = some .lbrace)
          · rw [if_pos hmem] at h
            rcases h1 : consumeTy .word st with e1 | ⟨fieldTok, stA⟩ <;> rw [h1] at h <;>
              dsimp only at h
            · subst h
              constructor
              · intro v st' hok
                simp at hok
              · intro e he
                obtain rfl := Except.error.inj he
                refine ⟨?_, ?_⟩
                · rcases consumeTy_err h1 with rfl | ⟨tok2, hg2, rfl⟩
                  · exact Or.inl (Or.inl rfl)
                  · exact Or.inl (Or.inr (Or.inr ⟨tok2, List.get?_mem hg2, rfl⟩))
                · intro hoof
                  rcases consumeTy_err h1 with rfl | ⟨tok2, hg2, rfl⟩ <;> simp at hoof
            · obtain ⟨hsA, hgA, _⟩ := consumeTy_ok h1
              have htA : stA.t = st.t := by rw [hsA]; rfl
              have hiA : stA.i = st.i + 1 := by rw [hsA]; rfl
              have hibA : st.i < st.t.length := get?_lt hgA
              rcases hbg : matchTy .bang stA with ⟨negb, stB⟩
              rw [hbg] at h
              dsimp only at h
              have hBf : stB.t = stA.t ∧ stA.i ≤ stB.i ∧ stB.i ≤ stA.i + 1 := by
                cases negb
                · have hx := matchTy_false hbg
                  rw [hx]
                  exact ⟨rfl, le_refl _, Nat.le_succ _⟩
                · obtain ⟨hx, tokx, _, _⟩ := matchTy_true hbg
                  rw [hx]
                  exact ⟨rfl, Nat.le_succ _, le_refl _⟩
              obtain ⟨htBA, hiB1, hiB2⟩ := hBf
              have htB : stB.t = st.t := htBA.trans htA
              rcases h2 : consumeTy .lbrace stB with e2 | ⟨lb, stC⟩ <;> rw [h2] at h <;>
                dsimp only at h
              · subst h
                constructor
                · intro v st' hok
                  simp at hok
                · intro e he
                  obtain rfl := Except.error.inj he
                  refine ⟨?_, ?_⟩
                  · rcases consumeTy_err h2 with rfl | ⟨tok2, hg2, rfl⟩
                    · exact Or.inl (Or.inl rfl)
                    · rw [htB] at hg2
                      exact Or.inl (Or.inr (Or.inr ⟨tok2, List.get?_mem hg2, rfl⟩))
                  · intro hoof
                    rcases consumeTy_err h2 with rfl | ⟨tok2, hg2, rfl⟩ <;> simp at hoof
              · obtain ⟨hsC, hgC, _⟩ := consumeTy_ok h2
                have htC : stC.t = st.t := by
                  rw [hsC]
                  show stB.t = st.t
                  exact htB
                have hiC : stC.i = stB.i + 1 := by rw [hsC]; rfl
                have hibB : stB.i < st.t.length := by
                  have h9 := get?_lt hgC
                  rw [htB] at h9
                  exact h9
                rcases h3 : parseLiteral stC with e3 | ⟨l1, stD⟩ <;> rw [h3] at h <;>
                  dsimp only at h
                · subst h
                  constructor
                  · intro v st' hok
                    simp at hok
                  · intro e he
                    obtain rfl := Except.error.inj he
                    refine ⟨?_, ?_⟩
                    · rcases parseLiteral_err h3 with rfl | rfl | ⟨tok2, hg2, rfl⟩
                      · exact Or.inl (Or.inl rfl)
                      · exact Or.inl (Or.inr (Or.inl rfl))
                      · rw [htC] at hg2
                        exact Or.inl (Or.inr (Or.inr ⟨tok2, List.get?_mem hg2, rfl⟩))
                    · intro hoof
                      rcases parseLiteral_err h3 with rfl | rfl | ⟨tok2, hg2, rfl⟩ <;> simp at hoof
                · obtain ⟨hsD, _, tokD, hgD, _⟩ := parseLiteral_ok h3
                  have htD : stD.t = st.t := by
                    rw [hsD]
                    show stC.t = st.t
                    exact htC
                  have hiD : stD.i = stC.i + 1 := by rw [hsD]; rfl
                  have hibC : stC.i < st.t.length := by
                    have h9 := get?_lt hgD
                    rw [htC] at h9
                    exact h9
                  rcases h4 : parseListTail fuel stD [l1] with e4 | ⟨list, stE⟩ <;>
                    rw [h4] at h <;> dsimp only at h
                  · subst h
                    constructor
                    · intro v st' hok
                      simp at hok
                    · intro e he
                      obtain rfl := Except.error.inj he
                      obtain ⟨hwf, hoof⟩ := (ihL stD _ _ h4).2 e4 rfl
                      rw [htD] at hwf
                      refine ⟨hwf, fun hx => ?_⟩
                      have h9 := hoof hx
                      rw [htD, hiD, hiC] at h9
                      omega
                  · obtain ⟨hTE, hIE, hBE⟩ := (ihL stD _ _ h4).1 list stE rfl
                    rw [htD] at hTE hBE
                    rw [hiD, hiC] at hIE hBE
                    rcases h5 : consumeTy .rbrace stE with e5 | ⟨rb, stF⟩ <;> rw [h5] at h <;>
                      dsimp only at h
                    · subst h
                      constructor
                      · intro v st' hok
                        simp at hok
                      · intro e he
                        obtain rfl := Except.error.inj he
                        refine ⟨?_, ?_⟩
                        · rcases consumeTy_err h5 with rfl | ⟨tok2, hg2, rfl⟩
                          · exact Or.inl (Or.inl rfl)
                          · rw [hTE] at hg2
                            exact Or.inl (Or.inr (Or.inr ⟨tok2, List.get?_mem hg2, rfl⟩))
                        · intro hoof
                          rcases consumeTy_err h5 with rfl | ⟨tok2, hg2, rfl⟩ <;> simp at hoof
                    · obtain ⟨hsF, hgF, _⟩ := consumeTy_ok h5
                      have hibE : stE.i < st.t.length := by
                        have h9 := get?_lt hgF
                        rw [hTE] at h9
                        exact h9
                      subst h
                      constructor
                      · intro v st' hok
                        simp only [Except.ok.injEq, Prod.mk.injEq] at hok
                        obtain ⟨h7, h8⟩ := hok
                        rw [← h8]
                        refine ⟨?_, ?_, ?_⟩
                        · show stF.t = st.t
                          rw [hsF]
                          show stE.t = st.t
                          exact hTE
                        · show st.i < stF.i
                          rw [hsF]
                          show st.i < stE.i + 1
                          omega
                        · show stF.i ≤ st.t.length
                          rw [hsF]
                          show stE.i + 1 ≤ st.t.length
                          omega
                      · intro e he
                        simp at he
          · rw [if_neg hmem] at h
            rcases h1 : consumeTy .word st with e1 | ⟨fieldTok, stA⟩ <;> rw [h1] at h <;>
              dsimp only at h
            · subst h
              constructor
              · intro v st' hok
                simp at hok
              · intro e he
                obtain rfl := Except.error.inj he
                refine ⟨?_, ?_⟩
                · rcases consumeTy_err h1 with rfl | ⟨tok2, hg2, rfl⟩
                  · exact Or.inl (Or.inl rfl)
                  · exact Or.inl (Or.inr (Or.inr ⟨tok2, List.get?_mem hg2, rfl⟩))
                · intro hoof
                  rcases consumeTy_err h1 with rfl | ⟨tok2, hg2, rfl⟩ <;> simp at hoof
            · obtain ⟨hsA, hgA, _⟩ := consumeTy_ok h1
              have htA : stA.t = st.t := by rw [hsA]; rfl
              have hiA : stA.i = st.i + 1 := by rw [hsA]; rfl
              have hibA : st.i < st.t.length := get?_lt hgA
              rcases h2 : consumeAny stA with ⟨opTok?, stB⟩
              rw [h2] at h
              dsimp only at h
              unfold consumeAny at h2
              injection h2 with hf2 hs2
              have htB : stB.t = st.t := by
                rw [← hs2]
                show stA.t = st.t
                exact htA
              have hiB : stB.i = st.i + 2 := by
                rw [← hs2]
                show stA.i + 1 = st.i + 2
                omega
              rcases h3 : parseLiteral stB with e3 | ⟨lit, stC⟩ <;> rw [h3] at h <;>
                dsimp only at h
              · subst h
                constructor
                · intro v st' hok
                  simp at hok
                · intro e he
                  obtain rfl := Except.error.inj he
                  refine ⟨?_, ?_⟩
                  · rcases parseLiteral_err h3 with rfl | rfl | ⟨tok2, hg2, rfl⟩
                    · exact Or.inl (Or.inl rfl)
                    · exact Or.inl (Or.inr (Or.inl rfl))
                    · rw [htB] at hg2
                      exact Or.inl (Or.inr (Or.inr ⟨tok2, List.get?_mem hg2, rfl⟩))
                  · intro hoof
                    rcases parseLiteral_err h3 with rfl | rfl | ⟨tok2, hg2, rfl⟩ <;> simp at hoof
              · obtain ⟨hsC, _, tokC, hgC, _⟩ := parseLiteral_ok h3
                have htC : stC.t = st.t := by
                  rw [hsC]
                  show stB.t = st.t
                  exact htB
                have hiC : stC.i = st.i + 3 := by
                  rw [hsC]
                  show stB.i + 1 = st.i + 3
                  omega
                have hibB : st.i + 2 < st.t.length := by
                  have h9 := get?_lt hgC
                  rw [hiB, htB] at h9
                  exact h9
                rcases opTok? with _ | opTok <;> dsimp only at h
                · subst h
                  constructor
                  · intro v st' hok
                    simp at hok
                  · intro e he
                    obtain rfl := Except.error.inj he
                    exact ⟨Or.inl (Or.inl rfl), fun hoof => by simp at hoof⟩
                · rcases ho : opMap opTok.type with _ | op <;> rw [ho] at h <;>
                    dsimp only at h
                  · subst h
                    constructor
                    · intro v st' hok
                      simp at hok
                    · intro e he
                      obtain rfl := Except.error.inj he
                      refine ⟨?_, fun hoof => by simp at hoof⟩
                      refine Or.inl (Or.inr (Or.inr ⟨opTok, ?_, rfl⟩))
                      have h9 : st.t.get? stA.i = some opTok := by
                        rw [← htA]
                        exact hf2
                      exact List.get?_mem h9
                  · have hres : ∃ w, res = Except.ok (w, capIns stC fieldTok.value op) := by
                      split at h <;> exact ⟨_, h.symm⟩
                    obtain ⟨w, rfl⟩ := hres
                    constructor
                    · intro v st' hok
                      simp only [Except.ok.injEq, Prod.mk.injEq] at hok
                      obtain ⟨h7, h8⟩ := hok
                      rw [← h8]
                      refine ⟨?_, ?_, ?_⟩
                      · show stC.t = st.t
                        exact htC
                      · show st.i < stC.i
                        omega
                      · show stC.i ≤ st.t.length
                        omega
                    · intro e he
                      simp at he
    exact ⟨hTerm, hRest, hConj, hConjT, hDisj, hDisjT, hFields, hList⟩

/-- Claim C6 (amended): whatever the host `RegExp` constructor accepts,
every failure of the core parse is a single synchronous error value;
lexical errors and the parser's own syntax errors carry an offset that
lies strictly inside the input, and the only positionless failures are the
`TypeError` raised by reading a property of an absent token (truncated
input) and the `SyntaxError` raised by the `RegExp` constructor on a lexed
regex literal whose pattern or flags the host rejects (the lexer's flag
class `[imsux]` admits `x`, which is not a `RegExp` flag). -/
theorem claim_C6 (rx : String → String → Bool) (s : String) (e : PErr)
    (h : parseQueryRx rx s = .error e) :
    e = .typeErr ∨ e = .regexErr ∨ ∃ p, errOffset e = some p ∧ p < s.length := by
  unfold parseQueryRx at h
  rcases hl : lexChars s.data with el | ts <;> rw [hl] at h <;> dsimp only at h
  · obtain rfl := Except.error.inj h
    obtain ⟨c, p, rfl, hp⟩ := lexChars_err s.data el hl
    exact Or.inr (Or.inr ⟨p, rfl, hp⟩)
  · unfold parseTokensRx parseExpression at h
    rcases hp2 : parseDisjunction (enoughFuel ts.length) ⟨ts, 0, [], rx⟩ with e2 | ⟨v, st⟩ <;>
      rw [hp2] at h <;> dsimp only at h
    · obtain rfl := Except.error.inj h
      obtain ⟨hwf, hoof⟩ :=
        ((parser_err_inv (enoughFuel ts.length)).2.2.2.2.1 ⟨ts, 0, [], rx⟩ _ hp2).2 e2 rfl
      rcases hwf with hwf | rfl
      · rcases hwf with rfl | rfl | ⟨tok, hmem, hoff⟩
        · exact Or.inl rfl
        · exact Or.inr (Or.inl rfl)
        · exact Or.inr (Or.inr ⟨tok.pos, hoff, lexChars_pos s.data ts hl tok hmem⟩)
      · have h9 : enoughFuel ts.length <
            3 * ((⟨ts, 0, [], rx⟩ : PState).t.length - (⟨ts, 0, [], rx⟩ : PState).i) + 5 :=
          hoof rfl
        simp [enoughFuel] at h9
    · rcases he2 : expectEof st with e3 | u <;> rw [he2] at h <;> dsimp only at h
      · obtain rfl := Except.error.inj h
        obtain ⟨hT, hI, hB⟩ :=
          ((parser_err_inv (enoughFuel ts.length)).2.2.2.2.1 ⟨ts, 0, [], rx⟩ _ hp2).1 v st rfl
        have hT2 : st.t = ts := hT
        have hB2 : st.i ≤ ts.length := hB
        unfold expectEof at he2
        split at he2
        · obtain rfl := Except.error.inj he2
          rename_i hne
          have hlt : st.i < st.t.length := by
            rw [hT2] at hne ⊢
            omega
          rcases hg : st.t.get? st.i with _ | tok
          · rw [List.get?_eq_none] at hg
            omega
          · refine Or.inr (Or.inr ⟨tok.pos, ?_, ?_⟩)
            · simp [errOffset, hg]
            · have hmem : tok ∈ ts := by
                rw [hT2] at hg
                exact List.get?_mem hg
              exact lexChars_pos s.data ts hl tok hmem
        · simp at he2
      · simp at h

/-- Witness for C6 at two concrete failures: under the host with the
ECMAScript flag check, `name~=/a/x` fails with the positionless
`SyntaxError` from `new RegExp("a", "x")`; under the all-accepting host,
`a=1)` fails with an end-of-input error carrying offset 3, inside the
4-character input. -/
theorem claim_C6_witness :
    (PErr.regexErr = PErr.typeErr ∨ PErr.regexErr = PErr.regexErr ∨
      ∃ p, errOffset PErr.regexErr = some p ∧ p < ("name~=/a/x" : String).length) ∧
    (PErr.eofExpected (some 3) = PErr.typeErr ∨ PErr.eofExpected (some 3) = PErr.regexErr ∨
      ∃ p, errOffset (PErr.eofExpected (some 3)) = some p ∧ p < ("a=1)" : String).length) :=
  ⟨claim_C6 (fun _ flags => jsFlags flags) "name~=/a/x" PErr.regexErr (by rfl),
   claim_C6 (fun _ _ => true) "a=1)" (PErr.eofExpected (some 3)) (by rfl)⟩

/-! ## Re-tokenization: run-length and literal-match toolbox -/

theorem runLen_le (p : Char → Bool) (l : List Char) : runLen p l ≤ l.length := by
  induction l with
  | nil => simp [runLen]
  | cons c cs ih =>
    rw [runLen]
    split
    · simp only [List.length_cons]
      omega
    · omega

theorem runLen_append (p : Char → Bool) (l r : List Char) :
    runLen p (l ++ r) =
      if runLen p l = l.length then l.length + runLen p r else runLen p l := by
  induction l with
  | nil => simp [runLen]
  | cons c cs ih =>
    by_cases hc : p c = true
    · have hl : runLen p (c :: (cs ++ r)) = runLen p (cs ++ r) + 1 := by
        rw [runLen, if_pos hc]
      have hl2 : runLen p (c :: cs) = runLen p cs + 1 := by
        rw [runLen, if_pos hc]
      rw [List.cons_append, hl, ih, hl2]
      by_cases h2 : runLen p cs = cs.length
      · rw [if_pos h2, if_pos (by simp only [List.length_cons]; omega)]
        simp only [List.length_cons]
        omega
      · rw [if_neg h2, if_neg (by simp only [List.length_cons]; omega)]
    · simp [runLen, hc]

theorem runLen_take (p : Char → Bool) (l : List Char) (m : Nat) :
    runLen p (l.take m) = min (runLen p l) m := by
  induction l generalizing m with
  | nil => simp [runLen]
  | cons c cs ih =>
    cases m with
    | zero => simp [runLen]
    | succ m =>
      rw [List.take_succ_cons]
      by_cases hc : p c = true
      · simp only [runLen, hc, if_pos, ih]
        omega
      · simp [runLen, hc]

theorem runLen_all (p : Char → Bool) (l : List Char) (h : runLen p l = l.length) :
    ∀ c ∈ l, p c = true := by
  induction l with
  | nil => simp
  | cons c cs ih =>
    rw [runLen] at h
    split at h
    · rename_i hc
      intro x hx
      rcases List.mem_cons.1 hx with rfl | hx
      · exact hc
      · exact ih (by simpa using h) x hx
    · simp at h

theorem runLen_of_all (p : Char → Bool) (l : List Char) (h : ∀ c ∈ l, p c = true) :
    runLen p l = l.length := by
  induction l with
  | nil => simp [runLen]
  | cons c cs ih =>
    rw [runLen, if_pos (h c (by simp))]
    simp only [List.length_cons]
    rw [ih (fun x hx => h x (by simp [hx]))]

theorem runLen_boundary (p : Char → Bool) (l : List Char) (c : Char)
    (h : l.get? (runLen p l) = some c) : p c = false := by
  induction l with
  | nil => simp at h
  | cons d ds ih =>
    rw [runLen] at h
    split at h
    · exact ih (by simpa using h)
    · rename_i hd
      simp at h
      subst h
      simpa using hd

theorem runLen_pos_extend (p : Char → Bool) (l r : List Char) (h : 0 < runLen p l) :
    0 < runLen p (l ++ r) := by
  rcases l with _ | ⟨c, cs⟩
  · simp [runLen] at h
  · rw [runLen] at h
    split at h
    · rename_i hc
      rw [List.cons_append, runLen, if_pos hc]
      omega
    · omega

theorem litLen_eq (lit s : List Char) (n : Nat) (h : litLen lit s = some n) :
    n = lit.length ∧ s.take lit.length = lit := by
  unfold litLen at h
  split at h
  · rename_i hp
    simp at h
    refine ⟨h.symm, ?_⟩
    have hpre : lit <+: s := List.isPrefixOf_iff_prefix.1 hp
    obtain ⟨u, hu⟩ := hpre
    rw [← hu, List.take_left]
  · simp at h

theorem litLen_extend (lit v r : List Char) (n : Nat) (h : litLen lit v = some n) :
    litLen lit (v ++ r) = some n := by
  unfold litLen at h ⊢
  split at h
  · rename_i hp
    rw [if_pos]
    · exact h
    · exact List.isPrefixOf_iff_prefix.2 ((List.isPrefixOf_iff_prefix.1 hp).trans
        (List.prefix_append v r))
  · simp at h

theorem escTail_prefix (delim : Char) (t : List Char) :
    ∀ m, escTail delim t = some m → ∀ u, escTail delim (t.take m ++ u) = some m := by
  induction t using escTail.induct delim with
  | case1 =>
    intro m h u
    simp [escTail] at h
  | case2 cs =>
    intro m h u
    rw [escTail.eq_def] at h
    dsimp only at h
    rw [if_pos rfl] at h
    simp at h
    subst h
    rw [List.take_succ_cons, List.take_zero, List.cons_append, List.nil_append]
    rw [escTail.eq_def]
    dsimp only
    rw [if_pos rfl]
  | case3 hne =>
    intro m h u
    rw [escTail.eq_def] at h
    dsimp only at h
    rw [if_neg hne, if_pos rfl] at h
    simp at h
  | case4 c cs hdot hne ih =>
    intro m h u
    rw [escTail.eq_def] at h
    dsimp only at h
    rw [if_neg hne, if_pos rfl] at h
    simp only [hdot, if_pos] at h
    obtain ⟨k, hk, hm⟩ := Option.map_eq_some'.1 h
    subst hm
    rw [List.take_succ_cons, List.take_succ_cons, List.cons_append, List.cons_append]
    rw [escTail.eq_def]
    dsimp only
    rw [if_neg hne, if_pos rfl]
    simp only [hdot, if_pos]
    rw [ih k hk u]
    rfl
  | case5 c cs hdot hne =>
    intro m h u
    rw [escTail.eq_def] at h
    dsimp only at h
    rw [if_neg hne, if_pos rfl] at h
    simp [hdot] at h
  | case6 c cs hne hbs ih =>
    intro m h u
    rw [escTail.eq_def] at h
    dsimp only at h
    rw [if_neg hne, if_neg hbs] at h
    obtain ⟨k, hk, hm⟩ := Option.map_eq_some'.1 h
    subst hm
    rw [List.take_succ_cons, List.cons_append]
    rw [escTail.eq_def]
    dsimp only
    rw [if_neg hne, if_neg hbs]
    rw [ih k hk u]
    rfl

theorem escTail_extend (delim : Char) (t u : List Char) (m : Nat)
    (h : escTail delim t = some m) : escTail delim (t ++ u) = some m := by
  have h2 := escTail_prefix delim t m h (t.drop m ++ u)
  rwa [← List.append_assoc, List.take_append_drop] at h2

theorem escTail_le (delim : Char) (t : List Char) :
    ∀ m, escTail delim t = some m → m ≤ t.length := by
  induction t using escTail.induct delim with
  | case1 =>
    intro m h
    simp [escTail] at h
  | case2 cs =>
    intro m h
    rw [escTail.eq_def] at h
    dsimp only at h
    rw [if_pos rfl] at h
    simp at h
    subst h
    simp
  | case3 hne =>
    intro m h
    rw [escTail.eq_def] at h
    dsimp only at h
    rw [if_neg hne, if_pos rfl] at h
    simp at h
  | case4 c cs hdot hne ih =>
    intro m h
    rw [escTail, if_neg hne, if_pos rfl] at h
    simp only [hdot, if_pos] at h
    obtain ⟨k, hk, hm⟩ := Option.map_eq_some'.1 h
    have := ih k hk
    simp only [List.length_cons]
    omega
  | case5 c cs hdot hne =>
    intro m h
    rw [escTail.eq_def] at h
    dsimp only at h
    rw [if_neg hne, if_pos rfl] at h
    simp [hdot] at h
  | case6 c cs hne hbs ih =>
    intro m h
    rw [escTail.eq_def] at h
    dsimp only at h
    rw [if_neg hne, if_neg hbs] at h
    obtain ⟨k, hk, hm⟩ := Option.map_eq_some'.1 h
    have := ih k hk
    simp only [List.length_cons]
    omega

theorem matchRegexLit_take (s : List Char) (n : Nat) (h : matchRegexLit s = some n) :
    matchRegexLit (s.take n) = some n := by
  rcases s with _ | ⟨c, cs⟩
  · simp [matchRegexLit] at h
  · dsimp only [matchRegexLit] at h
    split at h
    · rename_i hc
      subst hc
      obtain ⟨m, hm, hn⟩ := Option.map_eq_some'.1 h
      have hle := escTail_le '/' cs m hm
      subst hn
      have hstep : ('/' :: cs).take (1 + m + runLen flagChar (cs.drop m)) =
          '/' :: cs.take (m + runLen flagChar (cs.drop m)) := by
        have he : 1 + m + runLen flagChar (cs.drop m) =
            (m + runLen flagChar (cs.drop m)) + 1 := by omega
        rw [he, List.take_succ_cons]
      rw [hstep]
      have hsplit : cs.take (m + runLen flagChar (cs.drop m)) =
          cs.take m ++ (cs.drop m).take (runLen flagChar (cs.drop m)) := by
        rw [List.take_add]
      have he2 := escTail_prefix '/' cs m hm ((cs.drop m).take (runLen flagChar (cs.drop m)))
      have hlen : (cs.take m).length = m := by
        rw [List.length_take]
        omega
      have hdrop : (cs.take m ++ (cs.drop m).take (runLen flagChar (cs.drop m))).drop m =
          (cs.drop m).take (runLen flagChar (cs.drop m)) := by
        rw [List.drop_left' hlen]
      have hrun : runLen flagChar ((cs.drop m).take (runLen flagChar (cs.drop m))) =
          runLen flagChar (cs.drop m) := by
        rw [runLen_take]
        omega
      dsimp only [matchRegexLit]
      rw [if_pos rfl, hsplit, he2]
      simp only [Option.map_some']
      rw [hdrop, hrun]
    · simp at h

theorem matchRegexLit_extend (v r : List Char) (k : Nat) (h : matchRegexLit v = some k) :
    ∃ m, matchRegexLit (v ++ r) = some m := by
  rcases v with _ | ⟨c, cs⟩
  · simp [matchRegexLit] at h
  · dsimp only [matchRegexLit] at h
    split at h
    · rename_i hc
      subst hc
      obtain ⟨m, hm, hn⟩ := Option.map_eq_some'.1 h
      refine ⟨1 + m + runLen flagChar ((cs ++ r).drop m), ?_⟩
      rw [List.cons_append]
      dsimp only [matchRegexLit]
      rw [if_pos rfl, escTail_extend '/' cs r m hm]
      rfl
    · simp at h

theorem matchStrLit_take (s : List Char) (n : Nat) (h : matchStrLit s = some n) :
    matchStrLit (s.take n) = some n := by
  rcases s with _ | ⟨c, cs⟩
  · simp [matchStrLit] at h
  · dsimp only [matchStrLit] at h
    split at h
    · rename_i hc
      subst hc
      obtain ⟨m, hm, hn⟩ := Option.map_eq_some'.1 h
      subst hn
      rw [List.take_succ_cons]
      dsimp only [matchStrLit]
      rw [if_pos rfl]
      have he2 := escTail_prefix quoteC cs m hm []
      rw [List.append_nil] at he2
      rw [he2]
      rfl
    · simp at h

theorem matchStrLit_extend (v r : List Char) (k : Nat) (h : matchStrLit v = some k) :
    ∃ m, matchStrLit (v ++ r) = some m := by
  rcases v with _ | ⟨c, cs⟩
  · simp [matchStrLit] at h
  · dsimp only [matchStrLit] at h
    split at h
    · rename_i hc
      subst hc
      obtain ⟨m, hm, hn⟩ := Option.map_eq_some'.1 h
      refine ⟨m + 1, ?_⟩
      rw [List.cons_append]
      dsimp only [matchStrLit]
      rw [if_pos rfl, escTail_extend quoteC cs r m hm]
      rfl
    · simp at h

theorem digit19_digitC {c : Char} (h : digit19 c = true) : digitC c = true := by
  unfold digit19 at h
  unfold digitC
  simp only [Bool.decide_and, Bool.and_eq_true, decide_eq_true_eq] at h ⊢
  exact ⟨le_trans (by decide) h.1, h.2⟩

theorem digit19_ne_zero {c : Char} (h : digit19 c = true) : ¬(c = '0') := by
  intro hc
  subst hc
  simp [digit19] at h

theorem matchNumber_cons_ne (c : Char) (cs : List Char) (hc : ¬(c = '-')) :
    matchNumber (c :: cs) = numCore (c :: cs) := by
  unfold matchNumber
  split
  · rename_i heq
    exact absurd (List.cons.inj heq).1 hc
  · rfl

theorem fracLen_le (l : List Char) : fracLen l ≤ l.length := by
  rw [fracLen.eq_def]
  split
  · rename_i d ds
    split
    · have := runLen_le digitC ds
      simp only [List.length_cons]
      omega
    · omega
  · omega

theorem fracLen_take (l : List Char) : fracLen (l.take (fracLen l)) = fracLen l := by
  rcases l with _ | ⟨c1, _ | ⟨c2, ds⟩⟩
  · rfl
  · have h0 : fracLen [c1] = 0 := by
      rw [fracLen.eq_def]
      split
      · rename_i heq
        simp at heq
      · rfl
    rw [h0]
    rfl
  · by_cases hc : c1 = '.'
    · subst hc
      by_cases hd : digitC c2 = true
      · have he : fracLen ('.' :: c2 :: ds) = 2 + runLen digitC ds := by
          show (if digitC c2 then 2 + runLen digitC ds else 0) = _
          rw [if_pos hd]
        rw [he]
        have ht : ('.' :: c2 :: ds).take (2 + runLen digitC ds) =
            '.' :: c2 :: ds.take (runLen digitC ds) := by
          have h2 : 2 + runLen digitC ds = (runLen digitC ds + 1) + 1 := by omega
          rw [h2, List.take_succ_cons, List.take_succ_cons]
        rw [ht]
        show (if digitC c2 then 2 + runLen digitC (ds.take (runLen digitC ds)) else 0) = _
        rw [if_pos hd, runLen_take]
        omega
      · have he : fracLen ('.' :: c2 :: ds) = 0 := by
          show (if digitC c2 then 2 + runLen digitC ds else 0) = 0
          rw [if_neg hd]
        rw [he]
        rfl
    · have he : fracLen (c1 :: c2 :: ds) = 0 := by
        rw [fracLen.eq_def]
        split
        · rename_i heq
          exact absurd (List.cons.inj heq).1 hc
        · rfl
      rw [he]
      rfl

theorem fracLen_cons_ne (c : Char) (cs : List Char) (hc : ¬(c = '.')) :
    fracLen (c :: cs) = 0 := by
  rw [fracLen.eq_def]
  split
  · rename_i heq
    exact absurd (List.cons.inj heq).1 hc
  · rfl

theorem numCore_le (s : List Char) (n : Nat) (h : numCore s = some n) : n ≤ s.length := by
  rcases s with _ | ⟨c, cs⟩
  · simp [numCore] at h
  · dsimp only [numCore] at h
    split at h
    · rcases cs with _ | ⟨d, ds⟩ <;> dsimp only at h
      · simp at h
        simp only [List.length_cons, List.length_nil]
        omega
      · split at h
        · simp at h
        · simp at h
          have := fracLen_le (d :: ds)
          simp only [List.length_cons] at this ⊢
          omega
    · split at h
      · simp at h
        have h1 := runLen_le digitC cs
        have h2 := fracLen_le (cs.drop (runLen digitC cs))
        simp only [List.length_drop] at h2
        simp only [List.length_cons]
        omega
      · simp at h

theorem numCore_take (s : List Char) (n : Nat) (h : numCore s = some n) :
    numCore (s.take n) = some n := by
  rcases s with _ | ⟨c, cs⟩
  · simp [numCore] at h
  · dsimp only [numCore] at h
    split at h
    · rename_i hc
      subst hc
      rcases cs with _ | ⟨d, ds⟩ <;> dsimp only at h
      · simp at h
        subst h
        rfl
      · split at h
        · simp at h
        · rename_i hd
          simp at h
          subst h
          have ht : ('0' :: d :: ds).take (1 + fracLen (d :: ds)) =
              '0' :: (d :: ds).take (fracLen (d :: ds)) := by
            have h2 : 1 + fracLen (d :: ds) = fracLen (d :: ds) + 1 := by omega
            rw [h2, List.take_succ_cons]
          rw [ht]
          rcases hf : fracLen (d :: ds) with _ | k
          · rfl
          · have hk1 : 1 ≤ k + 1 := by omega
            have hhead : ∃ ds2, (d :: ds).take (k + 1) = d :: ds2 := by
              rw [List.take_succ_cons]
              exact ⟨_, rfl⟩
            obtain ⟨ds2, hds2⟩ := hhead
            rw [hds2]
            dsimp only [numCore]
            rw [if_pos rfl, if_neg hd]
            have hfl : fracLen (d :: ds2) = k + 1 := by
              rw [← hds2, ← hf, fracLen_take, hf]
            rw [hfl]
    · rename_i hc
      split at h
      · rename_i h19
        simp at h
        subst h
        have ht : (c :: cs).take (1 + runLen digitC cs + fracLen (cs.drop (runLen digitC cs))) =
            c :: cs.take (runLen digitC cs + fracLen (cs.drop (runLen digitC cs))) := by
          have h2 : 1 + runLen digitC cs + fracLen (cs.drop (runLen digitC cs)) =
              (runLen digitC cs + fracLen (cs.drop (runLen digitC cs))) + 1 := by omega
          rw [h2, List.take_succ_cons]
        rw [ht]
        dsimp only [numCore]
        rw [if_neg hc, if_pos h19]
        have hrun : runLen digitC (cs.take (runLen digitC cs +
            fracLen (cs.drop (runLen digitC cs)))) = runLen digitC cs := by
          rw [runLen_take]
          omega
        rw [hrun]
        have hdt : (cs.take (runLen digitC cs + fracLen (cs.drop (runLen digitC cs)))).drop
            (runLen digitC cs) =
            (cs.drop (runLen digitC cs)).take (fracLen (cs.drop (runLen digitC cs))) := by
          rw [List.drop_take]
          congr 1
          omega
        rw [hdt, fracLen_take]
      · simp at h

theorem matchNumber_take (s : List Char) (n : Nat) (h : matchNumber s = some n) :
    matchNumber (s.take n) = some n := by
  rcases s with _ | ⟨c, cs⟩
  · simp [matchNumber, numCore] at h
  · by_cases hc : c = '-'
    · subst hc
      have he : matchNumber ('-' :: cs) = (numCore cs).map (fun x => x + 1) := rfl
      rw [he] at h
      obtain ⟨k, hk, hn⟩ := Option.map_eq_some'.1 h
      subst hn
      have ht : ('-' :: cs).take (k + 1) = '-' :: cs.take k := by
        rw [List.take_succ_cons]
      rw [ht]
      have he2 : matchNumber ('-' :: cs.take k) = (numCore (cs.take k)).map (fun x => x + 1) :=
        rfl
      rw [he2, numCore_take cs k hk]
      rfl
    · rw [matchNumber_cons_ne c cs hc] at h
      have hn := numCore_take _ _ h
      have hpos : 1 ≤ n := by
        dsimp only [numCore] at h
        split at h
        · rcases cs with _ | ⟨e, es⟩ <;> dsimp only at h
          · simp at h
            omega
          · split at h
            · simp at h
            · simp at h
              omega
        · split at h
          · simp at h
            omega
          · simp at h
      have hhead : ∃ u, (c :: cs).take n = c :: u := by
        rcases n with _ | m
        · omega
        · rw [List.take_succ_cons]
          exact ⟨_, rfl⟩
      obtain ⟨u, hu⟩ := hhead
      rw [hu] at hn ⊢
      rw [matchNumber_cons_ne c u hc]
      exact hn

theorem matchNumber_head_none (c : Char) (l : List Char) (hd : digitC c = false)
    (hm : ¬(c = '-')) : matchNumber (c :: l) = none := by
  rw [matchNumber_cons_ne c l hm]
  dsimp only [numCore]
  rw [if_neg, if_neg]
  · intro h19
    rw [digit19_digitC h19] at hd
    simp at hd
  · intro h0
    subst h0
    simp [digitC] at hd

theorem numCore_extend (v rest : List Char) (k : Nat) (h : numCore v = some k)
    (hb : rest = [] ∨ ∃ r rs, rest = r :: rs ∧ digitC r = false) :
    ∃ m, numCore (v ++ rest) = some m := by
  rcases v with _ | ⟨c, cs⟩
  · simp [numCore] at h
  · dsimp only [numCore] at h
    rw [List.cons_append]
    split at h
    · rename_i hc
      subst hc
      rcases cs with _ | ⟨d, ds⟩ <;> dsimp only at h
      · rcases hb with rfl | ⟨r, rs, rfl, hr⟩
        · exact ⟨1, rfl⟩
        · refine ⟨1 + fracLen (r :: rs), ?_⟩
          dsimp only [numCore, List.nil_append]
          rw [if_pos rfl, if_neg (by simp [hr])]
      · split at h
        · simp at h
        · rename_i hd
          refine ⟨1 + fracLen (d :: (ds ++ rest)), ?_⟩
          dsimp only [numCore, List.cons_append]
          rw [if_pos rfl, if_neg (by simp [hd])]
    · rename_i hc
      split at h
      · rename_i h19
        refine ⟨1 + runLen digitC (cs ++ rest) +
          fracLen ((cs ++ rest).drop (runLen digitC (cs ++ rest))), ?_⟩
        dsimp only [numCore]
        rw [if_neg hc, if_pos h19]
      · simp at h

theorem matchNumber_extend (v rest : List Char) (k : Nat) (h : matchNumber v = some k)
    (hb : rest = [] ∨ ∃ r rs, rest = r :: rs ∧ digitC r = false) :
    ∃ m, matchNumber (v ++ rest) = some m := by
  rcases v with _ | ⟨c, cs⟩
  · simp [matchNumber, numCore] at h
  · by_cases hc : c = '-'
    · subst hc
      have he : matchNumber ('-' :: cs) = (numCore cs).map (fun x => x + 1) := rfl
      rw [he] at h
      obtain ⟨k2, hk2, _⟩ := Option.map_eq_some'.1 h
      obtain ⟨m, hm⟩ := numCore_extend cs rest k2 hk2 hb
      refine ⟨m + 1, ?_⟩
      rw [List.cons_append]
      have he2 : matchNumber ('-' :: (cs ++ rest)) =
          (numCore (cs ++ rest)).map (fun x => x + 1) := rfl
      rw [he2, hm]
      rfl
    · rw [matchNumber_cons_ne c cs hc] at h
      obtain ⟨m, hm⟩ := numCore_extend (c :: cs) rest k h hb
      refine ⟨m, ?_⟩
      rw [List.cons_append] at hm ⊢
      rw [matchNumber_cons_ne c (cs ++ rest) hc]
      exact hm

theorem litLen_self (lit : List Char) : litLen lit lit = some lit.length := by
  unfold litLen
  rw [if_pos (List.isPrefixOf_iff_prefix.2 (List.prefix_refl lit))]

theorem litLen_take (lit s : List Char) (n : Nat) (h : litLen lit s = some n) :
    litLen lit (s.take n) = some n := by
  obtain ⟨rfl, htake⟩ := litLen_eq lit s n h
  rw [htake, litLen_self]

theorem matchBoolean_take (s : List Char) (n : Nat) (h : matchBoolean s = some n) :
    matchBoolean (s.take n) = some n := by
  unfold matchBoolean at h ⊢
  rcases h1 : litLen ['t', 'r', 'u', 'e'] s with _ | m <;> rw [h1] at h
  · obtain ⟨rfl, htake⟩ := litLen_eq _ _ _ h
    rw [htake]
    rfl
  · simp at h
    subst h
    rw [litLen_take _ _ _ h1]

theorem matchBoolean_extend (v r : List Char) (k : Nat) (h : matchBoolean v = some k) :
    ∃ m, matchBoolean (v ++ r) = some m := by
  unfold matchBoolean at h ⊢
  rcases h1 : litLen ['t', 'r', 'u', 'e'] v with _ | m <;> rw [h1] at h <;> dsimp only at h
  · obtain ⟨rfl, htake⟩ := litLen_eq _ _ _ h
    have htake5 : v.take 5 = ['f', 'a', 'l', 's', 'e'] := by simpa using htake
    have hv : v = ['f', 'a', 'l', 's', 'e'] ++ v.drop 5 := by
      conv_lhs => rw [← List.take_append_drop 5 v]
      rw [htake5]
    rw [hv, List.append_assoc]
    refine ⟨5, ?_⟩
    have hnone : litLen ['t', 'r', 'u', 'e']
        (['f', 'a', 'l', 's', 'e'] ++ (v.drop 5 ++ r)) = none := by
      simp [litLen, List.isPrefixOf]
    rw [hnone]
    have h5 : litLen ['f', 'a', 'l', 's', 'e']
        (['f', 'a', 'l', 's', 'e'] ++ (v.drop 5 ++ r)) = some 5 :=
      litLen_extend _ _ _ _ (litLen_self _)
    rw [h5]
  · simp at h
    subst h
    rw [litLen_extend _ _ r _ h1]
    exact ⟨m, rfl⟩

theorem matchNull_take (s : List Char) (n : Nat) (h : matchNull s = some n) :
    matchNull (s.take n) = some n := litLen_take _ _ _ h

theorem matchNull_extend (v r : List Char) (k : Nat) (h : matchNull v = some k) :
    ∃ m, matchNull (v ++ r) = some m := ⟨k, litLen_extend _ _ _ _ h⟩

theorem kwChar_ne_bang {c : Char} (h : kwChar c = true) : ¬(c = '!') := by
  intro hc
  subst hc
  simp [kwChar, digitC] at h

theorem runLen_cons (p : Char → Bool) (c : Char) (cs : List Char) :
    runLen p (c :: cs) = if p c then runLen p cs + 1 else 0 := rfl

theorem matchKeyword_eval_bang (ds : List Char) :
    matchKeyword ('$' :: '!' :: ds) =
      if 0 < runLen kwChar ds then some (2 + runLen kwChar ds) else none := rfl

theorem matchKeyword_eval_dollar (c : Char) (cs : List Char) (hc : ¬(c = '!')) :
    matchKeyword ('$' :: c :: cs) =
      if 0 < runLen kwChar (c :: cs) then some (1 + runLen kwChar (c :: cs)) else none := by
  rw [matchKeyword.eq_def]
  split
  · rename_i ds heq
    obtain ⟨h1, h2⟩ := List.cons.inj heq
    exact absurd (List.cons.inj h2).1 hc
  · rename_i cs2 hne heq
    obtain ⟨h1, h2⟩ := List.cons.inj heq
    rw [← h2]
  · rename_i hne1 hne2
    exact absurd rfl (fun heq => hne2 (c :: cs) heq)

theorem matchKeyword_take (s : List Char) (n : Nat) (h : matchKeyword s = some n) :
    matchKeyword (s.take n) = some n := by
  rw [matchKeyword.eq_def] at h
  split at h
  · rename_i ds
    dsimp only at h
    split at h
    · rename_i hr
      simp at h
      subst h
      have ht : ('$' :: '!' :: ds).take (2 + runLen kwChar ds) =
          '$' :: '!' :: ds.take (runLen kwChar ds) := by
        have h2 : 2 + runLen kwChar ds = (runLen kwChar ds + 1) + 1 := by omega
        rw [h2, List.take_succ_cons, List.take_succ_cons]
      rw [ht, matchKeyword_eval_bang, runLen_take]
      have hmin : min (runLen kwChar ds) (runLen kwChar ds) = runLen kwChar ds := by omega
      rw [hmin, if_pos hr]
    · simp at h
  · rename_i cs hne
    dsimp only at h
    split at h
    · rename_i hr
      simp at h
      subst h
      have hcs : ∃ c2 cs2, cs = c2 :: cs2 ∧ kwChar c2 = true := by
        rcases cs with _ | ⟨c2, cs2⟩
        · rw [show runLen kwChar [] = 0 from rfl] at hr
          omega
        · rw [runLen_cons] at hr
          split at hr
          · rename_i hc2
            exact ⟨c2, cs2, rfl, hc2⟩
          · omega
      obtain ⟨c2, cs2, rfl, hc2⟩ := hcs
      have hc2b : ¬(c2 = '!') := kwChar_ne_bang hc2
      have hrl : runLen kwChar (c2 :: cs2) = runLen kwChar cs2 + 1 := by
        rw [runLen_cons, if_pos hc2]
      have ht : ('$' :: c2 :: cs2).take (1 + runLen kwChar (c2 :: cs2)) =
          '$' :: c2 :: cs2.take (runLen kwChar cs2) := by
        have h2 : 1 + runLen kwChar (c2 :: cs2) = (runLen kwChar cs2 + 1) + 1 := by
          omega
        rw [h2, List.take_succ_cons, List.take_succ_cons]
      rw [ht, matchKeyword_eval_dollar c2 _ hc2b]
      have hrt : runLen kwChar (c2 :: cs2.take (runLen kwChar cs2)) =
          runLen kwChar (c2 :: cs2) := by
        rw [runLen_cons, if_pos hc2, runLen_take, hrl]
        omega
      rw [hrt, if_pos hr, hrl]
    · simp at h
  · simp at h

theorem matchKeyword_extend (v r : List Char) (k : Nat) (h : matchKeyword v = some k) :
    ∃ m, matchKeyword (v ++ r) = some m := by
  rw [matchKeyword.eq_def] at h
  split at h
  · rename_i ds
    dsimp only at h
    split at h
    · rename_i hr
      refine ⟨2 + runLen kwChar (ds ++ r), ?_⟩
      rw [List.cons_append, List.cons_append, matchKeyword_eval_bang,
        if_pos (runLen_pos_extend _ _ _ hr)]
    · simp at h
  · rename_i cs hne
    dsimp only at h
    split at h
    · rename_i hr
      have hcs : ∃ c2 cs2, cs = c2 :: cs2 ∧ kwChar c2 = true := by
        rcases cs with _ | ⟨c2, cs2⟩
        · rw [show runLen kwChar [] = 0 from rfl] at hr
          omega
        · rw [runLen_cons] at hr
          split at hr
          · rename_i hc2
            exact ⟨c2, cs2, rfl, hc2⟩
          · omega
      obtain ⟨c2, cs2, rfl, hc2⟩ := hcs
      refine ⟨1 + runLen kwChar ((c2 :: cs2) ++ r), ?_⟩
      rw [List.cons_append, List.cons_append,
        matchKeyword_eval_dollar c2 _ (kwChar_ne_bang hc2), ← List.cons_append,
        if_pos (runLen_pos_extend _ _ _ hr)]
    · simp at h
  · simp at h

theorem matchWord_take (s : List Char) (n : Nat) (h : matchWord s = some n) :
    matchWord (s.take n) = some n := by
  unfold matchWord at h ⊢
  dsimp only at h ⊢
  split at h
  · rename_i hr
    simp at h
    subst h
    rw [runLen_take]
    rw [if_pos (by omega)]
    congr 1
    omega
  · simp at h

theorem matchWord_extend (v r : List Char) (k : Nat) (h : matchWord v = some k) :
    ∃ m, matchWord (v ++ r) = some m := by
  unfold matchWord at h ⊢
  dsimp only at h ⊢
  split at h
  · rename_i hr
    refine ⟨runLen wordChar (v ++ r), ?_⟩
    rw [if_pos (runLen_pos_extend _ _ _ hr)]
  · simp at h

theorem class1_class2 {c : Char} (h : class1 c = true) : class2 c = true := by
  unfold class1 at h
  unfold class2
  simp only [Bool.decide_and, Bool.and_eq_true, decide_eq_true_eq] at h ⊢
  exact h.1

theorem excl9_not_wsOrPlus {c : Char} (h : excl9 c = true) : wsOrPlus c = false := by
  unfold excl9 at h
  simp only [Bool.decide_or, Bool.or_eq_true, decide_eq_true_eq] at h
  rcases h with rfl | rfl | rfl | rfl | rfl | rfl | rfl <;> decide

theorem not_class2_not_wsOrPlus {c : Char} (h : class2 c = false) : wsOrPlus c = false := by
  unfold class2 at h
  simp only [decide_eq_false_iff_not, Decidable.not_not] at h
  exact excl9_not_wsOrPlus h

theorem not_class2_not_class1 {c : Char} (h : class2 c = false) : class1 c = false := by
  by_cases h1 : class1 c = true
  · rw [class1_class2 h1] at h
    simp at h
  · simpa using h1

theorem not_class2_not_digit {c : Char} (h : class2 c = false) : digitC c = false := by
  unfold class2 at h
  simp only [decide_eq_false_iff_not, Decidable.not_not] at h
  unfold excl9 at h
  simp only [Bool.decide_or, Bool.or_eq_true, decide_eq_true_eq] at h
  rcases h with rfl | rfl | rfl | rfl | rfl | rfl | rfl <;> decide

theorem findSplitDown_le (s : List Char) : ∀ j k, findSplitDown s j = some k → k ≤ j := by
  intro j
  induction j with
  | zero =>
    intro k h
    simp [findSplitDown] at h
  | succ j ih =>
    intro k h
    rw [findSplitDown] at h
    rcases hg : s.get? (j + 1) with _ | c <;> rw [hg] at h <;> dsimp only at h
    · have := ih k h
      omega
    · split at h
      · simp at h
        omega
      · have := ih k h
        omega

theorem findSplitDown_ws (s : List Char) :
    ∀ j k, findSplitDown s j = some k → ∃ c, s.get? k = some c ∧ wsOrPlus c = true := by
  intro j
  induction j with
  | zero =>
    intro k h
    simp [findSplitDown] at h
  | succ j ih =>
    intro k h
    rw [findSplitDown] at h
    rcases hg : s.get? (j + 1) with _ | c <;> rw [hg] at h <;> dsimp only at h
    · exact ih k h
    · split at h
      · rename_i hc
        simp at h
        subst h
        exact ⟨c, hg, hc⟩
      · exact ih k h

theorem findSplitDown_take (s : List Char) (n : Nat) :
    ∀ m, m < n → findSplitDown (s.take n) m = findSplitDown s m := by
  intro m
  induction m with
  | zero =>
    intro hm
    rfl
  | succ m ih =>
    intro hm
    rw [findSplitDown, findSplitDown]
    rw [List.get?_take (by omega : m + 1 < n)]
    rcases hg : s.get? (m + 1) with _ | c <;> dsimp only
    · exact ih (by omega)
    · split
      · rfl
      · exact ih (by omega)

theorem findSplitDown_none (s : List Char) (hs : ∀ c ∈ s, wsOrPlus c = false) :
    ∀ j, findSplitDown s j = none := by
  intro j
  induction j with
  | zero => rfl
  | succ j ih =>
    rw [findSplitDown]
    rcases hg : s.get? (j + 1) with _ | c <;> dsimp only
    · exact ih
    · rw [hs c (List.get?_mem hg)]
      exact ih

theorem runLen_lt_mem (p : Char → Bool) (l : List Char) :
    ∀ i, i < runLen p l → ∀ c, l.get? i = some c → p c = true := by
  induction l with
  | nil =>
    intro i hi
    simp [runLen] at hi
  | cons d ds ih =>
    intro i hi c hc
    rw [runLen] at hi
    split at hi
    · rename_i hd
      rcases i with _ | i
      · simp at hc
        subst hc
        exact hd
      · exact ih i (by omega) c (by simpa using hc)
    · omega

theorem getc_lt {l : List Char} {n : Nat} {a : Char} (h : l.get? n = some a) :
    n < l.length := by
  rcases List.get?_eq_some.1 h with ⟨hl, _⟩
  exact hl

theorem iterOnce_eval (s : List Char) (k : Nat)
    (hk : (match s.get? (runLen class1 s) with
      | some c => if wsOrPlus c then some (runLen class1 s)
                  else findSplitDown s (runLen class1 s - 1)
      | none => findSplitDown s (runLen class1 s - 1)) = some k)
    (ha : 0 < runLen class1 s) :
    iterOnce s = some (k + runLen wsOrPlus (s.drop k) +
      runLen class2 (s.drop (k + runLen wsOrPlus (s.drop k)))) := by
  unfold iterOnce
  rw [if_neg (by omega)]
  dsimp only
  rw [hk]

theorem iterOnce_inv (s : List Char) (n : Nat) (h : iterOnce s = some n) :
    0 < runLen class1 s ∧ ∃ k,
      (match s.get? (runLen class1 s) with
        | some c => if wsOrPlus c then some (runLen class1 s)
                    else findSplitDown s (runLen class1 s - 1)
        | none => findSplitDown s (runLen class1 s - 1)) = some k ∧
      n = k + runLen wsOrPlus (s.drop k) +
        runLen class2 (s.drop (k + runLen wsOrPlus (s.drop k))) := by
  unfold iterOnce at h
  by_cases ha : runLen class1 s = 0
  · rw [if_pos ha] at h
    simp at h
  · rw [if_neg ha] at h
    dsimp only at h
    rcases hs : (match s.get? (runLen class1 s) with
        | some c => if wsOrPlus c then some (runLen class1 s)
                    else findSplitDown s (runLen class1 s - 1)
        | none => findSplitDown s (runLen class1 s - 1)) with _ | k <;> rw [hs] at h
    · simp at h
    · dsimp only at h
      simp at h
      exact ⟨by omega, k, hs, h.symm⟩

theorem split_facts (s : List Char) (k : Nat)
    (hk : (match s.get? (runLen class1 s) with
      | some c => if wsOrPlus c then some (runLen class1 s)
                  else findSplitDown s (runLen class1 s - 1)
      | none => findSplitDown s (runLen class1 s - 1)) = some k)
    (ha : 0 < runLen class1 s) :
    1 ≤ k ∧ k ≤ runLen class1 s ∧ ∃ c, s.get? k = some c ∧ wsOrPlus c = true := by
  rcases hg : s.get? (runLen class1 s) with _ | c <;> rw [hg] at hk <;> dsimp only at hk
  · exact ⟨findSplitDown_pos _ _ _ hk,
      le_trans (findSplitDown_le s _ _ hk) (by omega), findSplitDown_ws s _ _ hk⟩
  · split at hk
    · rename_i hc
      simp at hk
      subst hk
      exact ⟨ha, le_refl _, c, hg, hc⟩
    · exact ⟨findSplitDown_pos _ _ _ hk,
        le_trans (findSplitDown_le s _ _ hk) (by omega), findSplitDown_ws s _ _ hk⟩

theorem iterOnce_le (s : List Char) (n : Nat) (h : iterOnce s = some n) : n ≤ s.length := by
  obtain ⟨ha, k, hk, rfl⟩ := iterOnce_inv s n h
  obtain ⟨hk1, hka, c, hgc, hwc⟩ := split_facts s k hk ha
  have hklt : k < s.length := getc_lt hgc
  have hb := runLen_le wsOrPlus (s.drop k)
  have hc := runLen_le class2 (s.drop (k + runLen wsOrPlus (s.drop k)))
  simp only [List.length_drop] at hb hc
  omega

theorem iterOnce_boundary (s : List Char) (n : Nat) (h : iterOnce s = some n)
    (ch : Char) (hg : s.get? n = some ch) : class2 ch = false := by
  obtain ⟨ha, k, hk, rfl⟩ := iterOnce_inv s n h
  have hget : (s.drop (k + runLen wsOrPlus (s.drop k))).get?
      (runLen class2 (s.drop (k + runLen wsOrPlus (s.drop k)))) = some ch := by
    rw [List.get?_drop]
    rw [show k + runLen wsOrPlus (s.drop k) +
      runLen class2 (s.drop (k + runLen wsOrPlus (s.drop k))) =
      (k + runLen wsOrPlus (s.drop k)) +
      runLen class2 (s.drop (k + runLen wsOrPlus (s.drop k))) from by omega] at hg
    exact hg
  exact runLen_boundary _ _ _ hget

theorem iterOnce_a_le (s : List Char) (n : Nat) (h : iterOnce s = some n) :
    runLen class1 s ≤ n := by
  by_contra hlt
  push_neg at hlt
  have hn : n < s.length := lt_of_lt_of_le hlt (runLen_le class1 s)
  rcases hg : s.get? n with _ | ch
  · rw [List.get?_eq_none] at hg
    omega
  · have h1 : class1 ch = true := runLen_lt_mem class1 s n hlt ch hg
    have h2 := iterOnce_boundary s n h ch hg
    rw [class1_class2 h1] at h2
    simp at h2

theorem iterOnce_nosplit (s : List Char) (hs : ∀ c ∈ s, wsOrPlus c = false) :
    iterOnce s = none := by
  unfold iterOnce
  by_cases ha : runLen class1 s = 0
  · rw [if_pos ha]
  · rw [if_neg ha]
    dsimp only
    have hfsd := findSplitDown_none s hs
    rcases hg : s.get? (runLen class1 s) with _ | c <;> dsimp only
    · rw [hfsd]
    · rw [hs c (List.get?_mem hg), if_neg (by simp)]
      rw [hfsd]

theorem iterOnce_take (s : List Char) (n : Nat) (h : iterOnce s = some n) :
    iterOnce (s.take n) = some n := by
  have hle := iterOnce_le s n h
  have hal := iterOnce_a_le s n h
  obtain ⟨ha, k, hk, hn⟩ := iterOnce_inv s n h
  obtain ⟨hk1, hka, cw, hgw, hww⟩ := split_facts s k hk ha
  rcases hgn : s.get? n with _ | ch
  · rw [List.get?_eq_none] at hgn
    rw [List.take_of_length_le (by omega)]
    exact h
  · have hch : class2 ch = false := iterOnce_boundary s n h ch hgn
    have hA : runLen class1 (s.take n) = runLen class1 s := by
      rw [runLen_take]
      omega
    have hkn : k ≤ n := le_trans hka hal
    have hkmatch : (match (s.take n).get? (runLen class1 (s.take n)) with
        | some c => if wsOrPlus c then some (runLen class1 (s.take n))
                    else findSplitDown (s.take n) (runLen class1 (s.take n) - 1)
        | none => findSplitDown (s.take n) (runLen class1 (s.take n) - 1)) = some k := by
      rw [hA]
      have hfsd : findSplitDown (s.take n) (runLen class1 s - 1) =
          findSplitDown s (runLen class1 s - 1) :=
        findSplitDown_take s n _ (by omega)
      rcases Nat.lt_or_ge (runLen class1 s) n with hlt | hge
      · rw [List.get?_take hlt]
        rcases hg : s.get? (runLen class1 s) with _ | c <;> rw [hg] at hk <;>
          dsimp only at hk ⊢
        · rw [hfsd]
          exact hk
        · split
          · rename_i hw
            rw [if_pos hw] at hk
            exact hk
          · rename_i hnw
            rw [if_neg hnw] at hk
            rw [hfsd]
            exact hk
      · have han : runLen class1 s = n := by omega
        have hnone : (s.take n).get? (runLen class1 s) = none := by
          rw [List.get?_eq_none, List.length_take]
          omega
        rw [hnone]
        dsimp only
        rw [hfsd]
        rw [han] at hk
        rw [hgn] at hk
        dsimp only at hk
        rw [if_neg (by rw [not_class2_not_wsOrPlus hch]; simp)] at hk
        rw [← han] at hk
        exact hk
    have hres := iterOnce_eval (s.take n) k hkmatch (by rw [hA]; exact ha)
    have hb : runLen wsOrPlus ((s.take n).drop k) = runLen wsOrPlus (s.drop k) := by
      rw [List.drop_take, runLen_take]
      omega
    rw [hb] at hres
    have hc2 : runLen class2 ((s.take n).drop (k + runLen wsOrPlus (s.drop k))) =
        runLen class2 (s.drop (k + runLen wsOrPlus (s.drop k))) := by
      rw [List.drop_take, runLen_take]
      omega
    rw [hc2] at hres
    rw [hres, hn]

theorem iterOnce_nil : iterOnce [] = none := rfl

theorem drop_get (l : List Char) (m : Nat) (c : Char) (h : l.get? m = some c) :
    l.drop m = c :: l.drop (m + 1) := by
  have hm := getc_lt h
  rw [List.drop_eq_getElem_cons hm]
  rw [List.get?_eq_getElem?] at h
  rw [List.getElem?_eq_getElem hm] at h
  simp at h
  rw [h]

theorem rule9_single (fuel : Nat) (s : List Char) (n : Nat)
    (h : rule9Loop fuel s = some n) : iterOnce s = some n := by
  cases fuel with
  | zero => simp [rule9Loop] at h
  | succ g =>
    rw [rule9Loop] at h
    rcases hi : iterOnce s with _ | m <;> rw [hi] at h <;> dsimp only at h
    · simp at h
    · rcases hl : rule9Loop g (s.drop m) with _ | n2 <;> rw [hl] at h <;> dsimp only at h
      · simp at h
        subst h
        rfl
      · exfalso
        have hnone : iterOnce (s.drop m) = none := by
          rcases hgm : s.get? m with _ | ch
          · have hml : s.length ≤ m := List.get?_eq_none.1 hgm
            rw [List.drop_eq_nil_of_le hml]
            exact iterOnce_nil
          · have hch : class2 ch = false := iterOnce_boundary s m hi ch hgm
            rw [drop_get s m ch hgm]
            unfold iterOnce
            rw [show runLen class1 (ch :: s.drop (m + 1)) = 0 from by
              rw [runLen_cons, if_neg (by rw [not_class2_not_class1 hch]; simp)]]
            rw [if_pos rfl]
        cases g with
        | zero => simp [rule9Loop] at hl
        | succ g2 =>
          rw [rule9Loop, hnone] at hl
          simp at hl

theorem matchWsStr_le (s : List Char) (n : Nat) (h : matchWsStr s = some n) :
    n ≤ s.length := by
  unfold matchWsStr at h
  exact iterOnce_le s n (rule9_single _ _ _ h)

theorem matchWsStr_take (s : List Char) (n : Nat) (h : matchWsStr s = some n) :
    matchWsStr (s.take n) = some n := by
  unfold matchWsStr at h ⊢
  have hi := rule9_single _ _ _ h
  have hle := iterOnce_le s n hi
  have hpos := iterOnce_pos s n hi
  have htake := iterOnce_take s n hi
  have hlen : (s.take n).length = n := by
    rw [List.length_take]
    omega
  rw [hlen]
  cases n with
  | zero => omega
  | succ n2 =>
    rw [rule9Loop, htake]
    dsimp only
    have hdrop : (s.take (n2 + 1)).drop (n2 + 1) = [] :=
      List.drop_eq_nil_of_le (by rw [hlen])
    rw [hdrop, rule9Loop, iterOnce_nil]

theorem matchWsStr_boundary (v rest : List Char)
    (h : matchWsStr (v ++ rest) = some v.length) :
    rest = [] ∨ ∃ r rs, rest = r :: rs ∧ class2 r = false := by
  unfold matchWsStr at h
  have hi := rule9_single _ _ _ h
  rcases rest with _ | ⟨r, rs⟩
  · exact Or.inl rfl
  · refine Or.inr ⟨r, rs, rfl, ?_⟩
    have hg : (v ++ r :: rs).get? v.length = some r := by
      rw [List.get?_append_right (le_refl _)]
      simp
    exact iterOnce_boundary _ _ hi r hg

theorem matchWsStr_none_of_no_ws (v : List Char) (hv : ∀ c ∈ v, wsOrPlus c = false) :
    matchWsStr v = none := by
  unfold matchWsStr
  rw [rule9Loop, iterOnce_nosplit v hv]

theorem matchWsStr_take_eq (s : List Char) (n : Nat) (h : matchWsStr s = some n) :
    ∀ w rest, s = w ++ rest → w.length = n → matchWsStr w = some n := by
  intro w rest hs hw
  have := matchWsStr_take s n h
  rw [hs, ← hw, List.take_left] at this
  rwa [hw] at this

theorem findSplitDown_exists (s : List Char) (j0 : Nat) (c : Char)
    (hg : s.get? j0 = some c) (hw : wsOrPlus c = true) (h1 : 1 ≤ j0) :
    ∀ j, j0 ≤ j → ∃ k, findSplitDown s j = some k := by
  intro j
  induction j with
  | zero => omega
  | succ j ih =>
    intro hj
    rw [findSplitDown]
    rcases Nat.lt_or_ge j0 (j + 1) with hlt | hge
    · obtain ⟨k, hk⟩ := ih (by omega)
      rcases hgj : s.get? (j + 1) with _ | d <;> dsimp only
      · exact ⟨k, hk⟩
      · split
        · exact ⟨j + 1, rfl⟩
        · exact ⟨k, hk⟩
    · have hj0 : j0 = j + 1 := by omega
      subst hj0
      rw [hg]
      dsimp only
      rw [hw]
      exact ⟨j + 1, by simp⟩

theorem iterOnce_extend (v rest : List Char) (n : Nat) (h : iterOnce v = some n) :
    ∃ m, iterOnce (v ++ rest) = some m := by
  obtain ⟨ha, k, hk, hn⟩ := iterOnce_inv v n h
  obtain ⟨hk1, hka, cw, hgw, hww⟩ := split_facts v k hk ha
  have hkl : k < v.length := getc_lt hgw
  have hgw2 : (v ++ rest).get? k = some cw := by
    rw [List.get?_append hkl]
    exact hgw
  have ha2 : runLen class1 v ≤ runLen class1 (v ++ rest) := by
    rw [runLen_append]
    split <;> omega
  have hsplit2 : ∃ k2, (match (v ++ rest).get? (runLen class1 (v ++ rest)) with
      | some c => if wsOrPlus c then some (runLen class1 (v ++ rest))
                  else findSplitDown (v ++ rest) (runLen class1 (v ++ rest) - 1)
      | none => findSplitDown (v ++ rest) (runLen class1 (v ++ rest) - 1)) = some k2 := by
    rcases hg : (v ++ rest).get? (runLen class1 (v ++ rest)) with _ | c
    · dsimp only
      have hkne : k ≠ runLen class1 (v ++ rest) := by
        intro hx
        rw [hx, hg] at hgw2
        simp at hgw2
      obtain ⟨k2, hk2⟩ := findSplitDown_exists (v ++ rest) k cw hgw2 hww hk1
        (runLen class1 (v ++ rest) - 1) (by omega)
      exact ⟨k2, hk2⟩
    · dsimp only
      by_cases hwc : wsOrPlus c = true
      · refine ⟨runLen class1 (v ++ rest), ?_⟩
        rw [if_pos hwc]
      · rw [if_neg hwc]
        have hkne : k ≠ runLen class1 (v ++ rest) := by
          intro hx
          rw [hx, hg] at hgw2
          simp at hgw2
          subst hgw2
          exact hwc hww
        obtain ⟨k2, hk2⟩ := findSplitDown_exists (v ++ rest) k cw hgw2 hww hk1
          (runLen class1 (v ++ rest) - 1) (by omega)
        exact ⟨k2, hk2⟩
  obtain ⟨k2, hk2⟩ := hsplit2
  exact ⟨_, iterOnce_eval (v ++ rest) k2 hk2 (by omega)⟩

theorem matchWsStr_extend (v rest : List Char) (n : Nat) (h : matchWsStr v = some n) :
    ∃ m, matchWsStr (v ++ rest) = some m := by
  unfold matchWsStr at h ⊢
  have hi := rule9_single _ _ _ h
  obtain ⟨m, hm⟩ := iterOnce_extend v rest n hi
  rw [rule9Loop, hm]
  dsimp only
  rcases hl : rule9Loop (v ++ rest).length ((v ++ rest).drop m) with _ | n2 <;> dsimp only
  · exact ⟨m, rfl⟩
  · exact ⟨m + n2, rfl⟩

theorem matchWsRule_take (s : List Char) (n : Nat) (h : matchWsRule s = some n) :
    matchWsRule (s.take n) = some n := by
  unfold matchWsRule at h ⊢
  dsimp only at h ⊢
  split at h
  · rename_i hr
    simp at h
    subst h
    rw [runLen_take]
    rw [if_pos (by omega)]
    congr 1
    omega
  · simp at h

theorem matchWsRule_inv (s : List Char) (n : Nat) (h : matchWsRule s = some n) :
    runLen wsRuleChar s = n ∧ 0 < n := by
  unfold matchWsRule at h
  dsimp only at h
  split at h
  · rename_i hr
    simp at h
    omega
  · simp at h

theorem matchWord_inv (s : List Char) (n : Nat) (h : matchWord s = some n) :
    runLen wordChar s = n ∧ 0 < n := by
  unfold matchWord at h
  dsimp only at h
  split at h
  · rename_i hr
    simp at h
    omega
  · simp at h

theorem matchRegexLit_noneT (v rest : List Char) (h : matchRegexLit (v ++ rest) = none) :
    matchRegexLit v = none := by
  rcases hx : matchRegexLit v with _ | k
  · rfl
  · obtain ⟨m, hm⟩ := matchRegexLit_extend v rest k hx
    rw [h] at hm
    simp at hm

theorem matchStrLit_noneT (v rest : List Char) (h : matchStrLit (v ++ rest) = none) :
    matchStrLit v = none := by
  rcases hx : matchStrLit v with _ | k
  · rfl
  · obtain ⟨m, hm⟩ := matchStrLit_extend v rest k hx
    rw [h] at hm
    simp at hm

theorem matchNumber_noneT (v rest : List Char) (h : matchNumber (v ++ rest) = none)
    (hb : rest = [] ∨ ∃ r rs, rest = r :: rs ∧ digitC r = false) :
    matchNumber v = none := by
  rcases hx : matchNumber v with _ | k
  · rfl
  · obtain ⟨m, hm⟩ := matchNumber_extend v rest k hx hb
    rw [h] at hm
    simp at hm

theorem litLen_noneT (lit v rest : List Char) (h : litLen lit (v ++ rest) = none) :
    litLen lit v = none := by
  rcases hx : litLen lit v with _ | k
  · rfl
  · rw [litLen_extend lit v rest k hx] at h
    simp at h

theorem matchBoolean_noneT (v rest : List Char) (h : matchBoolean (v ++ rest) = none) :
    matchBoolean v = none := by
  rcases hx : matchBoolean v with _ | k
  · rfl
  · obtain ⟨m, hm⟩ := matchBoolean_extend v rest k hx
    rw [h] at hm
    simp at hm

theorem matchNull_noneT (v rest : List Char) (h : matchNull (v ++ rest) = none) :
    matchNull v = none := by
  rcases hx : matchNull v with _ | k
  · rfl
  · obtain ⟨m, hm⟩ := matchNull_extend v rest k hx
    rw [h] at hm
    simp at hm

theorem matchKeyword_noneT (v rest : List Char) (h : matchKeyword (v ++ rest) = none) :
    matchKeyword v = none := by
  rcases hx : matchKeyword v with _ | k
  · rfl
  · obtain ⟨m, hm⟩ := matchKeyword_extend v rest k hx
    rw [h] at hm
    simp at hm

theorem matchWord_noneT (v rest : List Char) (h : matchWord (v ++ rest) = none) :
    matchWord v = none := by
  rcases hx : matchWord v with _ | k
  · rfl
  · obtain ⟨m, hm⟩ := matchWord_extend v rest k hx
    rw [h] at hm
    simp at hm

theorem matchWsStr_noneT (v rest : List Char) (h : matchWsStr (v ++ rest) = none) :
    matchWsStr v = none := by
  rcases hx : matchWsStr v with _ | k
  · rfl
  · obtain ⟨m, hm⟩ := matchWsStr_extend v rest k hx
    rw [h] at hm
    simp at hm

theorem litLen_winner (lit v rest : List Char) (h : litLen lit (v ++ rest) = some v.length) :
    v = lit := by
  obtain ⟨hn, ht⟩ := litLen_eq _ _ _ h
  rw [← hn, List.take_left] at ht
  exact ht

theorem matchBoolean_winner (v rest : List Char)
    (h : matchBoolean (v ++ rest) = some v.length) :
    v = ['t', 'r', 'u', 'e'] ∨ v = ['f', 'a', 'l', 's', 'e'] := by
  unfold matchBoolean at h
  rcases h1 : litLen ['t', 'r', 'u', 'e'] (v ++ rest) with _ | m <;> rw [h1] at h <;>
    dsimp only at h
  · exact Or.inr (litLen_winner _ _ _ h)
  · simp at h
    subst h
    exact Or.inl (litLen_winner _ _ _ h1)

theorem matchWord_winner (v rest : List Char) (h : matchWord (v ++ rest) = some v.length) :
    (∀ c ∈ v, wordChar c = true) ∧
    (rest = [] ∨ ∃ r rs, rest = r :: rs ∧ wordChar r = false) := by
  obtain ⟨hrun, hpos⟩ := matchWord_inv _ _ h
  constructor
  · apply runLen_all
    have : runLen wordChar ((v ++ rest).take v.length) = v.length := by
      rw [runLen_take, hrun]
      omega
    rwa [List.take_left] at this
  · rcases rest with _ | ⟨r, rs⟩
    · exact Or.inl rfl
    · refine Or.inr ⟨r, rs, rfl, ?_⟩
      have hg : (v ++ r :: rs).get? v.length = some r := by
        rw [List.get?_append_right (le_refl _)]
        simp
      rw [← hrun] at hg
      exact runLen_boundary _ _ _ hg

theorem matchWsRule_winner (v rest : List Char)
    (h : matchWsRule (v ++ rest) = some v.length) :
    ∀ c ∈ v, wsRuleChar c = true := by
  obtain ⟨hrun, hpos⟩ := matchWsRule_inv _ _ h
  apply runLen_all
  have h2 : runLen wsRuleChar ((v ++ rest).take v.length) = v.length := by
    rw [runLen_take, hrun]
    omega
  rwa [List.take_left] at h2

theorem matchKeyword_head (s : List Char) (n : Nat) (h : matchKeyword s = some n) :
    ∃ t, s = '$' :: t := by
  rw [matchKeyword.eq_def] at h
  split at h
  · rename_i ds
    exact ⟨'!' :: ds, rfl⟩
  · rename_i cs hne
    exact ⟨cs, rfl⟩
  · simp at h

theorem digit_wordChar {c : Char} (h : digitC c = true) : wordChar c = true := by
  unfold wordChar kwChar
  simp only [Bool.decide_or, Bool.or_eq_true, decide_eq_true_eq]
  left
  right
  right
  left
  exact h

theorem wsRuleChar_not_digit {c : Char} (h : wsRuleChar c = true) :
    digitC c = false ∧ ¬(c = '-') := by
  unfold wsRuleChar at h
  simp only [Bool.decide_or, Bool.or_eq_true, decide_eq_true_eq] at h
  rcases h with rfl | rfl <;> exact ⟨by decide, by decide⟩

theorem litLen_le (lit s : List Char) (n : Nat) (h : litLen lit s = some n) :
    n ≤ s.length := by
  obtain ⟨rfl, ht⟩ := litLen_eq _ _ _ h
  have h2 := congrArg List.length ht
  rw [List.length_take] at h2
  omega

theorem matchRegexLit_le (s : List Char) (n : Nat) (h : matchRegexLit s = some n) :
    n ≤ s.length := by
  rcases s with _ | ⟨c, cs⟩
  · simp [matchRegexLit] at h
  · dsimp only [matchRegexLit] at h
    split at h
    · obtain ⟨m, hm, hn⟩ := Option.map_eq_some'.1 h
      have h1 := escTail_le _ cs m hm
      have h2 := runLen_le flagChar (cs.drop m)
      rw [List.length_drop] at h2
      simp only [List.length_cons]
      omega
    · simp at h

theorem matchStrLit_le (s : List Char) (n : Nat) (h : matchStrLit s = some n) :
    n ≤ s.length := by
  rcases s with _ | ⟨c, cs⟩
  · simp [matchStrLit] at h
  · dsimp only [matchStrLit] at h
    split at h
    · obtain ⟨m, hm, hn⟩ := Option.map_eq_some'.1 h
      have h1 := escTail_le _ cs m hm
      simp only [List.length_cons]
      omega
    · simp at h

theorem matchNumber_le (s : List Char) (n : Nat) (h : matchNumber s = some n) :
    n ≤ s.length := by
  rcases s with _ | ⟨c, cs⟩
  · simp [matchNumber, numCore] at h
  · by_cases hc : c = '-'
    · subst hc
      have he : matchNumber ('-' :: cs) = (numCore cs).map (fun x => x + 1) := rfl
      rw [he] at h
      obtain ⟨m, hm, hn⟩ := Option.map_eq_some'.1 h
      have := numCore_le cs m hm
      simp only [List.length_cons]
      omega
    · rw [matchNumber_cons_ne c cs hc] at h
      exact numCore_le _ _ h

theorem matchBoolean_le (s : List Char) (n : Nat) (h : matchBoolean s = some n) :
    n ≤ s.length := by
  unfold matchBoolean at h
  rcases h1 : litLen ['t', 'r', 'u', 'e'] s with _ | m <;> rw [h1] at h <;> dsimp only at h
  · exact litLen_le _ _ _ h
  · simp at h
    subst h
    exact litLen_le _ _ _ h1

theorem matchKeyword_le (s : List Char) (n : Nat) (h : matchKeyword s = some n) :
    n ≤ s.length := by
  rw [matchKeyword.eq_def] at h
  split at h
  · rename_i ds
    dsimp only at h
    split at h
    · simp at h
      have := runLen_le kwChar ds
      simp only [List.length_cons]
      omega
    · simp at h
  · rename_i cs hne
    dsimp only at h
    split at h
    · simp at h
      have := runLen_le kwChar cs
      simp only [List.length_cons]
      omega
    · simp at h
  · simp at h

theorem matchWord_le (s : List Char) (n : Nat) (h : matchWord s = some n) :
    n ≤ s.length := by
  obtain ⟨hr, _⟩ := matchWord_inv s n h
  rw [← hr]
  exact runLen_le _ _

theorem matchWsRule_le (s : List Char) (n : Nat) (h : matchWsRule s = some n) :
    n ≤ s.length := by
  obtain ⟨hr, _⟩ := matchWsRule_inv s n h
  rw [← hr]
  exact runLen_le _ _

theorem rules_le : ∀ mt ∈ rules, ∀ s n, mt.1 s = some n → n ≤ s.length := by
  intro mt hmt s n h
  simp only [rules, List.mem_cons, List.not_mem_nil, or_false] at hmt
  rcases hmt with rfl|rfl|rfl|rfl|rfl|rfl|rfl|rfl|rfl|rfl|rfl|rfl|rfl|rfl|rfl|rfl|rfl|rfl|rfl|rfl|rfl|rfl|rfl|rfl <;>
    dsimp only at h
  · exact matchRegexLit_le s n h
  · exact matchStrLit_le s n h
  · exact matchNumber_le s n h
  · exact matchBoolean_le s n h
  · exact litLen_le _ s n h
  · exact litLen_le _ s n h
  · exact litLen_le _ s n h
  · exact litLen_le _ s n h
  · exact litLen_le _ s n h
  · exact litLen_le _ s n h
  · exact litLen_le _ s n h
  · exact litLen_le _ s n h
  · exact litLen_le _ s n h
  · exact litLen_le _ s n h
  · exact litLen_le _ s n h
  · exact litLen_le _ s n h
  · exact litLen_le _ s n h
  · exact litLen_le _ s n h
  · exact litLen_le _ s n h
  · exact litLen_le _ s n h
  · exact matchKeyword_le s n h
  · exact matchWsStr_le s n h
  · exact matchWord_le s n h
  · exact matchWsRule_le s n h

theorem firstMatch_le (rs : List ((List Char → Option Nat) × TokenType))
    (hle : ∀ mt ∈ rs, ∀ s n, mt.1 s = some n → n ≤ s.length)
    (s : List Char) (ty : TokenType) (n : Nat)
    (h : firstMatch rs s = some (ty, n)) : n ≤ s.length := by
  induction rs with
  | nil => simp [firstMatch] at h
  | cons mt rest ih =>
    rw [firstMatch] at h
    rcases mt with ⟨m, t⟩
    dsimp only at h
    rcases hm : m s with _ | k <;> rw [hm] at h <;> dsimp only at h
    · exact ih (fun x hx => hle x (List.mem_cons_of_mem _ hx)) h
    · simp at h
      rw [← h.2]
      exact hle ⟨m, t⟩ (by simp) s k hm

theorem firstMatch_cons (m : List Char → Option Nat) (t : TokenType)
    (rs : List ((List Char → Option Nat) × TokenType)) (s : List Char) :
    firstMatch ((m, t) :: rs) s =
      match m s with
      | some n => some (t, n)
      | none => firstMatch rs s := rfl

theorem firstMatch_skip (m : List Char → Option Nat) (t : TokenType)
    (rs : List ((List Char → Option Nat) × TokenType)) (s : List Char)
    (hm : m s = none) : firstMatch ((m, t) :: rs) s = firstMatch rs s := by
  rw [firstMatch_cons, hm]

theorem firstMatch_hit (m : List Char → Option Nat) (t : TokenType)
    (rs : List ((List Char → Option Nat) × TokenType)) (s : List Char) (n : Nat)
    (hm : m s = some n) : firstMatch ((m, t) :: rs) s = some (t, n) := by
  rw [firstMatch_cons, hm]

/-- If a rule of the table wins on `v ++ rest` with a match of exactly the
length of `v`, the same rule wins on `v` alone with the same length. -/
theorem firstMatch_restrict (v rest : List Char) (ty : TokenType)
    (hv : v ≠ [])
    (h : firstMatch rules (v ++ rest) = some (ty, v.length)) :
    firstMatch rules v = some (ty, v.length) := by
  unfold rules at h ⊢
  rcases hM1 : matchRegexLit (v ++ rest) with _ | n1
  · rw [firstMatch_skip _ _ _ _ hM1] at h
    rcases hM2 : matchStrLit (v ++ rest) with _ | n2
    · rw [firstMatch_skip _ _ _ _ hM2] at h
      rcases hM3 : matchNumber (v ++ rest) with _ | n3
      · rw [firstMatch_skip _ _ _ _ hM3] at h
        rcases hM4 : matchBoolean (v ++ rest) with _ | n4
        · rw [firstMatch_skip _ _ _ _ hM4] at h
          rcases hM5 : matchNull (v ++ rest) with _ | n5
          · rw [firstMatch_skip _ _ _ _ hM5] at h
            rcases hM6 : litLen ['!', '='] (v ++ rest) with _ | n6
            · rw [firstMatch_skip _ _ _ _ hM6] at h
              rcases hM7 : litLen ['>', '='] (v ++ rest) with _ | n7
              · rw [firstMatch_skip _ _ _ _ hM7] at h
                rcases hM8 : litLen ['<', '='] (v ++ rest) with _ | n8
                · rw [firstMatch_skip _ _ _ _ hM8] at h
                  rcases hM9 : litLen ['~', '='] (v ++ rest) with _ | n9
                  · rw [firstMatch_skip _ _ _ _ hM9] at h
                    rcases hM10 : litLen ['='] (v ++ rest) with _ | n10
                    · rw [firstMatch_skip _ _ _ _ hM10] at h
                      rcases hM11 : litLen ['>'] (v ++ rest) with _ | n11
                      · rw [firstMatch_skip _ _ _ _ hM11] at h
                        rcases hM12 : litLen ['<'] (v ++ rest) with _ | n12
                        · rw [firstMatch_skip _ _ _ _ hM12] at h
                          rcases hM13 : litLen ['^'] (v ++ rest) with _ | n13
                          · rw [firstMatch_skip _ _ _ _ hM13] at h
                            rcases hM14 : litLen ['&'] (v ++ rest) with _ | n14
                            · rw [firstMatch_skip _ _ _ _ hM14] at h
                              rcases hM15 : litLen ['('] (v ++ rest) with _ | n15
                              · rw [firstMatch_skip _ _ _ _ hM15] at h
                                rcases hM16 : litLen [')'] (v ++ rest) with _ | n16
                                · rw [firstMatch_skip _ _ _ _ hM16] at h
                                  rcases hM17 : litLen [lbraceC] (v ++ rest) with _ | n17
                                  · rw [firstMatch_skip _ _ _ _ hM17] at h
                                    rcases hM18 : litLen [rbraceC] (v ++ rest) with _ | n18
                                    · rw [firstMatch_skip _ _ _ _ hM18] at h
                                      rcases hM19 : litLen [','] (v ++ rest) with _ | n19
                                      · rw [firstMatch_skip _ _ _ _ hM19] at h
                                        rcases hM20 : litLen ['!'] (v ++ rest) with _ | n20
                                        · rw [firstMatch_skip _ _ _ _ hM20] at h
                                          rcases hM21 : matchKeyword (v ++ rest) with _ | n21
                                          · rw [firstMatch_skip _ _ _ _ hM21] at h
                                            rcases hM22 : matchWsStr (v ++ rest) with _ | n22
                                            · rw [firstMatch_skip _ _ _ _ hM22] at h
                                              rcases hM23 : matchWord (v ++ rest) with _ | n23
                                              · rw [firstMatch_skip _ _ _ _ hM23] at h
                                                rcases hM24 : matchWsRule (v ++ rest) with _ | n24
                                                · rw [firstMatch_skip _ _ _ _ hM24] at h
                                                  simp [firstMatch] at h
                                                · rw [firstMatch_hit _ _ _ _ _ hM24] at h
                                                  rw [Option.some.injEq, Prod.mk.injEq] at h
                                                  obtain ⟨hty, hn⟩ := h
                                                  subst hn
                                                  have hall := matchWsRule_winner v rest hM24
                                                  have hvh : ∃ c cs, v = c :: cs ∧ wsRuleChar c = true := by
                                                    rcases v with _ | ⟨c, cs⟩
                                                    · exact absurd rfl hv
                                                    · exact ⟨c, cs, rfl, hall c (by simp)⟩
                                                  obtain ⟨c0, cs0, rfl, hc0⟩ := hvh
                                                  obtain ⟨hnd, hnm⟩ := wsRuleChar_not_digit hc0
                                                  have hWv : matchWsRule (c0 :: cs0) = some (c0 :: cs0).length := by
                                                    have ht := matchWsRule_take ((c0 :: cs0) ++ rest) (c0 :: cs0).length hM24
                                                    rwa [List.take_left] at ht
                                                  have hF1 := matchRegexLit_noneT _ rest hM1
                                                  have hF2 := matchStrLit_noneT _ rest hM2
                                                  have hF3 : matchNumber (c0 :: cs0) = none :=
                                                    matchNumber_head_none c0 cs0 hnd hnm
                                                  have hF4 := matchBoolean_noneT _ rest hM4
                                                  have hF5 := matchNull_noneT _ rest hM5
                                                  have hF6 := litLen_noneT _ _ rest hM6
                                                  have hF7 := litLen_noneT _ _ rest hM7
                                                  have hF8 := litLen_noneT _ _ rest hM8
                                                  have hF9 := litLen_noneT _ _ rest hM9
                                                  have hF10 := litLen_noneT _ _ rest hM10
                                                  have hF11 := litLen_noneT _ _ rest hM11
                                                  have hF12 := litLen_noneT _ _ rest hM12
                                                  have hF13 := litLen_noneT _ _ rest hM13
                                                  have hF14 := litLen_noneT _ _ rest hM14
                                                  have hF15 := litLen_noneT _ _ rest hM15
                                                  have hF16 := litLen_noneT _ _ rest hM16
                                                  have hF17 := litLen_noneT _ _ rest hM17
                                                  have hF18 := litLen_noneT _ _ rest hM18
                                                  have hF19 := litLen_noneT _ _ rest hM19
                                                  have hF20 := litLen_noneT _ _ rest hM20
                                                  have hF21 := matchKeyword_noneT _ rest hM21
                                                  have hF22 := matchWsStr_noneT _ rest hM22
                                                  have hF23 := matchWord_noneT _ rest hM23
                                                  rw [firstMatch_skip _ _ _ _ hF1,
                                                    firstMatch_skip _ _ _ _ hF2,
                                                    firstMatch_skip _ _ _ _ hF3,
                                                    firstMatch_skip _ _ _ _ hF4,
                                                    firstMatch_skip _ _ _ _ hF5,
                                                    firstMatch_skip _ _ _ _ hF6,
                                                    firstMatch_skip _ _ _ _ hF7,
                                                    firstMatch_skip _ _ _ _ hF8,
                                                    firstMatch_skip _ _ _ _ hF9,
                                                    firstMatch_skip _ _ _ _ hF10,
                                                    firstMatch_skip _ _ _ _ hF11,
                                                    firstMatch_skip _ _ _ _ hF12,
                                                    firstMatch_skip _ _ _ _ hF13,
                                                    firstMatch_skip _ _ _ _ hF14,
                                                    firstMatch_skip _ _ _ _ hF15,
                                                    firstMatch_skip _ _ _ _ hF16,
                                                    firstMatch_skip _ _ _ _ hF17,
                                                    firstMatch_skip _ _ _ _ hF18,
                                                    firstMatch_skip _ _ _ _ hF19,
                                                    firstMatch_skip _ _ _ _ hF20,
                                                    firstMatch_skip _ _ _ _ hF21,
                                                    firstMatch_skip _ _ _ _ hF22,
                                                    firstMatch_skip _ _ _ _ hF23,
                                                    firstMatch_hit _ _ _ _ _ hWv,
                                                    hty]
                                              · rw [firstMatch_hit _ _ _ _ _ hM23] at h
                                                rw [Option.some.injEq, Prod.mk.injEq] at h
                                                obtain ⟨hty, hn⟩ := h
                                                subst hn
                                                obtain ⟨hall, hbw⟩ := matchWord_winner v rest hM23
                                                have hbd : rest = [] ∨ ∃ r rs, rest = r :: rs ∧ digitC r = false := by
                                                  rcases hbw with hb | ⟨r, rs, hb, hr⟩
                                                  · exact Or.inl hb
                                                  · refine Or.inr ⟨r, rs, hb, ?_⟩
                                                    by_cases hd : digitC r = true
                                                    · rw [digit_wordChar hd] at hr
                                                      simp at hr
                                                    · simpa using hd
                                                have hWv : matchWord v = some (v : List Char).length := by
                                                  have ht := matchWord_take ((v : List Char) ++ rest) (v : List Char).length hM23
                                                  rwa [List.take_left] at ht
                                                have hF1 := matchRegexLit_noneT v rest hM1
                                                have hF2 := matchStrLit_noneT v rest hM2
                                                have hF3 := matchNumber_noneT v rest hM3 hbd
                                                have hF4 := matchBoolean_noneT v rest hM4
                                                have hF5 := matchNull_noneT v rest hM5
                                                have hF6 := litLen_noneT _ v rest hM6
                                                have hF7 := litLen_noneT _ v rest hM7
                                                have hF8 := litLen_noneT _ v rest hM8
                                                have hF9 := litLen_noneT _ v rest hM9
                                                have hF10 := litLen_noneT _ v rest hM10
                                                have hF11 := litLen_noneT _ v rest hM11
                                                have hF12 := litLen_noneT _ v rest hM12
                                                have hF13 := litLen_noneT _ v rest hM13
                                                have hF14 := litLen_noneT _ v rest hM14
                                                have hF15 := litLen_noneT _ v rest hM15
                                                have hF16 := litLen_noneT _ v rest hM16
                                                have hF17 := litLen_noneT _ v rest hM17
                                                have hF18 := litLen_noneT _ v rest hM18
                                                have hF19 := litLen_noneT _ v rest hM19
                                                have hF20 := litLen_noneT _ v rest hM20
                                                have hF21 := matchKeyword_noneT v rest hM21
                                                have hF22 := matchWsStr_noneT v rest hM22
                                                rw [firstMatch_skip _ _ _ _ hF1,
                                                  firstMatch_skip _ _ _ _ hF2,
                                                  firstMatch_skip _ _ _ _ hF3,
                                                  firstMatch_skip _ _ _ _ hF4,
                                                  firstMatch_skip _ _ _ _ hF5,
                                                  firstMatch_skip _ _ _ _ hF6,
                                                  firstMatch_skip _ _ _ _ hF7,
                                                  firstMatch_skip _ _ _ _ hF8,
                                                  firstMatch_skip _ _ _ _ hF9,
                                                  firstMatch_skip _ _ _ _ hF10,
                                                  firstMatch_skip _ _ _ _ hF11,
                                                  firstMatch_skip _ _ _ _ hF12,
                                                  firstMatch_skip _ _ _ _ hF13,
                                                  firstMatch_skip _ _ _ _ hF14,
                                                  firstMatch_skip _ _ _ _ hF15,
                                                  firstMatch_skip _ _ _ _ hF16,
                                                  firstMatch_skip _ _ _ _ hF17,
                                                  firstMatch_skip _ _ _ _ hF18,
                                                  firstMatch_skip _ _ _ _ hF19,
                                                  firstMatch_skip _ _ _ _ hF20,
                                                  firstMatch_skip _ _ _ _ hF21,
                                                  firstMatch_skip _ _ _ _ hF22,
                                                  firstMatch_hit _ _ _ _ _ hWv,
                                                  hty]
                                            · rw [firstMatch_hit _ _ _ _ _ hM22] at h
                                              rw [Option.some.injEq, Prod.mk.injEq] at h
                                              obtain ⟨hty, hn⟩ := h
                                              subst hn
                                              have hbd : rest = [] ∨ ∃ r rs, rest = r :: rs ∧ digitC r = false := by
                                                rcases matchWsStr_boundary v rest hM22 with hb | ⟨r, rs, hb, hr⟩
                                                · exact Or.inl hb
                                                · exact Or.inr ⟨r, rs, hb, not_class2_not_digit hr⟩
                                              have hWv : matchWsStr v = some (v : List Char).length := by
                                                have ht := matchWsStr_take ((v : List Char) ++ rest) (v : List Char).length hM22
                                                rwa [List.take_left] at ht
                                              have hF1 := matchRegexLit_noneT v rest hM1
                                              have hF2 := matchStrLit_noneT v rest hM2
                                              have hF3 := matchNumber_noneT v rest hM3 hbd
                                              have hF4 := matchBoolean_noneT v rest hM4
                                              have hF5 := matchNull_noneT v rest hM5
                                              have hF6 := litLen_noneT _ v rest hM6
                                              have hF7 := litLen_noneT _ v rest hM7
                                              have hF8 := litLen_noneT _ v rest hM8
                                              have hF9 := litLen_noneT _ v rest hM9
                                              have hF10 := litLen_noneT _ v rest hM10
                                              have hF11 := litLen_noneT _ v rest hM11
                                              have hF12 := litLen_noneT _ v rest hM12
                                              have hF13 := litLen_noneT _ v rest hM13
                                              have hF14 := litLen_noneT _ v rest hM14
                                              have hF15 := litLen_noneT _ v rest hM15
                                              have hF16 := litLen_noneT _ v rest hM16
                                              have hF17 := litLen_noneT _ v rest hM17
                                              have hF18 := litLen_noneT _ v rest hM18
                                              have hF19 := litLen_noneT _ v rest hM19
                                              have hF20 := litLen_noneT _ v rest hM20
                                              have hF21 := matchKeyword_noneT v rest hM21
                                              rw [firstMatch_skip _ _ _ _ hF1,
                                                firstMatch_skip _ _ _ _ hF2,
                                                firstMatch_skip _ _ _ _ hF3,
                                                firstMatch_skip _ _ _ _ hF4,
                                                firstMatch_skip _ _ _ _ hF5,
                                                firstMatch_skip _ _ _ _ hF6,
                                                firstMatch_skip _ _ _ _ hF7,
                                                firstMatch_skip _ _ _ _ hF8,
                                                firstMatch_skip _ _ _ _ hF9,
                                                firstMatch_skip _ _ _ _ hF10,
                                                firstMatch_skip _ _ _ _ hF11,
                                                firstMatch_skip _ _ _ _ hF12,
                                                firstMatch_skip _ _ _ _ hF13,
                                                firstMatch_skip _ _ _ _ hF14,
                                                firstMatch_skip _ _ _ _ hF15,
                                                firstMatch_skip _ _ _ _ hF16,
                                                firstMatch_skip _ _ _ _ hF17,
                                                firstMatch_skip _ _ _ _ hF18,
                                                firstMatch_skip _ _ _ _ hF19,
                                                firstMatch_skip _ _ _ _ hF20,
                                                firstMatch_skip _ _ _ _ hF21,
                                                firstMatch_hit _ _ _ _ _ hWv,
                                                hty]
                                          · rw [firstMatch_hit _ _ _ _ _ hM21] at h
                                            rw [Option.some.injEq, Prod.mk.injEq] at h
                                            obtain ⟨hty, hn⟩ := h
                                            subst hn
                                            obtain ⟨t0, ht0⟩ := matchKeyword_head (v ++ rest) v.length hM21
                                            have hvh : ∃ t1, v = '$' :: t1 := by
                                              rcases v with _ | ⟨c, cs⟩
                                              · exact absurd rfl hv
                                              · rw [List.cons_append] at ht0
                                                exact ⟨cs, by rw [(List.cons.inj ht0).1]⟩
                                            obtain ⟨t1, rfl⟩ := hvh
                                            have hWv : matchKeyword ('$' :: t1) = some ('$' :: t1).length := by
                                              have ht := matchKeyword_take (('$' :: t1) ++ rest) ('$' :: t1).length hM21
                                              rwa [List.take_left] at ht
                                            have hF1 := matchRegexLit_noneT _ rest hM1
                                            have hF2 := matchStrLit_noneT _ rest hM2
                                            have hF3 : matchNumber ('$' :: t1) = none :=
                                              matchNumber_head_none '$' t1 (by decide) (by decide)
                                            have hF4 := matchBoolean_noneT _ rest hM4
                                            have hF5 := matchNull_noneT _ rest hM5
                                            have hF6 := litLen_noneT _ _ rest hM6
                                            have hF7 := litLen_noneT _ _ rest hM7
                                            have hF8 := litLen_noneT _ _ rest hM8
                                            have hF9 := litLen_noneT _ _ rest hM9
                                            have hF10 := litLen_noneT _ _ rest hM10
                                            have hF11 := litLen_noneT _ _ rest hM11
                                            have hF12 := litLen_noneT _ _ rest hM12
                                            have hF13 := litLen_noneT _ _ rest hM13
                                            have hF14 := litLen_noneT _ _ rest hM14
                                            have hF15 := litLen_noneT _ _ rest hM15
                                            have hF16 := litLen_noneT _ _ rest hM16
                                            have hF17 := litLen_noneT _ _ rest hM17
                                            have hF18 := litLen_noneT _ _ rest hM18
                                            have hF19 := litLen_noneT _ _ rest hM19
                                            have hF20 := litLen_noneT _ _ rest hM20
                                            rw [firstMatch_skip _ _ _ _ hF1,
                                              firstMatch_skip _ _ _ _ hF2,
                                              firstMatch_skip _ _ _ _ hF3,
                                              firstMatch_skip _ _ _ _ hF4,
                                              firstMatch_skip _ _ _ _ hF5,
                                              firstMatch_skip _ _ _ _ hF6,
                                              firstMatch_skip _ _ _ _ hF7,
                                              firstMatch_skip _ _ _ _ hF8,
                                              firstMatch_skip _ _ _ _ hF9,
                                              firstMatch_skip _ _ _ _ hF10,
                                              firstMatch_skip _ _ _ _ hF11,
                                              firstMatch_skip _ _ _ _ hF12,
                                              firstMatch_skip _ _ _ _ hF13,
                                              firstMatch_skip _ _ _ _ hF14,
                                              firstMatch_skip _ _ _ _ hF15,
                                              firstMatch_skip _ _ _ _ hF16,
                                              firstMatch_skip _ _ _ _ hF17,
                                              firstMatch_skip _ _ _ _ hF18,
                                              firstMatch_skip _ _ _ _ hF19,
                                              firstMatch_skip _ _ _ _ hF20,
                                              firstMatch_hit _ _ _ _ _ hWv,
                                              hty]
                                        · rw [firstMatch_hit _ _ _ _ _ hM20] at h
                                          rw [Option.some.injEq, Prod.mk.injEq] at h
                                          obtain ⟨hty, hn⟩ := h
                                          subst hn
                                          obtain rfl := litLen_winner _ v rest hM20
                                          rw [← hty]
                                          decide
                                      · rw [firstMatch_hit _ _ _ _ _ hM19] at h
                                        rw [Option.some.injEq, Prod.mk.injEq] at h
                                        obtain ⟨hty, hn⟩ := h
                                        subst hn
                                        obtain rfl := litLen_winner _ v rest hM19
                                        rw [← hty]
                                        decide
                                    · rw [firstMatch_hit _ _ _ _ _ hM18] at h
                                      rw [Option.some.injEq, Prod.mk.injEq] at h
                                      obtain ⟨hty, hn⟩ := h
                                      subst hn
                                      obtain rfl := litLen_winner _ v rest hM18
                                      rw [← hty]
                                      decide
                                  · rw [firstMatch_hit _ _ _ _ _ hM17] at h
                                    rw [Option.some.injEq, Prod.mk.injEq] at h
                                    obtain ⟨hty, hn⟩ := h
                                    subst hn
                                    obtain rfl := litLen_winner _ v rest hM17
                                    rw [← hty]
                                    decide
                                · rw [firstMatch_hit _ _ _ _ _ hM16] at h
                                  rw [Option.some.injEq, Prod.mk.injEq] at h
                                  obtain ⟨hty, hn⟩ := h
                                  subst hn
                                  obtain rfl := litLen_winner _ v rest hM16
                                  rw [← hty]
                                  decide
                              · rw [firstMatch_hit _ _ _ _ _ hM15] at h
                                rw [Option.some.injEq, Prod.mk.injEq] at h
                                obtain ⟨hty, hn⟩ := h
                                subst hn
                                obtain rfl := litLen_winner _ v rest hM15
                                rw [← hty]
                                decide
                            · rw [firstMatch_hit _ _ _ _ _ hM14] at h
                              rw [Option.some.injEq, Prod.mk.injEq] at h
                              obtain ⟨hty, hn⟩ := h
                              subst hn
                              obtain rfl := litLen_winner _ v rest hM14
                              rw [← hty]
                              decide
                          · rw [firstMatch_hit _ _ _ _ _ hM13] at h
                            rw [Option.some.injEq, Prod.mk.injEq] at h
                            obtain ⟨hty, hn⟩ := h
                            subst hn
                            obtain rfl := litLen_winner _ v rest hM13
                            rw [← hty]
                            decide
                        · rw [firstMatch_hit _ _ _ _ _ hM12] at h
                          rw [Option.some.injEq, Prod.mk.injEq] at h
                          obtain ⟨hty, hn⟩ := h
                          subst hn
                          obtain rfl := litLen_winner _ v rest hM12
                          rw [← hty]
                          decide
                      · rw [firstMatch_hit _ _ _ _ _ hM11] at h
                        rw [Option.some.injEq, Prod.mk.injEq] at h
                        obtain ⟨hty, hn⟩ := h
                        subst hn
                        obtain rfl := litLen_winner _ v rest hM11
                        rw [← hty]
                        decide
                    · rw [firstMatch_hit _ _ _ _ _ hM10] at h
                      rw [Option.some.injEq, Prod.mk.injEq] at h
                      obtain ⟨hty, hn⟩ := h
                      subst hn
                      obtain rfl := litLen_winner _ v rest hM10
                      rw [← hty]
                      decide
                  · rw [firstMatch_hit _ _ _ _ _ hM9] at h
                    rw [Option.some.injEq, Prod.mk.injEq] at h
                    obtain ⟨hty, hn⟩ := h
                    subst hn
                    obtain rfl := litLen_winner _ v rest hM9
                    rw [← hty]
                    decide
                · rw [firstMatch_hit _ _ _ _ _ hM8] at h
                  rw [Option.some.injEq, Prod.mk.injEq] at h
                  obtain ⟨hty, hn⟩ := h
                  subst hn
                  obtain rfl := litLen_winner _ v rest hM8
                  rw [← hty]
                  decide
              · rw [firstMatch_hit _ _ _ _ _ hM7] at h
                rw [Option.some.injEq, Prod.mk.injEq] at h
                obtain ⟨hty, hn⟩ := h
                subst hn
                obtain rfl := litLen_winner _ v rest hM7
                rw [← hty]
                decide
            · rw [firstMatch_hit _ _ _ _ _ hM6] at h
              rw [Option.some.injEq, Prod.mk.injEq] at h
              obtain ⟨hty, hn⟩ := h
              subst hn
              obtain rfl := litLen_winner _ v rest hM6
              rw [← hty]
              decide
          · rw [firstMatch_hit _ _ _ _ _ hM5] at h
            rw [Option.some.injEq, Prod.mk.injEq] at h
            obtain ⟨hty, hn⟩ := h
            subst hn
            have hM5b : litLen ['n', 'u', 'l', 'l'] (v ++ rest) = some v.length := hM5
            obtain rfl := litLen_winner _ v rest hM5b
            rw [← hty]
            decide
        · rw [firstMatch_hit _ _ _ _ _ hM4] at h
          rw [Option.some.injEq, Prod.mk.injEq] at h
          obtain ⟨hty, hn⟩ := h
          subst hn
          rcases matchBoolean_winner v rest hM4 with rfl | rfl <;> rw [← hty] <;> decide
      · rw [firstMatch_hit _ _ _ _ _ hM3] at h
        rw [Option.some.injEq, Prod.mk.injEq] at h
        obtain ⟨hty, hn⟩ := h
        subst hn
        have hF1 := matchRegexLit_noneT v rest hM1
        have hF2 := matchStrLit_noneT v rest hM2
        have hWv : matchNumber v = some (v : List Char).length := by
          have ht := matchNumber_take ((v : List Char) ++ rest) (v : List Char).length hM3
          rwa [List.take_left] at ht
        rw [firstMatch_skip _ _ _ _ hF1,
          firstMatch_skip _ _ _ _ hF2,
          firstMatch_hit _ _ _ _ _ hWv,
          hty]
    · rw [firstMatch_hit _ _ _ _ _ hM2] at h
      rw [Option.some.injEq, Prod.mk.injEq] at h
      obtain ⟨hty, hn⟩ := h
      subst hn
      have hF1 := matchRegexLit_noneT v rest hM1
      have hWv : matchStrLit v = some (v : List Char).length := by
        have ht := matchStrLit_take ((v : List Char) ++ rest) (v : List Char).length hM2
        rwa [List.take_left] at ht
      rw [firstMatch_skip _ _ _ _ hF1,
        firstMatch_hit _ _ _ _ _ hWv,
        hty]
  · rw [firstMatch_hit _ _ _ _ _ hM1] at h
    rw [Option.some.injEq, Prod.mk.injEq] at h
    obtain ⟨hty, hn⟩ := h
    subst hn
    have hWv : matchRegexLit v = some (v : List Char).length := by
      have ht := matchRegexLit_take ((v : List Char) ++ rest) (v : List Char).length hM1
      rwa [List.take_left] at ht
    rw [firstMatch_hit _ _ _ _ _ hWv, hty]

/-- Every token the lexer emits was produced by a winning rule: its text is
the exact matched substring, its type is the rule's type, it is nonempty,
it is never a whitespace token, and the rule match consumed exactly the
token text against some continuation of the input. -/
theorem lexGo_emit : ∀ fuel cs idx ts, lexGo fuel cs idx = .ok ts →
    ∀ t ∈ ts, t.type ≠ .ws ∧ t.value.data ≠ [] ∧
      ∃ s2, firstMatch rules (t.value.data ++ s2) = some (t.type, t.value.data.length) := by
  intro fuel
  induction fuel with
  | zero =>
    intro cs idx ts h
    simp [lexGo] at h
  | succ fuel ih =>
    intro cs idx ts h
    rcases cs with _ | ⟨c, cs⟩
    · simp [lexGo] at h
      subst h
      simp
    · rw [lexGo] at h
      rcases hf : firstMatch rules (c :: cs) with _ | ⟨ty, n⟩ <;> rw [hf] at h <;>
        dsimp only at h
      · simp at h
      · rcases hrec : lexGo fuel ((c :: cs).drop n) (idx + n) with e | rest <;>
          rw [hrec] at h <;> dsimp only at h
        · simp at h
        · have hrest := ih _ _ _ hrec
          by_cases hty : ty = .ws
          · rw [if_pos hty] at h
            simp at h
            subst h
            exact hrest
          · rw [if_neg hty] at h
            simp at h
            subst h
            intro t ht
            rcases List.mem_cons.1 ht with rfl | ht
            · have hn1 := firstMatch_pos rules rules_pos _ _ _ hf
              have hnle := firstMatch_le rules rules_le _ _ _ hf
              simp only [List.length_cons] at hnle
              refine ⟨by simpa using hty, ?_, ?_⟩
              · show (c :: cs).take n ≠ []
                intro he
                have h2 := congrArg List.length he
                rw [List.length_take] at h2
                simp only [List.length_cons, List.length_nil] at h2
                omega
              · refine ⟨(c :: cs).drop n, ?_⟩
                show firstMatch rules ((c :: cs).take n ++ (c :: cs).drop n) =
                  some (ty, ((c :: cs).take n).length)
                have hlen : ((c :: cs).take n).length = n := by
                  rw [List.length_take]
                  simp only [List.length_cons]
                  omega
                rw [List.take_append_drop, hlen]
                exact hf
            · exact hrest t ht

/-- Claim C9: re-tokenizing any emitted token's exact text yields exactly
that one token (same kind, same text, at offset 0). -/
theorem claim_C9 (s : String) (ts : List Token) (h : lexChars s.data = .ok ts) :
    ∀ t ∈ ts, lexChars t.value.data = .ok [⟨t.type, t.value, 0⟩] := by
  intro t ht
  obtain ⟨hws, hne, s2, hfm⟩ := lexGo_emit _ _ _ _ h t ht
  rcases t with ⟨tty, tval, tpos⟩
  rcases tval with ⟨vdata⟩
  simp only at hws hne hfm ⊢
  have hres := firstMatch_restrict vdata s2 tty hne hfm
  unfold lexChars
  rcases hd : vdata with _ | ⟨c, cs⟩
  · exact absurd hd hne
  · rw [hd] at hres
    simp only [List.length_cons]
    rw [lexGo, hres]
    dsimp only
    rw [List.drop_length]
    rw [show ((c :: cs).length : Nat) = cs.length + 1 from by simp]
    rw [lexGo]
    dsimp only
    rw [if_neg (by simpa using hws)]
    rw [List.take_of_length_le (by simp)]

/-- Witness for C9: in `age>=18`, the tokenizer emits the operator token
with text `>=`; re-tokenizing that text alone reproduces exactly one token
of the same kind and text. -/
theorem claim_C9_witness :
    lexChars (">=" : String).data = .ok [⟨.opGte, ">=", 0⟩] :=
  claim_C9 "age>=18" [⟨.word, "age", 0⟩, ⟨.opGte, ">=", 3⟩, ⟨.number, "18", 5⟩] (by rfl)
    ⟨.opGte, ">=", 3⟩ (by decide)
